import Mathlib

/-!
Verification of the word-deduplication pipeline of the RootCards repository.

The model is a shallow embedding of `script/04process_words.py` (collection,
rebuild, write phases) and of `script/07clean_data.py` (ranked affix
deduplication).  JSON documents are modelled by the inductive `Json`;
Python dictionaries are association lists in insertion order, and Python
exceptions are modelled with `Except String`.
-/

/-- Model of a parsed JSON value.  Numbers are modelled as integers (the
pipeline never computes with numbers; they only ride along as payload). -/
inductive Json where
  | null : Json
  | bool : Bool → Json
  | num : Int → Json
  | str : String → Json
  | arr : List Json → Json
  | obj : List (String × Json) → Json
deriving Repr

mutual

/-- Decidable equality on JSON values (Python `==` on parsed documents; the
pipeline only ever compares documents whose dict key orders agree, where
Python equality coincides with this structural one). -/
def Json.decEq : (a b : Json) → Decidable (a = b)
  | .null, .null => isTrue rfl
  | .bool x, .bool y =>
      if h : x = y then isTrue (by rw [h]) else isFalse (fun hh => h (Json.bool.inj hh))
  | .num x, .num y =>
      if h : x = y then isTrue (by rw [h]) else isFalse (fun hh => h (Json.num.inj hh))
  | .str x, .str y =>
      if h : x = y then isTrue (by rw [h]) else isFalse (fun hh => h (Json.str.inj hh))
  | .arr xs, .arr ys =>
      match Json.decEqList xs ys with
      | isTrue h => isTrue (by rw [h])
      | isFalse h => isFalse (fun hh => h (Json.arr.inj hh))
  | .obj xs, .obj ys =>
      match Json.decEqFields xs ys with
      | isTrue h => isTrue (by rw [h])
      | isFalse h => isFalse (fun hh => h (Json.obj.inj hh))
  | .null, .bool _ => isFalse (fun h => Json.noConfusion h)
  | .null, .num _ => isFalse (fun h => Json.noConfusion h)
  | .null, .str _ => isFalse (fun h => Json.noConfusion h)
  | .null, .arr _ => isFalse (fun h => Json.noConfusion h)
  | .null, .obj _ => isFalse (fun h => Json.noConfusion h)
  | .bool _, .null => isFalse (fun h => Json.noConfusion h)
  | .bool _, .num _ => isFalse (fun h => Json.noConfusion h)
  | .bool _, .str _ => isFalse (fun h => Json.noConfusion h)
  | .bool _, .arr _ => isFalse (fun h => Json.noConfusion h)
  | .bool _, .obj _ => isFalse (fun h => Json.noConfusion h)
  | .num _, .null => isFalse (fun h => Json.noConfusion h)
  | .num _, .bool _ => isFalse (fun h => Json.noConfusion h)
  | .num _, .str _ => isFalse (fun h => Json.noConfusion h)
  | .num _, .arr _ => isFalse (fun h => Json.noConfusion h)
  | .num _, .obj _ => isFalse (fun h => Json.noConfusion h)
  | .str _, .null => isFalse (fun h => Json.noConfusion h)
  | .str _, .bool _ => isFalse (fun h => Json.noConfusion h)
  | .str _, .num _ => isFalse (fun h => Json.noConfusion h)
  | .str _, .arr _ => isFalse (fun h => Json.noConfusion h)
  | .str _, .obj _ => isFalse (fun h => Json.noConfusion h)
  | .arr _, .null => isFalse (fun h => Json.noConfusion h)
  | .arr _, .bool _ => isFalse (fun h => Json.noConfusion h)
  | .arr _, .num _ => isFalse (fun h => Json.noConfusion h)
  | .arr _, .str _ => isFalse (fun h => Json.noConfusion h)
  | .arr _, .obj _ => isFalse (fun h => Json.noConfusion h)
  | .obj _, .null => isFalse (fun h => Json.noConfusion h)
  | .obj _, .bool _ => isFalse (fun h => Json.noConfusion h)
  | .obj _, .num _ => isFalse (fun h => Json.noConfusion h)
  | .obj _, .str _ => isFalse (fun h => Json.noConfusion h)
  | .obj _, .arr _ => isFalse (fun h => Json.noConfusion h)

/-- Decidable equality on lists of JSON values. -/
def Json.decEqList : (xs ys : List Json) → Decidable (xs = ys)
  | [], [] => isTrue rfl
  | [], _ :: _ => isFalse (fun h => List.noConfusion h)
  | _ :: _, [] => isFalse (fun h => List.noConfusion h)
  | x :: xs, y :: ys =>
      match Json.decEq x y with
      | isFalse h => isFalse (fun hh => h (List.cons.inj hh).1)
      | isTrue h1 =>
        match Json.decEqList xs ys with
        | isTrue h2 => isTrue (by rw [h1, h2])
        | isFalse h => isFalse (fun hh => h (List.cons.inj hh).2)

/-- Decidable equality on JSON object field lists. -/
def Json.decEqFields : (xs ys : List (String × Json)) → Decidable (xs = ys)
  | [], [] => isTrue rfl
  | [], _ :: _ => isFalse (fun h => List.noConfusion h)
  | _ :: _, [] => isFalse (fun h => List.noConfusion h)
  | (k1, v1) :: xs, (k2, v2) :: ys =>
      match String.decEq k1 k2 with
      | isFalse h => isFalse (fun hh => h (congrArg Prod.fst (List.cons.inj hh).1))
      | isTrue hk =>
        match Json.decEq v1 v2 with
        | isFalse h => isFalse (fun hh => h (congrArg Prod.snd (List.cons.inj hh).1))
        | isTrue hv =>
          match Json.decEqFields xs ys with
          | isTrue h2 => isTrue (by rw [hk, hv, h2])
          | isFalse h => isFalse (fun hh => h (List.cons.inj hh).2)

end

instance : DecidableEq Json := Json.decEq

/-- Lookup in an association list (first binding wins), modelling access to a
Python dict, whose keys are unique. -/
def alistFind {α : Type} : List (String × α) → String → Option α
  | [], _ => none
  | (k, v) :: fs, key => if k = key then some v else alistFind fs key

/-- Replace the value bound to a key, keeping its position, modelling
`d[key] = v` on a Python dict that already has the key (dict keys are
unique, so updating the first binding is exact). -/
def setField {α : Type} : List (String × α) → String → α → List (String × α)
  | [], _, _ => []
  | (k0, v0) :: fs, key, v =>
      if k0 = key then (key, v) :: fs else (k0, v0) :: setField fs key v

/-- Python truthiness of a JSON value (`if not word: ...`). -/
def pyTruthy : Json → Bool
  | .null => false
  | .bool b => b
  | .num n => n != 0
  | .str s => !s.isEmpty
  | .arr xs => !xs.isEmpty
  | .obj fs => !fs.isEmpty

/-- Hashability of a JSON value: lists and dicts are unhashable in Python,
so using them as set members raises `TypeError`. -/
def pyHashable : Json → Bool
  | .arr _ => false
  | .obj _ => false
  | _ => true

/-- Test whether `sub` occurs as a contiguous subsequence of `s`, modelling
the Python substring test `sub in s`. -/
def containsSeq (sub : List Char) : List Char → Bool
  | [] => sub.isEmpty
  | c :: cs => List.isPrefixOf sub (c :: cs) || containsSeq sub cs

/-- Model of `dict.get(key, default)`; raises `AttributeError` when the
receiver is not a dict. -/
def pyGetD (j : Json) (key : String) (d : Json) : Except String Json :=
  match j with
  | .obj fs => .ok ((alistFind fs key).getD d)
  | _ => .error "AttributeError: get"

/-- Model of `dict.get(key)` (default `None` reported as `none`); raises
`AttributeError` when the receiver is not a dict. -/
def pyGet (j : Json) (key : String) : Except String (Option Json) :=
  match j with
  | .obj fs => .ok (alistFind fs key)
  | _ => .error "AttributeError: get"

/-- Model of Python iteration over a JSON value: lists yield their elements,
strings yield one-character strings, dicts yield their keys, everything else
raises `TypeError`. -/
def pyIterate : Json → Except String (List Json)
  | .arr xs => .ok xs
  | .str s => .ok (s.data.map (fun c => .str (String.mk [c])))
  | .obj fs => .ok (fs.map (fun kv => Json.str kv.1))
  | _ => .error "TypeError: object is not iterable"

/-- Directory keywords marking special (affix) files, from
`04process_words.py`. -/
def SPECIAL_DIRS : List String := ["/pre/", "/root/", "/suf/"]

/-- Normalise path separators: `path.replace('\\', '/')`. -/
def normSlashes (p : String) : List Char :=
  p.data.map (fun c => if c = '\\' then '/' else c)

/-- A path is special when one of the special directory keywords occurs in
it: `any(sd in path.replace('\\', '/') for sd in SPECIAL_DIRS)`. -/
def isSpecial (p : String) : Bool :=
  SPECIAL_DIRS.any (fun sd => containsSeq sd.data (normSlashes p))

/-- Location record built by `collect_word_data` for every occurrence of a
word. -/
structure LocationInfo where
  path : String
  is_special : Bool
  meaning_idx : Nat
  word_idx : Nat
deriving Repr, DecidableEq

/-- Per-word record of `word_data_map`: the canonical payload (first
occurrence seen across the whole batch) and all occurrence locations. -/
structure WordInfo where
  canonical_data : Json
  locations : List LocationInfo
deriving Repr, DecidableEq

/-- The `word_data_map` dict, in insertion order. -/
abbrev WordMap := List (String × WordInfo)

/-- Record one occurrence of word `w` with payload `item` at `loc`:
first occurrence creates the entry (its payload becomes canonical), later
occurrences only append the location. -/
def addWord (wdm : WordMap) (w : String) (item : Json) (loc : LocationInfo) :
    WordMap :=
  match alistFind wdm w with
  | none => wdm ++ [(w, ⟨item, [loc]⟩)]
  | some _ =>
      wdm.map (fun kv =>
        if kv.1 = w then (kv.1, ⟨kv.2.canonical_data, kv.2.locations ++ [loc]⟩)
        else kv)

/-- Process one `word_item` during collection (`04process_words.py` lines
89-107): items that are not dicts raise; a missing, non-string or empty
`word` is skipped; otherwise the occurrence is recorded. -/
def collectItem (path : String) (isSp : Bool) (mIdx wIdx : Nat)
    (wdm : WordMap) (word_item : Json) : Except String WordMap :=
  match word_item with
  | .obj fs =>
    match alistFind fs "word" with
    | some (.str w) =>
        if w.isEmpty then .ok wdm
        else .ok (addWord wdm w (.obj fs) ⟨path, isSp, mIdx, wIdx⟩)
    | _ => .ok wdm
  | _ => .error "AttributeError: get"

/-- Collection loop over one `words` array; the pair result carries the
updated map and whether an exception escaped (caught per file). -/
def collectWords (path : String) (isSp : Bool) (mIdx : Nat) :
    Nat → WordMap → List Json → WordMap × Bool
  | _, wdm, [] => (wdm, false)
  | wIdx, wdm, it :: rest =>
    match collectItem path isSp mIdx wIdx wdm it with
    | .error _ => (wdm, true)
    | .ok wdm' => collectWords path isSp mIdx (wIdx + 1) wdm' rest

/-- Collection loop over the `meanings` array (`04process_words.py` lines
84-87): each group's `words` value is read with `.get('words', [])` and
skipped when it is not a list. -/
def collectMeanings (path : String) (isSp : Bool) :
    Nat → WordMap → List Json → WordMap × Bool
  | _, wdm, [] => (wdm, false)
  | mIdx, wdm, g :: gs =>
    match pyGetD g "words" (.arr []) with
    | .error _ => (wdm, true)
    | .ok wv =>
      match wv with
      | .arr items =>
        match collectWords path isSp mIdx 0 wdm items with
        | (wdm', true) => (wdm', true)
        | (wdm', false) => collectMeanings path isSp (mIdx + 1) wdm' gs
      | _ => collectMeanings path isSp (mIdx + 1) wdm gs

/-- Collection for one successfully parsed file (`04process_words.py` lines
78-107): the per-file `try` swallows any exception, keeping the updates made
before it was raised. -/
def collectFile (wdm : WordMap) (path : String) (data : Json) : WordMap :=
  let isSp := isSpecial path
  match pyGetD data "meanings" (.arr []) with
  | .error _ => wdm
  | .ok mv =>
    match mv with
    | .arr ms => (collectMeanings path isSp 0 wdm ms).1
    | _ => wdm

/-- Insert a file into `file_content_map`, replacing in place when the path
was already present (Python dict update keeps the original position). -/
def fcmInsert (fcm : List (String × Json)) (p : String) (d : Json) :
    List (String × Json) :=
  if (alistFind fcm p).isSome then setField fcm p d else fcm ++ [(p, d)]

/-- Phase 1, `collect_word_data`: read every file (the file system is the
function `fsys`; `none` models an unreadable or unparseable file, whose
exception is caught and the path skipped) and index every word.  Returns
`word_data_map` and `file_content_map`. -/
def collect_word_data (fsys : String → Option Json) :
    List String → WordMap → List (String × Json) →
    WordMap × List (String × Json)
  | [], wdm, fcm => (wdm, fcm)
  | p :: ps, wdm, fcm =>
    match fsys p with
    | none => collect_word_data fsys ps wdm fcm
    | some data =>
        collect_word_data fsys ps (collectFile wdm p data) (fcmInsert fcm p data)

/-- Clearing step for one meaning (`04process_words.py` lines 127-129):
`if 'words' in meaning: meaning['words'] = []`.  On a non-dict meaning the
Python `in` test runs (substring test on strings, membership on lists,
`TypeError` otherwise) and the assignment raises when it succeeds. -/
def clearMeaning : Json → Except String Json
  | .obj fs =>
      .ok (if (alistFind fs "words").isSome
           then .obj (setField fs "words" (.arr []))
           else .obj fs)
  | .str s =>
      if containsSeq "words".data s.data then .error "TypeError: item assignment"
      else .ok (.str s)
  | .arr xs =>
      if xs.contains (.str "words") then .error "TypeError: item assignment"
      else .ok (.arr xs)
  | _ => .error "TypeError: argument not iterable"

/-- Map `clearMeaning` over a meanings list, propagating the first error. -/
def clearMeanings : List Json → Except String (List Json)
  | [] => .ok []
  | g :: gs => do
      let g' ← clearMeaning g
      let gs' ← clearMeanings gs
      .ok (g' :: gs')

/-- Clearing step for one reconstructed document (`04process_words.py` lines
125-129): empty all `words` arrays when `meanings` is present and a list. -/
def clearContent : Json → Except String Json
  | .obj fs =>
      match alistFind fs "meanings" with
      | some (.arr ms) =>
          (clearMeanings ms).map (fun ms' => .obj (setField fs "meanings" (.arr ms')))
      | _ => .ok (.obj fs)
  | .str s =>
      if containsSeq "meanings".data s.data then .error "TypeError: string indices"
      else .ok (.str s)
  | .arr xs =>
      if xs.contains (.str "meanings") then .error "TypeError: list indices"
      else .ok (.arr xs)
  | _ => .error "TypeError: argument not iterable"

/-- Build `reconstructed_files` from `file_content_map`: a deep copy (the
`json.loads(json.dumps(...))` round trip, the identity on parsed values)
with every `words` array emptied. -/
def clearAll : List (String × Json) → Except String (List (String × Json))
  | [] => .ok []
  | (p, c) :: rest => do
      let c' ← clearContent c
      let rest' ← clearAll rest
      .ok ((p, c') :: rest')

/-- Model of `group['words'].append(item)` on a reconstructed meaning. -/
def pyAppendWords (g : Json) (item : Json) : Except String Json :=
  match g with
  | .obj fs =>
      match alistFind fs "words" with
      | some (.arr xs) => .ok (.obj (setField fs "words" (.arr (xs ++ [item]))))
      | some _ => .error "AttributeError: append"
      | none => .error "KeyError: words"
  | _ => .error "TypeError: item access"

/-- Model of `content['meanings'][meaning_idx]['words'].append(item)`. -/
def appendAtGroup (c : Json) (mIdx : Nat) (item : Json) : Except String Json :=
  match c with
  | .obj fs =>
      match alistFind fs "meanings" with
      | some (.arr ms) =>
          if h : mIdx < ms.length then
            (pyAppendWords (ms.get ⟨mIdx, h⟩) item).map
              (fun g' => .obj (setField fs "meanings" (.arr (ms.set mIdx g'))))
          else .error "IndexError: list index out of range"
      | some _ => .error "TypeError: indices"
      | none => .error "KeyError: meanings"
  | _ => .error "TypeError: item access"

/-- Model of `reconstructed_files[path]['meanings'][mIdx]['words'].append`. -/
def appendToRecon (recon : List (String × Json)) (path : String) (mIdx : Nat)
    (item : Json) : Except String (List (String × Json)) :=
  match alistFind recon path with
  | none => .error "KeyError: path"
  | some c => (appendAtGroup c mIdx item).map (setField recon path)

/-- State threaded through the rebuild decision loop (`04process_words.py`
lines 131-173): the reconstructed contents, the set
`words_kept_in_regular_files`, and the two entry counters. -/
structure RebuildSt where
  recon : List (String × Json)
  keptReg : List Json
  origCount : Nat
  finalCount : Nat
deriving Repr, DecidableEq

/-- Decision for one `word_item` of file `path` (`04process_words.py` lines
150-173).  `seen` is `words_seen_in_this_file`. -/
def processItem (wdm : WordMap) (path : String) (isSp : Bool) (mIdx : Nat)
    (seen : List Json) (st : RebuildSt) (word_item : Json) :
    Except String (List Json × RebuildSt) := do
  let wOpt ← pyGet word_item "word"
  match wOpt with
  | none => .ok (seen, st)
  | some w =>
    if !pyTruthy w then .ok (seen, st)
    else
      let st := { st with origCount := st.origCount + 1 }
      if !pyHashable w then .error "TypeError: unhashable type"
      else if seen.contains w then .ok (seen, st)
      else
        let seen := seen ++ [w]
        if isSp then do
          let recon' ← appendToRecon st.recon path mIdx word_item
          .ok (seen, { st with recon := recon', finalCount := st.finalCount + 1 })
        else
          if st.keptReg.contains w then .ok (seen, st)
          else
            match w with
            | .str s =>
              match alistFind wdm s with
              | some info => do
                  let recon' ← appendToRecon st.recon path mIdx info.canonical_data
                  let st' : RebuildSt :=
                    ⟨recon', st.keptReg ++ [w], st.origCount, st.finalCount + 1⟩
                  .ok (seen, st')
              | none => .error "KeyError: word"
            | _ => .error "KeyError: word"

/-- Decision loop over one `words` array. -/
def processWords (wdm : WordMap) (path : String) (isSp : Bool) (mIdx : Nat) :
    List Json → List Json → RebuildSt → Except String (List Json × RebuildSt)
  | [], seen, st => .ok (seen, st)
  | it :: rest, seen, st => do
      let (seen', st') ← processItem wdm path isSp mIdx seen st it
      processWords wdm path isSp mIdx rest seen' st'

/-- Decision loop over the enumerated `meanings` value (`04process_words.py`
lines 145-173); groups whose `words` value is not a list are skipped. -/
def processMeanings (wdm : WordMap) (path : String) (isSp : Bool) :
    Nat → List Json → List Json → RebuildSt →
    Except String (List Json × RebuildSt)
  | _, [], seen, st => .ok (seen, st)
  | mIdx, g :: gs, seen, st => do
      let wv ← pyGetD g "words" (.arr [])
      match wv with
      | .arr items => do
          let (seen', st') ← processWords wdm path isSp mIdx items seen st
          processMeanings wdm path isSp (mIdx + 1) gs seen' st'
      | _ => processMeanings wdm path isSp (mIdx + 1) gs seen st

/-- Decision step for one file visit (`04process_words.py` lines 140-173):
`words_seen_in_this_file` starts empty; the original content's `meanings`
value is read with `.get` and then iterated (Python `enumerate`, with no
list check, modelled by `pyIterate`). -/
def processFile (wdm : WordMap) (path : String) (originalContent : Json)
    (st : RebuildSt) : Except String RebuildSt := do
  let mv ← pyGetD originalContent "meanings" (.arr [])
  let ms ← pyIterate mv
  let (_, st') ← processMeanings wdm path (isSpecial path) 0 ms [] st
  .ok st'

/-- Decision loop over `all_paths` (`04process_words.py` lines 136-173);
paths missing from `file_content_map` are skipped. -/
def processAll (wdm : WordMap) (fcm : List (String × Json)) :
    List String → RebuildSt → Except String RebuildSt
  | [], st => .ok st
  | p :: ps, st =>
    match alistFind fcm p with
    | none => processAll wdm fcm ps st
    | some c => do
        let st' ← processFile wdm p c st
        processAll wdm fcm ps st'

/-- Result of `rebuild_and_write_files`: the reconstructed contents, the two
counters, and the files written back (those whose rebuilt content differs
from the original), in iteration order. -/
structure RunResult where
  recon : List (String × Json)
  origCount : Nat
  finalCount : Nat
  written : List (String × Json)
deriving Repr, DecidableEq

/-- Phases 2 and 3, `rebuild_and_write_files`: deep-copy and clear, decide
which entries to keep, then write back every document whose rebuilt content
differs from its original parsed content (`04process_words.py` lines
115-191). -/
def rebuild_and_write_files (wdm : WordMap) (fcm : List (String × Json))
    (all_paths : List String) : Except String RunResult := do
  let recon0 ← clearAll fcm
  let st ← processAll wdm fcm all_paths ⟨recon0, [], 0, 0⟩
  let written := st.recon.filter (fun pc => !(alistFind fcm pc.1 == some pc.2))
  .ok ⟨st.recon, st.origCount, st.finalCount, written⟩

/-- The whole pipeline of `04process_words.py` on a file system `fsys` and a
caller-supplied ordered path list. -/
def runPipeline (fsys : String → Option Json) (paths : List String) :
    Except String RunResult :=
  let wf := collect_word_data fsys paths [] []
  rebuild_and_write_files wf.1 wf.2 paths

/-- The file system after a run: written files hold their new content,
everything else is untouched. -/
def diskAfter (fsys : String → Option Json) (r : RunResult) :
    String → Option Json :=
  fun p => match alistFind r.written p with
    | some c => some c
    | none => fsys p

/-! Model of `script/07clean_data.py`, step 1 (ranked affix deduplication).
The scanned affix files (the glob over the priority directories) are given
as an association list from path to parsed content, which also serves as
the mutable disk state during the removal passes. -/

/-- Priority order for deduplication, from `07clean_data.py` line 8.
Lower index = higher priority. -/
def PRIORITY_ORDER : List String := ["pre", "suf", "root"]

/-- Model of `os.path.basename(os.path.dirname(f))` for slash-separated
paths. -/
def dirName (p : String) : String :=
  ((p.splitOn "/").dropLast).getLast?.getD ""

/-- Model of the Python membership test `key in j`: key lookup on dicts,
substring test on strings, element membership on lists, `TypeError`
otherwise. -/
def pyContains (j : Json) (key : String) : Except String Bool :=
  match j with
  | .obj fs => .ok (alistFind fs key).isSome
  | .str s => .ok (containsSeq key.data s.data)
  | .arr xs => .ok (xs.contains (.str key))
  | _ => .error "TypeError: argument not iterable"

/-- Model of Python `len` on a JSON value. -/
def pyLen : Json → Except String Nat
  | .arr xs => .ok xs.length
  | .str s => .ok s.length
  | .obj fs => .ok fs.length
  | _ => .error "TypeError: has no len"

/-- Model of Python `str.strip()`: drop leading and trailing whitespace. -/
def pyStrip (s : String) : String :=
  String.mk
    (((s.data.dropWhile Char.isWhitespace).reverse.dropWhile
      Char.isWhitespace).reverse)

/-- Model of `word_item.get('word', '').strip()`. -/
def stripWordOfItem (w : Json) : Except String String :=
  match w with
  | .obj fs =>
      match alistFind fs "word" with
      | none => .ok (pyStrip "")
      | some (.str s) => .ok (pyStrip s)
      | some _ => .error "AttributeError: strip"
  | _ => .error "AttributeError: get"

/-- Add a word to an insertion-ordered set of strings (model of Python
`set.add`; the iteration order of a Python set is unspecified, this model
fixes insertion order — the properties proved below do not depend on it). -/
def addNew (acc : List String) (w : String) : List String :=
  if acc.contains w then acc else acc ++ [w]

/-- Words of one meaning group for `get_words_from_data`
(`07clean_data.py` lines 36-41). -/
def getWordsGroup (g : Json) (acc : List String) : Except String (List String) := do
  let hasW ← pyContains g "words"
  if !hasW then .ok acc else
  match g with
  | .obj fs =>
    match alistFind fs "words" with
    | some (.arr items) => do
        let ws ← items.mapM stripWordOfItem
        .ok ((ws.filter (fun s => !s.isEmpty)).foldl addNew acc)
    | _ => .ok acc
  | _ => .error "TypeError: string indices"

/-- Model of `get_words_from_data` (`07clean_data.py` lines 32-42): the set
of non-empty stripped words of a document, in first-seen order. -/
def get_words_from_data (data : Json) : Except String (List String) := do
  if !pyTruthy data then .ok [] else
  let hasM ← pyContains data "meanings"
  if !hasM then .ok [] else
  match data with
  | .obj fs =>
    match alistFind fs "meanings" with
    | some (.arr gs) => gs.foldlM (fun acc g => getWordsGroup g acc) []
    | _ => .ok []
  | _ => .error "TypeError: string indices"

/-- Removal pass over one meaning for `remove_words_from_data`
(`07clean_data.py` lines 48-55). -/
def removeFromMeaning (toRemove : List String) (g : Json) :
    Except String (Json × Nat) := do
  let hasW ← pyContains g "words"
  if !hasW then .ok (g, 0) else
  match g with
  | .obj fs =>
    match alistFind fs "words" with
    | some wv => do
        let origLen ← pyLen wv
        let items ← pyIterate wv
        let kept ← items.filterM (fun w => do
          let s ← stripWordOfItem w
          pure (!toRemove.contains s))
        .ok (.obj (setField fs "words" (.arr kept)), origLen - kept.length)
    | none => .ok (g, 0)
  | _ => .error "TypeError: string indices"

/-- Model of `remove_words_from_data` (`07clean_data.py` lines 44-56):
strip a set of words from a document, returning the new document and the
number of entries removed.  Only a list-valued `meanings` is actually
rebuilt; iterating any other truthy value either leaves the document
unchanged or raises, exactly as the unguarded Python loop does. -/
def remove_words_from_data (data : Json) (toRemove : List String) :
    Except String (Json × Nat) := do
  if !pyTruthy data then .ok (data, 0) else
  let hasM ← pyContains data "meanings"
  if !hasM then .ok (data, 0) else
  match data with
  | .obj fs =>
    match alistFind fs "meanings" with
    | some (.arr gs) => do
        let rs ← gs.mapM (removeFromMeaning toRemove)
        .ok (.obj (setField fs "meanings" (.arr (rs.map Prod.fst))),
             (rs.map Prod.snd).sum)
    | some mv => do
        let gs ← pyIterate mv
        let rs ← gs.mapM (removeFromMeaning toRemove)
        .ok (.obj fs, (rs.map Prod.snd).sum)
    | none => .ok (.obj fs, 0)
  | _ => .error "TypeError: string indices"

/-- Append a file path to the `word_file_map` entry of a word. -/
def wfmAdd (m : List (String × List String)) (w : String) (p : String) :
    List (String × List String) :=
  match alistFind m w with
  | none => m ++ [(w, [p])]
  | some _ => m.map (fun kv => if kv.1 = w then (kv.1, kv.2 ++ [p]) else kv)

/-- Build `word_file_map` (`07clean_data.py` lines 65-78): for every scanned
file, record the file against each of its words.  Files whose content is
falsy are skipped (`if not data: continue`). -/
def buildWfm : List (String × Json) → List (String × List String) →
    Except String (List (String × List String))
  | [], m => .ok m
  | (p, data) :: rest, m =>
    if !pyTruthy data then buildWfm rest m
    else do
      let ws ← get_words_from_data data
      buildWfm rest (ws.foldl (fun acc w => wfmAdd acc w p) m)

/-- Priority rank of a file: the index of its immediate directory in
`PRIORITY_ORDER`, `none` when the directory is not listed. -/
def affixPriority (f : String) : Option Nat :=
  PRIORITY_ORDER.findIdx? (fun d => d = dirName f)

/-- The selection fold of `07clean_data.py` lines 92-102 over the
alphabetically sorted file list: keep the file with the strictly smallest
priority rank seen so far; unranked directories are skipped. -/
def pickBest : List String → Option (String × Nat) → Option (String × Nat)
  | [], best => best
  | f :: rest, best =>
    match affixPriority f with
    | none => pickBest rest best
    | some pr =>
      match best with
      | none => pickBest rest (some (f, pr))
      | some (bf, bp) =>
          if pr < bp then pickBest rest (some (f, pr))
          else pickBest rest (some (bf, bp))

/-- The `best_file` chosen for a duplicated word. -/
def best_file (files : List String) : Option String :=
  (pickBest (files.insertionSort (fun a b => a ≤ b)) none).map Prod.fst

/-- Removal loop over `files_to_remove_from` (`07clean_data.py` lines
113-117): reload each file from the current disk, strip the word, and save
only when something was removed.  A file that fails to load yields `None`,
which `remove_words_from_data` treats as falsy (nothing removed, no save). -/
def removeWordFromFiles (w : String) :
    List String → List (String × Json) → Except String (List (String × Json))
  | [], disk => .ok disk
  | f :: rest, disk =>
    match alistFind disk f with
    | none => removeWordFromFiles w rest disk
    | some data => do
        let rc ← remove_words_from_data data [w]
        removeWordFromFiles w rest
          (if rc.2 > 0 then setField disk f rc.1 else disk)

/-- Resolution loop over the duplicated words (`07clean_data.py` lines
88-117). -/
def processDuplicates :
    List (String × List String) → List (String × Json) →
    Except String (List (String × Json))
  | [], disk => .ok disk
  | (w, files) :: rest, disk =>
    match best_file files with
    | none => processDuplicates rest disk
    | some bf => do
        let disk' ← removeWordFromFiles w (files.filter (fun f => f ≠ bf)) disk
        processDuplicates rest disk'

/-- Final rescan of `07clean_data.py` lines 120-126. -/
def rescanWords : List (String × Json) → List String →
    Except String (List String)
  | [], acc => .ok acc
  | (_, data) :: rest, acc =>
    if !pyTruthy data then rescanWords rest acc
    else do
      let ws ← get_words_from_data data
      rescanWords rest (ws.foldl addNew acc)

/-- Model of `step_1_deduplicate_affixes` (`07clean_data.py` lines 58-126)
on the scanned affix files (path, parsed content): returns the final disk
state and the final set of affix words. -/
def step_1_deduplicate_affixes (disk : List (String × Json)) :
    Except String (List (String × Json) × List String) := do
  let wfm ← buildWfm disk []
  let duplicates := wfm.filter (fun kv => kv.2.length > 1)
  if duplicates.isEmpty then
    .ok (disk, wfm.map Prod.fst)
  else do
    let disk' ← processDuplicates duplicates disk
    let finalWords ← rescanWords disk' []
    .ok (disk', finalWords)

/-! Observation functions and well-formedness predicates used to state the
claims about `04process_words.py`. -/

/-- The word key and payload of one entry, when the entry has a non-empty
string `word` (the entries indexed by the collection phase and retained by
the rebuild phase). -/
def itemWord (it : Json) : Option (String × Json) :=
  match it with
  | .obj fs =>
    match alistFind fs "word" with
    | some (.str w) => if w.isEmpty then none else some (w, .obj fs)
    | _ => none
  | _ => none

/-- The (word, payload) sequence of one meaning group. -/
def groupWords (g : Json) : List (String × Json) :=
  match g with
  | .obj fs =>
    match alistFind fs "words" with
    | some (.arr items) => items.filterMap itemWord
    | _ => []
  | _ => []

/-- The (word, payload) sequence of a document, in traversal order. -/
def docWords (c : Json) : List (String × Json) :=
  match c with
  | .obj fs =>
    match alistFind fs "meanings" with
    | some (.arr gs) => gs.flatMap groupWords
    | _ => []
  | _ => []

/-- Whether a word string occurs (as a proper entry) in a document. -/
def docHasWord (c : Json) (w : String) : Bool :=
  (docWords c).any (fun pr => pr.1 = w)

/-- Payload of the first entry for a word in a document. -/
def firstEntryFor (c : Json) (w : String) : Option Json :=
  ((docWords c).find? (fun pr => pr.1 = w)).map Prod.snd

/-- The flattened (word, payload) stream of an ordered file list. -/
def flatWords (files : List (String × Json)) : List (String × Json) :=
  files.flatMap (fun pc => docWords pc.2)

/-- Payload of the first occurrence of a word across an ordered file list
(the canonical payload of the spec). -/
def firstItemFor (files : List (String × Json)) (w : String) : Option Json :=
  ((flatWords files).find? (fun pr => pr.1 = w)).map Prod.snd

/-- Keep only the first entry of each word, dropping later duplicates. -/
def firstOccsAux (seen : List String) : List (String × Json) →
    List (String × Json)
  | [] => []
  | (w, it) :: rest =>
      if seen.contains w then firstOccsAux seen rest
      else (w, it) :: firstOccsAux (seen ++ [w]) rest

/-- Same-document deduplication: the first occurrence of each word, in
traversal order. -/
def firstOccs (l : List (String × Json)) : List (String × Json) :=
  firstOccsAux [] l

/-- Well-formed word entry: a dict whose `word` field, when present, is a
string or falsy. -/
def wfItem (it : Json) : Bool :=
  match it with
  | .obj fs =>
    match alistFind fs "word" with
    | none => true
    | some (.str _) => true
    | some v => !pyTruthy v
  | _ => false

/-- Well-formed meaning group: a dict whose `words` value, when present and
a list, holds well-formed entries. -/
def wfGroup (g : Json) : Bool :=
  match g with
  | .obj fs =>
    match alistFind fs "words" with
    | none => true
    | some (.arr items) => items.all wfItem
    | some _ => true
  | _ => false

/-- Well-formed document for the `04process_words.py` pipeline: a dict
whose `meanings` value, when present, is a list of well-formed groups. -/
def wfDoc (c : Json) : Bool :=
  match c with
  | .obj fs =>
    match alistFind fs "meanings" with
    | none => true
    | some (.arr gs) => gs.all wfGroup
    | some _ => false
  | _ => false

/-- Well-formedness of the file system along the input paths. -/
def wfLoad (fsys : String → Option Json) (p : String) : Bool :=
  match fsys p with
  | some d => wfDoc d
  | none => true

/-- The successfully loaded files, in input order. -/
def loadedOf (fsys : String → Option Json) (paths : List String) :
    List (String × Json) :=
  paths.filterMap (fun p => (fsys p).map (fun d => (p, d)))

/-! Total reference form of the rebuild phase, used to state what the
`Except`-valued model computes on well-formed input. -/

/-- Canonical payload of a word in `word_data_map`. -/
def canonicalOf (wdm : WordMap) (w : String) : Option Json :=
  (alistFind wdm w).map (fun info => info.canonical_data)

/-- Canonical payload with a placeholder default (never used when the map
covers the word). -/
def canonicalOfD (wdm : WordMap) (w : String) : Json :=
  (canonicalOf wdm w).getD .null

/-- Total form of `clearMeaning` on a well-formed group. -/
def clearGroupWf (g : Json) : Json :=
  match g with
  | .obj gfs =>
      if (alistFind gfs "words").isSome then .obj (setField gfs "words" (.arr []))
      else .obj gfs
  | _ => g

/-- Total form of `clearContent` on a well-formed document. -/
def clearDocWf (c : Json) : Json :=
  match c with
  | .obj fs =>
    match alistFind fs "meanings" with
    | some (.arr gs) => .obj (setField fs "meanings" (.arr (gs.map clearGroupWf)))
    | _ => .obj fs
  | _ => c

/-- Reference decision fold over the word entries of one group: keep a
first-in-document occurrence (and, in regular files, first across regular
files, replacing the payload by the canonical one).  Returns the kept
(word, payload) pairs and the updated seen/kept sets. -/
def refItems (wdm : WordMap) (isSp : Bool) :
    List (String × Json) → List String → List String →
    List (String × Json) × List String × List String
  | [], seen, kept => ([], seen, kept)
  | (w, it) :: rest, seen, kept =>
    if seen.contains w then refItems wdm isSp rest seen kept
    else if isSp then
      let r := refItems wdm isSp rest (seen ++ [w]) kept
      ((w, it) :: r.1, r.2)
    else if kept.contains w then refItems wdm isSp rest (seen ++ [w]) kept
    else
      let r := refItems wdm isSp rest (seen ++ [w]) (kept ++ [w])
      ((w, canonicalOfD wdm w) :: r.1, r.2)

/-- Result of the reference rebuild of one group: the rebuilt group, the
number of entries kept, and the updated seen/kept sets. -/
structure RefGroupOut where
  g : Json
  cnt : Nat
  seen : List String
  kept : List String
deriving Repr

/-- Reference rebuild of one group. -/
def refGroup (wdm : WordMap) (isSp : Bool) (g : Json)
    (seen kept : List String) : RefGroupOut :=
  match g with
  | .obj gfs =>
    match alistFind gfs "words" with
    | some (.arr items) =>
        let r := refItems wdm isSp (items.filterMap itemWord) seen kept
        ⟨.obj (setField gfs "words" (.arr (r.1.map Prod.snd))),
         r.1.length, r.2.1, r.2.2⟩
    | some _ => ⟨.obj (setField gfs "words" (.arr [])), 0, seen, kept⟩
    | none => ⟨.obj gfs, 0, seen, kept⟩
  | _ => ⟨g, 0, seen, kept⟩

/-- Result of the reference rebuild of a group list. -/
structure RefGroupsOut where
  gs : List Json
  cnt : Nat
  seen : List String
  kept : List String
deriving Repr

/-- Reference rebuild of a list of groups, threading the per-document seen
set and the cross-file kept set. -/
def refGroups (wdm : WordMap) (isSp : Bool) :
    List Json → List String → List String → RefGroupsOut
  | [], seen, kept => ⟨[], 0, seen, kept⟩
  | g :: gs, seen, kept =>
    let r := refGroup wdm isSp g seen kept
    let rs := refGroups wdm isSp gs r.seen r.kept
    ⟨r.g :: rs.gs, r.cnt + rs.cnt, rs.seen, rs.kept⟩

/-- Result of the reference rebuild of one document. -/
structure RefDocOut where
  c : Json
  cnt : Nat
  kept : List String
deriving Repr

/-- Reference rebuild of one document given the incoming
`words_kept_in_regular_files` set. -/
def refDoc (wdm : WordMap) (isSp : Bool) (c : Json) (kept : List String) :
    RefDocOut :=
  match c with
  | .obj fs =>
    match alistFind fs "meanings" with
    | some (.arr gs) =>
        let r := refGroups wdm isSp gs [] kept
        ⟨.obj (setField fs "meanings" (.arr r.gs)), r.cnt, r.kept⟩
    | _ => ⟨.obj fs, 0, kept⟩
  | _ => ⟨c, 0, kept⟩

/-- Result of the reference rebuild of the loaded file list. -/
structure RefFilesOut where
  files : List (String × Json)
  cnt : Nat
  kept : List String
deriving Repr

/-- Reference rebuild of the ordered loaded file list. -/
def refFiles (wdm : WordMap) :
    List (String × Json) → List String → RefFilesOut
  | [], kept => ⟨[], 0, kept⟩
  | (p, c) :: rest, kept =>
    let r := refDoc wdm (isSpecial p) c kept
    let rs := refFiles wdm rest r.kept
    ⟨(p, r.c) :: rs.files, r.cnt + rs.cnt, rs.kept⟩

/-! Association list lemmas. -/

theorem alistFind_nil {α : Type} (k : String) :
    alistFind ([] : List (String × α)) k = none := rfl

theorem alistFind_cons {α : Type} (k0 : String) (v0 : α)
    (fs : List (String × α)) (k : String) :
    alistFind ((k0, v0) :: fs) k = if k0 = k then some v0 else alistFind fs k := rfl

theorem alistFind_append {α : Type} (l1 l2 : List (String × α)) (k : String) :
    alistFind (l1 ++ l2) k = (alistFind l1 k).or (alistFind l2 k) := by
  induction l1 with
  | nil => simp [alistFind_nil]
  | cons hd tl ih =>
      obtain ⟨k0, v0⟩ := hd
      by_cases h : k0 = k <;> simp [alistFind_cons, h, ih]

theorem alistFind_eq_none_iff {α : Type} (l : List (String × α)) (k : String) :
    alistFind l k = none ↔ k ∉ l.map Prod.fst := by
  induction l with
  | nil => simp [alistFind_nil]
  | cons hd tl ih =>
      obtain ⟨k0, v0⟩ := hd
      by_cases h : k0 = k
      · simp [alistFind_cons, h]
      · simp only [alistFind_cons, if_neg h, List.map_cons, List.mem_cons, ih]
        constructor
        · rintro hk (he | hm)
          · exact h he.symm
          · exact hk hm
        · intro hk hm
          exact hk (Or.inr hm)

theorem alistFind_isSome_iff {α : Type} (l : List (String × α)) (k : String) :
    (alistFind l k).isSome = true ↔ k ∈ l.map Prod.fst := by
  rw [Option.isSome_iff_ne_none, ne_eq, alistFind_eq_none_iff]
  exact not_not

theorem alistFind_mem {α : Type} (l : List (String × α)) (k : String) (v : α)
    (h : alistFind l k = some v) : (k, v) ∈ l := by
  induction l with
  | nil => simp [alistFind_nil] at h
  | cons hd tl ih =>
      obtain ⟨k0, v0⟩ := hd
      rw [alistFind_cons] at h
      by_cases hk : k0 = k
      · simp [hk] at h; simp [hk, h]
      · simp [hk] at h; exact List.mem_cons_of_mem _ (ih h)

theorem alistFind_of_mem_nodup {α : Type} (l : List (String × α)) (k : String)
    (v : α) (hmem : (k, v) ∈ l) (hnd : (l.map Prod.fst).Nodup) :
    alistFind l k = some v := by
  induction l with
  | nil => simp at hmem
  | cons hd tl ih =>
      obtain ⟨k0, v0⟩ := hd
      simp only [List.map_cons, List.nodup_cons] at hnd
      rcases List.mem_cons.mp hmem with h | h
      · simp only [Prod.mk.injEq] at h
        simp [alistFind_cons, h.1.symm, h.2]
      · have hne : k0 ≠ k := by
          intro he
          exact hnd.1 (he ▸ (List.mem_map.mpr ⟨(k, v), h, rfl⟩))
        simp [alistFind_cons, hne, ih h hnd.2]

theorem setField_keys {α : Type} (fs : List (String × α)) (k : String) (v : α)
    (h : (alistFind fs k).isSome = true) :
    (setField fs k v).map Prod.fst = fs.map Prod.fst := by
  induction fs with
  | nil => rfl
  | cons hd tl ih =>
      obtain ⟨k0, v0⟩ := hd
      by_cases hk : k0 = k
      · simp [setField, hk]
      · rw [alistFind_cons, if_neg hk] at h
        simp [setField, hk, ih h]

theorem alistFind_setField_self {α : Type} (fs : List (String × α)) (k : String)
    (v : α) (h : (alistFind fs k).isSome = true) :
    alistFind (setField fs k v) k = some v := by
  induction fs with
  | nil => simp [alistFind_nil] at h
  | cons hd tl ih =>
      obtain ⟨k0, v0⟩ := hd
      by_cases hk : k0 = k
      · simp [setField, hk, alistFind_cons]
      · rw [alistFind_cons, if_neg hk] at h
        simp [setField, hk, alistFind_cons, ih h]

theorem alistFind_setField_ne {α : Type} (fs : List (String × α))
    (k k' : String) (v : α) (h : k' ≠ k) :
    alistFind (setField fs k v) k' = alistFind fs k' := by
  induction fs with
  | nil => rfl
  | cons hd tl ih =>
      obtain ⟨k0, v0⟩ := hd
      by_cases hk : k0 = k
      · have h2 : k ≠ k' := fun he => h he.symm
        simp [setField, hk, alistFind_cons, h2]
      · by_cases hk' : k0 = k'
        · subst hk'
          simp [setField, hk, alistFind_cons]
        · simp [setField, hk, alistFind_cons, hk', ih]

theorem setField_setField {α : Type} (fs : List (String × α)) (k : String)
    (v v' : α) : setField (setField fs k v) k v' = setField fs k v' := by
  induction fs with
  | nil => rfl
  | cons hd tl ih =>
      obtain ⟨k0, v0⟩ := hd
      by_cases hk : k0 = k <;> simp [setField, hk, ih]

theorem setField_self_id {α : Type} (fs : List (String × α)) (k : String)
    (v : α) (h : alistFind fs k = some v) : setField fs k v = fs := by
  induction fs with
  | nil => rfl
  | cons hd tl ih =>
      obtain ⟨k0, v0⟩ := hd
      rw [alistFind_cons] at h
      by_cases hk : k0 = k
      · simp [hk] at h
        simp [setField, hk, h]
      · simp [hk] at h
        simp [setField, hk, ih h]

theorem setField_of_not_mem {α : Type} (fs : List (String × α)) (k : String)
    (v : α) (h : alistFind fs k = none) : setField fs k v = fs := by
  induction fs with
  | nil => rfl
  | cons hd tl ih =>
      obtain ⟨k0, v0⟩ := hd
      rw [alistFind_cons] at h
      by_cases hk : k0 = k
      · simp [hk] at h
      · simp [hk] at h
        simp [setField, hk, ih h]

theorem alistFind_mapValues {α β : Type} (l : List (String × α)) (f : α → β)
    (k : String) :
    alistFind (l.map (fun pc => (pc.1, f pc.2))) k = (alistFind l k).map f := by
  induction l with
  | nil => rfl
  | cons hd tl ih =>
      obtain ⟨k0, v0⟩ := hd
      by_cases hk : k0 = k <;> simp [alistFind_cons, hk, ih]

/-- Two association lists with the same (duplicate-free) key sequence and
the same lookups are equal. -/
theorem alist_ext {α : Type} (l1 l2 : List (String × α))
    (hkeys : l1.map Prod.fst = l2.map Prod.fst)
    (hnd : (l1.map Prod.fst).Nodup)
    (hfind : ∀ k, alistFind l1 k = alistFind l2 k) : l1 = l2 := by
  induction l1 generalizing l2 with
  | nil => cases l2 with
    | nil => rfl
    | cons hd tl => simp at hkeys
  | cons hd tl ih =>
      obtain ⟨k0, v0⟩ := hd
      cases l2 with
      | nil => simp at hkeys
      | cons hd2 tl2 =>
          obtain ⟨k2, v2⟩ := hd2
          simp only [List.map_cons, List.cons.injEq] at hkeys
          obtain ⟨hk02, hkeys2⟩ := hkeys
          simp only [List.map_cons, List.nodup_cons] at hnd
          have hv : v0 = v2 := by
            have hf := hfind k0
            rw [alistFind_cons, if_pos rfl, alistFind_cons, if_pos hk02.symm] at hf
            exact Option.some.inj hf
          have htl : tl = tl2 := by
            refine ih tl2 hkeys2 hnd.2 (fun k => ?_)
            by_cases hk : k0 = k
            · subst hk
              rw [(alistFind_eq_none_iff tl k0).mpr hnd.1,
                  (alistFind_eq_none_iff tl2 k0).mpr (hkeys2 ▸ hnd.1)]
            · have hf := hfind k
              rw [alistFind_cons, if_neg hk, alistFind_cons, if_neg (hk02 ▸ hk)] at hf
              exact hf
          rw [hk02, hv, htl]

/-! Characterisation of the collection phase. -/

/-- Soundness of `word_data_map`: every canonical payload is an entry whose
`word` field is its own key. -/
def wdmGood (wdm : WordMap) : Prop :=
  ∀ w info, alistFind wdm w = some info →
    itemWord info.canonical_data = some (w, info.canonical_data)

theorem alistFind_locmap (wdm : WordMap) (w : String) (loc : LocationInfo)
    (w' : String) :
    alistFind
      (wdm.map (fun kv =>
        if kv.1 = w then (kv.1, WordInfo.mk kv.2.canonical_data (kv.2.locations ++ [loc]))
        else kv)) w' =
    (alistFind wdm w').map (fun info =>
      if w' = w then WordInfo.mk info.canonical_data (info.locations ++ [loc])
      else info) := by
  induction wdm with
  | nil => rfl
  | cons hd tl ih =>
      obtain ⟨k0, i0⟩ := hd
      by_cases hw : k0 = w <;> by_cases hk : k0 = w'
      · subst hw; subst hk
        simp [alistFind_cons]
      · subst hw
        have hki : ¬ (w' = k0) := fun he => hk he.symm
        simp [alistFind_cons, hk, hki, ih]
      · have hww : ¬ (w' = w) := fun he => hw (hk.trans he)
        simp [alistFind_cons, hw, hk, hww]
      · simp [alistFind_cons, hw, hk, ih]

theorem canonicalOf_addWord (wdm : WordMap) (w : String) (it : Json)
    (loc : LocationInfo) (w' : String) :
    canonicalOf (addWord wdm w it loc) w' =
      if w' = w then some ((canonicalOf wdm w).getD it)
      else canonicalOf wdm w' := by
  cases hfind : alistFind wdm w with
  | none =>
      simp only [addWord, hfind]
      by_cases h : w' = w
      · subst h
        simp [canonicalOf, alistFind_append, hfind, alistFind_cons]
      · have h2 : ¬ (w = w') := fun he => h he.symm
        simp [canonicalOf, alistFind_append, h, alistFind_cons, alistFind_nil, h2]
  | some info =>
      simp only [addWord, hfind]
      rw [canonicalOf, alistFind_locmap]
      by_cases h : w' = w
      · subst h
        simp [canonicalOf, hfind]
      · simp only [if_neg h]
        rw [canonicalOf]
        cases alistFind wdm w' <;> simp [h]

theorem wdmGood_addWord (wdm : WordMap) (w : String) (it : Json)
    (loc : LocationInfo) (hg : wdmGood wdm)
    (hit : itemWord it = some (w, it)) : wdmGood (addWord wdm w it loc) := by
  intro w' info hfind
  cases hw : alistFind wdm w with
  | none =>
      simp only [addWord, hw] at hfind
      rw [alistFind_append] at hfind
      cases hfind2 : alistFind wdm w' with
      | some info2 =>
          rw [hfind2] at hfind
          simp only [Option.or_some] at hfind
          injection hfind with h
          rw [← h]
          exact hg w' info2 hfind2
      | none =>
          rw [hfind2] at hfind
          simp only [Option.none_or, alistFind_cons, alistFind_nil] at hfind
          by_cases he : w = w'
          · subst he
            rw [if_pos rfl] at hfind
            cases hfind
            exact hit
          · rw [if_neg he] at hfind
            cases hfind
  | some info0 =>
      have heq : addWord wdm w it loc =
          wdm.map (fun kv =>
            if kv.1 = w then
              (kv.1, WordInfo.mk kv.2.canonical_data (kv.2.locations ++ [loc]))
            else kv) := by
        unfold addWord
        rw [hw]
      rw [heq, alistFind_locmap] at hfind
      cases hfind2 : alistFind wdm w' with
      | none => rw [hfind2] at hfind; cases hfind
      | some info2 =>
          rw [hfind2] at hfind
          simp only [Option.map] at hfind
          by_cases he : w' = w
          · rw [if_pos he] at hfind
            have hc : info.canonical_data = info2.canonical_data := by
              cases hfind; rfl
            rw [hc]
            exact hg w' info2 hfind2
          · rw [if_neg he] at hfind
            injection hfind with h
            rw [← h]
            exact hg w' info2 hfind2

theorem itemWord_val (it : Json) (w : String) (v : Json)
    (h : itemWord it = some (w, v)) : v = it ∧ itemWord it = some (w, it) := by
  cases it with
  | obj fs =>
      simp only [itemWord] at h ⊢
      cases hf : alistFind fs "word" with
      | none => rw [hf] at h; simp at h
      | some jv =>
          rw [hf] at h
          cases jv with
          | str s =>
              by_cases hs : s.isEmpty
              · simp [hs] at h
              · simp [hs] at h ⊢
                exact ⟨h.2.symm, h.1⟩
          | null => simp at h
          | bool b => simp at h
          | num n => simp at h
          | arr xs => simp at h
          | obj fs2 => simp at h
  | null => cases h
  | bool b => cases h
  | num n => cases h
  | str s => cases h
  | arr xs => cases h

theorem collectItem_wf (path : String) (isSp : Bool) (mIdx wIdx : Nat)
    (wdm : WordMap) (it : Json) (h : wfItem it = true) :
    collectItem path isSp mIdx wIdx wdm it =
      .ok (match itemWord it with
           | none => wdm
           | some pr => addWord wdm pr.1 pr.2 ⟨path, isSp, mIdx, wIdx⟩) := by
  cases it with
  | obj fs =>
      simp only [collectItem, itemWord]
      cases hf : alistFind fs "word" with
      | none => rfl
      | some jv =>
          cases jv with
          | str s =>
              by_cases hs : s.isEmpty
              · simp [hs]
              · simp [hs]
          | null => rfl
          | bool b => rfl
          | num n => rfl
          | arr xs => rfl
          | obj fs2 => rfl
  | null => simp [wfItem] at h
  | bool b => simp [wfItem] at h
  | num n => simp [wfItem] at h
  | str s => simp [wfItem] at h
  | arr xs => simp [wfItem] at h

theorem collectWords_spec (path : String) (isSp : Bool) (mIdx : Nat)
    (items : List Json) :
    ∀ (wIdx : Nat) (wdm : WordMap),
      items.all wfItem = true →
      (collectWords path isSp mIdx wIdx wdm items).2 = false ∧
      (∀ w', canonicalOf (collectWords path isSp mIdx wIdx wdm items).1 w' =
        (canonicalOf wdm w').or
          (((items.filterMap itemWord).find? (fun pr => pr.1 = w')).map Prod.snd)) ∧
      (wdmGood wdm → wdmGood (collectWords path isSp mIdx wIdx wdm items).1) := by
  induction items with
  | nil =>
      intro wIdx wdm h
      exact ⟨rfl, fun w' => by simp [collectWords], fun hg => hg⟩
  | cons it rest ih =>
      intro wIdx wdm h
      rw [List.all_cons, Bool.and_eq_true] at h
      have hstep : collectWords path isSp mIdx wIdx wdm (it :: rest) =
          collectWords path isSp mIdx (wIdx + 1)
            (match itemWord it with
             | none => wdm
             | some pr => addWord wdm pr.1 pr.2 ⟨path, isSp, mIdx, wIdx⟩) rest := by
        simp only [collectWords, collectItem_wf path isSp mIdx wIdx wdm it h.1]
      rw [hstep]
      cases hiw : itemWord it with
      | none =>
          obtain ⟨hf, hc, hgd⟩ := ih (wIdx + 1) wdm h.2
          exact ⟨hf, fun w' => by
            rw [List.filterMap_cons, hiw]
            exact hc w', hgd⟩
      | some pr =>
          obtain ⟨w0, v0⟩ := pr
          obtain ⟨hf, hc, hgd⟩ :=
            ih (wIdx + 1) (addWord wdm w0 v0 ⟨path, isSp, mIdx, wIdx⟩) h.2
          refine ⟨hf, fun w' => ?_, fun hg => ?_⟩
          · rw [hc w', List.filterMap_cons, hiw]
            rw [canonicalOf_addWord]
            by_cases he : w' = w0
            · subst he
              rw [if_pos rfl, List.find?_cons]
              cases hcw : canonicalOf wdm w' <;> simp [hcw]
            · rw [if_neg he, List.find?_cons]
              have hd : (decide (w0 = w')) = false := by
                simp only [decide_eq_false_iff_not]
                exact fun hh => he hh.symm
              rw [hd]
          · have hval := itemWord_val it w0 v0 hiw
            apply hgd
            apply wdmGood_addWord wdm w0 v0 _ hg
            rw [hval.1]
            exact hval.2

theorem option_map_or {α β : Type} (f : α → β) (a b : Option α) :
    (a.or b).map f = (a.map f).or (b.map f) := by
  cases a <;> simp

theorem collectMeanings_spec (path : String) (isSp : Bool) (gs : List Json) :
    ∀ (mIdx : Nat) (wdm : WordMap),
      gs.all wfGroup = true →
      (collectMeanings path isSp mIdx wdm gs).2 = false ∧
      (∀ w', canonicalOf (collectMeanings path isSp mIdx wdm gs).1 w' =
        (canonicalOf wdm w').or
          (((gs.flatMap groupWords).find? (fun pr => pr.1 = w')).map Prod.snd)) ∧
      (wdmGood wdm → wdmGood (collectMeanings path isSp mIdx wdm gs).1) := by
  induction gs with
  | nil =>
      intro mIdx wdm h
      exact ⟨rfl, fun w' => by simp [collectMeanings], fun hg => hg⟩
  | cons g rest ih =>
      intro mIdx wdm h
      rw [List.all_cons, Bool.and_eq_true] at h
      obtain ⟨hg1, hrest⟩ := h
      cases g with
      | obj gfs =>
          have hpg : pyGetD (Json.obj gfs) "words" (.arr []) =
              .ok ((alistFind gfs "words").getD (.arr [])) := rfl
          cases hw : alistFind gfs "words" with
          | none =>
              have hstep : collectMeanings path isSp mIdx wdm (Json.obj gfs :: rest) =
                  collectMeanings path isSp (mIdx + 1) wdm rest := by
                simp only [collectMeanings, hpg, hw, Option.getD]
                rfl
              rw [hstep]
              obtain ⟨hf, hc, hgd⟩ := ih (mIdx + 1) wdm hrest
              refine ⟨hf, fun w' => ?_, hgd⟩
              rw [hc w', List.flatMap_cons]
              have : groupWords (Json.obj gfs) = [] := by
                simp [groupWords, hw]
              rw [this, List.nil_append]
          | some wv =>
              cases wv with
              | arr items =>
                  have hitems : items.all wfItem = true := by
                    have := hg1
                    simp only [wfGroup, hw] at this
                    exact this
                  obtain ⟨hwf, hwc, hwgd⟩ :=
                    collectWords_spec path isSp mIdx items 0 wdm hitems
                  have hpair : collectWords path isSp mIdx 0 wdm items =
                      ((collectWords path isSp mIdx 0 wdm items).1, false) := by
                    rw [Prod.ext_iff]
                    exact ⟨rfl, hwf⟩
                  have hstep : collectMeanings path isSp mIdx wdm (Json.obj gfs :: rest) =
                      collectMeanings path isSp (mIdx + 1)
                        (collectWords path isSp mIdx 0 wdm items).1 rest := by
                    simp only [collectMeanings, hpg, hw, Option.getD]
                    rw [hpair]
                  rw [hstep]
                  obtain ⟨hf, hc, hgd⟩ :=
                    ih (mIdx + 1) (collectWords path isSp mIdx 0 wdm items).1 hrest
                  refine ⟨hf, fun w' => ?_, fun hgood => hgd (hwgd hgood)⟩
                  rw [hc w', hwc w', List.flatMap_cons]
                  have hgw : groupWords (Json.obj gfs) = items.filterMap itemWord := by
                    simp [groupWords, hw]
                  rw [hgw, List.find?_append, option_map_or, Option.or_assoc]
              | null =>
                  have hstep : collectMeanings path isSp mIdx wdm (Json.obj gfs :: rest) =
                      collectMeanings path isSp (mIdx + 1) wdm rest := by
                    simp only [collectMeanings, hpg, hw, Option.getD]
                  rw [hstep]
                  obtain ⟨hf, hc, hgd⟩ := ih (mIdx + 1) wdm hrest
                  refine ⟨hf, fun w' => ?_, hgd⟩
                  rw [hc w', List.flatMap_cons]
                  have hgw : groupWords (Json.obj gfs) = [] := by simp [groupWords, hw]
                  rw [hgw, List.nil_append]
              | bool b =>
                  have hstep : collectMeanings path isSp mIdx wdm (Json.obj gfs :: rest) =
                      collectMeanings path isSp (mIdx + 1) wdm rest := by
                    simp only [collectMeanings, hpg, hw, Option.getD]
                  rw [hstep]
                  obtain ⟨hf, hc, hgd⟩ := ih (mIdx + 1) wdm hrest
                  refine ⟨hf, fun w' => ?_, hgd⟩
                  rw [hc w', List.flatMap_cons]
                  have hgw : groupWords (Json.obj gfs) = [] := by simp [groupWords, hw]
                  rw [hgw, List.nil_append]
              | num n =>
                  have hstep : collectMeanings path isSp mIdx wdm (Json.obj gfs :: rest) =
                      collectMeanings path isSp (mIdx + 1) wdm rest := by
                    simp only [collectMeanings, hpg, hw, Option.getD]
                  rw [hstep]
                  obtain ⟨hf, hc, hgd⟩ := ih (mIdx + 1) wdm hrest
                  refine ⟨hf, fun w' => ?_, hgd⟩
                  rw [hc w', List.flatMap_cons]
                  have hgw : groupWords (Json.obj gfs) = [] := by simp [groupWords, hw]
                  rw [hgw, List.nil_append]
              | str s =>
                  have hstep : collectMeanings path isSp mIdx wdm (Json.obj gfs :: rest) =
                      collectMeanings path isSp (mIdx + 1) wdm rest := by
                    simp only [collectMeanings, hpg, hw, Option.getD]
                  rw [hstep]
                  obtain ⟨hf, hc, hgd⟩ := ih (mIdx + 1) wdm hrest
                  refine ⟨hf, fun w' => ?_, hgd⟩
                  rw [hc w', List.flatMap_cons]
                  have hgw : groupWords (Json.obj gfs) = [] := by simp [groupWords, hw]
                  rw [hgw, List.nil_append]
              | obj fs2 =>
                  have hstep : collectMeanings path isSp mIdx wdm (Json.obj gfs :: rest) =
                      collectMeanings path isSp (mIdx + 1) wdm rest := by
                    simp only [collectMeanings, hpg, hw, Option.getD]
                  rw [hstep]
                  obtain ⟨hf, hc, hgd⟩ := ih (mIdx + 1) wdm hrest
                  refine ⟨hf, fun w' => ?_, hgd⟩
                  rw [hc w', List.flatMap_cons]
                  have hgw : groupWords (Json.obj gfs) = [] := by simp [groupWords, hw]
                  rw [hgw, List.nil_append]
      | null => simp [wfGroup] at hg1
      | bool b => simp [wfGroup] at hg1
      | num n => simp [wfGroup] at hg1
      | str s => simp [wfGroup] at hg1
      | arr xs => simp [wfGroup] at hg1

theorem collectFile_spec (wdm : WordMap) (p : String) (d : Json)
    (h : wfDoc d = true) :
    (∀ w', canonicalOf (collectFile wdm p d) w' =
      (canonicalOf wdm w').or
        (((docWords d).find? (fun pr => pr.1 = w')).map Prod.snd)) ∧
    (wdmGood wdm → wdmGood (collectFile wdm p d)) := by
  cases d with
  | obj fs =>
      have hpg : pyGetD (Json.obj fs) "meanings" (.arr []) =
          .ok ((alistFind fs "meanings").getD (.arr [])) := rfl
      cases hm : alistFind fs "meanings" with
      | none =>
          have hstep : collectFile wdm p (Json.obj fs) =
              (collectMeanings p (isSpecial p) 0 wdm []).1 := by
            simp only [collectFile, hpg, hm, Option.getD]
          rw [hstep]
          have hd : docWords (Json.obj fs) = [] := by simp [docWords, hm]
          exact ⟨fun w' => by simp [collectMeanings, hd], fun hg => hg⟩
      | some mv =>
          cases mv with
          | arr gs =>
              have hgs : gs.all wfGroup = true := by
                have h2 := h
                simp only [wfDoc, hm] at h2
                exact h2
              have hstep : collectFile wdm p (Json.obj fs) =
                  (collectMeanings p (isSpecial p) 0 wdm gs).1 := by
                simp only [collectFile, hpg, hm, Option.getD]
              rw [hstep]
              obtain ⟨_, hc, hgd⟩ := collectMeanings_spec p (isSpecial p) gs 0 wdm hgs
              have hd : docWords (Json.obj fs) = gs.flatMap groupWords := by
                simp [docWords, hm]
              exact ⟨fun w' => by rw [hc w', hd], hgd⟩
          | null => simp [wfDoc, hm] at h
          | bool b => simp [wfDoc, hm] at h
          | num n => simp [wfDoc, hm] at h
          | str s => simp [wfDoc, hm] at h
          | obj fs2 => simp [wfDoc, hm] at h
  | null => simp [wfDoc] at h
  | bool b => simp [wfDoc] at h
  | num n => simp [wfDoc] at h
  | str s => simp [wfDoc] at h
  | arr xs => simp [wfDoc] at h

theorem collect_spec (fsys : String → Option Json) (paths : List String) :
    ∀ (wdm : WordMap) (fcm : List (String × Json)),
      paths.Nodup →
      (∀ p ∈ paths, wfLoad fsys p = true) →
      (∀ p ∈ paths, alistFind fcm p = none) →
      (collect_word_data fsys paths wdm fcm).2 = fcm ++ loadedOf fsys paths ∧
      (∀ w', canonicalOf (collect_word_data fsys paths wdm fcm).1 w' =
        (canonicalOf wdm w').or (firstItemFor (loadedOf fsys paths) w')) ∧
      (wdmGood wdm → wdmGood (collect_word_data fsys paths wdm fcm).1) := by
  induction paths with
  | nil =>
      intro wdm fcm _ _ _
      refine ⟨by simp [collect_word_data, loadedOf], fun w' => ?_, fun hg => hg⟩
      simp [collect_word_data, loadedOf, firstItemFor, flatWords]
  | cons p ps ih =>
      intro wdm fcm hnd hwf hdisj
      have hnd2 : ps.Nodup := (List.nodup_cons.mp hnd).2
      have hpnotin : p ∉ ps := (List.nodup_cons.mp hnd).1
      have hwf2 : ∀ q ∈ ps, wfLoad fsys q = true :=
        fun q hq => hwf q (List.mem_cons_of_mem p hq)
      cases hfp : fsys p with
      | none =>
          have hstep : collect_word_data fsys (p :: ps) wdm fcm =
              collect_word_data fsys ps wdm fcm := by
            simp only [collect_word_data, hfp]
          have hload : loadedOf fsys (p :: ps) = loadedOf fsys ps := by
            simp [loadedOf, hfp]
          rw [hstep, hload]
          exact ih wdm fcm hnd2 hwf2
            (fun q hq => hdisj q (List.mem_cons_of_mem p hq))
      | some d =>
          have hwfd : wfDoc d = true := by
            have := hwf p (List.mem_cons_self p ps)
            simp only [wfLoad, hfp] at this
            exact this
          have hfcmp : alistFind fcm p = none := hdisj p (List.mem_cons_self p ps)
          have hins : fcmInsert fcm p d = fcm ++ [(p, d)] := by
            simp [fcmInsert, hfcmp]
          have hstep : collect_word_data fsys (p :: ps) wdm fcm =
              collect_word_data fsys ps (collectFile wdm p d) (fcm ++ [(p, d)]) := by
            simp only [collect_word_data, hfp, hins]
          have hload : loadedOf fsys (p :: ps) = (p, d) :: loadedOf fsys ps := by
            simp [loadedOf, hfp]
          rw [hstep, hload]
          have hdisj2 : ∀ q ∈ ps, alistFind (fcm ++ [(p, d)]) q = none := by
            intro q hq
            rw [alistFind_append, hdisj q (List.mem_cons_of_mem p hq)]
            rw [Option.none_or, alistFind_cons]
            have : ¬ (p = q) := fun he => hpnotin (he ▸ hq)
            rw [if_neg this]
            rfl
          obtain ⟨hfcm, hc, hgd⟩ :=
            ih (collectFile wdm p d) (fcm ++ [(p, d)]) hnd2 hwf2 hdisj2
          obtain ⟨hfc, hfgd⟩ := collectFile_spec wdm p d hwfd
          refine ⟨by rw [hfcm, List.append_assoc, List.singleton_append],
                  fun w' => ?_, fun hg => hgd (hfgd hg)⟩
          rw [hc w', hfc w', Option.or_assoc]
          have hfi : firstItemFor ((p, d) :: loadedOf fsys ps) w' =
              (((docWords d).find? (fun pr => pr.1 = w')).map Prod.snd).or
                (firstItemFor (loadedOf fsys ps) w') := by
            unfold firstItemFor flatWords
            rw [List.flatMap_cons, List.find?_append, option_map_or]
          rw [hfi]

theorem list_set_self {α : Type} (l : List α) (i : Nat) (h : i < l.length) :
    l.set i (l.get ⟨i, h⟩) = l := by
  apply List.ext_getElem
  · simp
  · intro n h1 h2
    rw [List.getElem_set]
    split
    · rename_i he; subst he; rw [List.get_eq_getElem]
    · rfl

theorem contains_map_str (l : List String) (s : String) :
    (l.map Json.str).contains (Json.str s) = l.contains s := by
  induction l with
  | nil => rfl
  | cons a t ih =>
      simp only [List.map_cons, List.contains_cons, ih]
      congr 1
      by_cases h : s = a
      · subst h; simp
      · have h1 : (Json.str s == Json.str a) = false := by
          rw [beq_eq_false_iff_ne]
          exact fun hh => h (Json.str.inj hh)
        have h2 : (s == a) = false := by
          rw [beq_eq_false_iff_ne]
          exact h
        rw [h1, h2]

theorem clearMeaning_wf (g : Json) (h : wfGroup g = true) :
    clearMeaning g = .ok (clearGroupWf g) := by
  cases g with
  | obj gfs => simp [clearMeaning, clearGroupWf]
  | null => simp [wfGroup] at h
  | bool b => simp [wfGroup] at h
  | num n => simp [wfGroup] at h
  | str s => simp [wfGroup] at h
  | arr xs => simp [wfGroup] at h

theorem clearMeanings_wf (gs : List Json) (h : gs.all wfGroup = true) :
    clearMeanings gs = .ok (gs.map clearGroupWf) := by
  induction gs with
  | nil => rfl
  | cons g rest ih =>
      rw [List.all_cons, Bool.and_eq_true] at h
      rw [clearMeanings, clearMeaning_wf g h.1, ih h.2]
      rfl

theorem clearContent_wf (c : Json) (h : wfDoc c = true) :
    clearContent c = .ok (clearDocWf c) := by
  cases c with
  | obj fs =>
      cases hm : alistFind fs "meanings" with
      | none => simp [clearContent, clearDocWf, hm]
      | some mv =>
          cases mv with
          | arr gs =>
              have hgs : gs.all wfGroup = true := by
                have h2 := h
                simp only [wfDoc, hm] at h2
                exact h2
              rw [show clearContent (Json.obj fs) =
                    (clearMeanings gs).map
                      (fun ms' => Json.obj (setField fs "meanings" (Json.arr ms'))) from by
                    simp [clearContent, hm],
                  clearMeanings_wf gs hgs]
              simp [clearDocWf, hm]
              rfl
          | null => simp [wfDoc, hm] at h
          | bool b => simp [wfDoc, hm] at h
          | num n => simp [wfDoc, hm] at h
          | str s => simp [wfDoc, hm] at h
          | obj fs2 => simp [wfDoc, hm] at h
  | null => simp [wfDoc] at h
  | bool b => simp [wfDoc] at h
  | num n => simp [wfDoc] at h
  | str s => simp [wfDoc] at h
  | arr xs => simp [wfDoc] at h

theorem clearAll_wf (fcm : List (String × Json))
    (h : ∀ pc ∈ fcm, wfDoc pc.2 = true) :
    clearAll fcm = .ok (fcm.map (fun pc => (pc.1, clearDocWf pc.2))) := by
  induction fcm with
  | nil => rfl
  | cons pc rest ih =>
      obtain ⟨p, c⟩ := pc
      have hc : wfDoc c = true := h (p, c) (List.mem_cons_self _ _)
      have hrest : ∀ qc ∈ rest, wfDoc qc.2 = true :=
        fun qc hq => h qc (List.mem_cons_of_mem _ hq)
      rw [clearAll, clearContent_wf c hc, ih hrest]
      rfl

theorem appendToRecon_eval (recon : List (String × Json)) (p : String)
    (fs : List (String × Json)) (MS : List Json) (mIdx : Nat)
    (gfs : List (String × Json)) (cur : List Json) (item : Json)
    (hrp : alistFind recon p = some (Json.obj fs))
    (hMS : alistFind fs "meanings" = some (.arr MS))
    (hlen : mIdx < MS.length)
    (hG : MS.get ⟨mIdx, hlen⟩ = Json.obj gfs)
    (hWw : alistFind gfs "words" = some (.arr cur)) :
    appendToRecon recon p mIdx item = .ok (setField recon p
      (Json.obj (setField fs "meanings" (.arr (MS.set mIdx
        (Json.obj (setField gfs "words" (.arr (cur ++ [item]))))))))) := by
  rw [appendToRecon, hrp]
  show Except.map (setField recon p) (appendAtGroup (Json.obj fs) mIdx item) = _
  have h1 : appendAtGroup (Json.obj fs) mIdx item =
      .ok (Json.obj (setField fs "meanings" (.arr (MS.set mIdx
        (Json.obj (setField gfs "words" (.arr (cur ++ [item])))))))) := by
    rw [show appendAtGroup (Json.obj fs) mIdx item =
          (if h : mIdx < MS.length then
            (pyAppendWords (MS.get ⟨mIdx, h⟩) item).map
              (fun g' => Json.obj (setField fs "meanings" (.arr (MS.set mIdx g'))))
          else .error "IndexError: list index out of range") from by
      simp [appendAtGroup, hMS]]
    rw [dif_pos hlen, hG]
    rw [show pyAppendWords (Json.obj gfs) item =
          .ok (Json.obj (setField gfs "words" (.arr (cur ++ [item])))) from by
      simp [pyAppendWords, hWw]]
    rfl
  rw [h1]
  rfl

theorem wfItem_cases (it : Json) (h : wfItem it = true) :
    (pyGet it "word" = .ok none ∧ itemWord it = none) ∨
    (∃ v, pyGet it "word" = .ok (some v) ∧ pyTruthy v = false ∧
      itemWord it = none) ∨
    (∃ s, pyGet it "word" = .ok (some (Json.str s)) ∧ s.isEmpty = false ∧
      itemWord it = some (s, it)) := by
  cases it with
  | obj fs =>
      cases hf : alistFind fs "word" with
      | none =>
          left
          constructor
          · simp [pyGet, hf]
          · simp [itemWord, hf]
      | some v =>
          cases v with
          | str s =>
              cases hse : s.isEmpty
              · right; right
                exact ⟨s, by simp [pyGet, hf], hse, by simp [itemWord, hf, hse]⟩
              · right; left
                refine ⟨Json.str s, by simp [pyGet, hf], ?_, by simp [itemWord, hf, hse]⟩
                simp [pyTruthy, hse]
          | null =>
              right; left
              exact ⟨Json.null, by simp [pyGet, hf], rfl, by simp [itemWord, hf]⟩
          | bool b =>
              have hb : b = false := by
                simp only [wfItem, hf] at h
                cases b
                · rfl
                · simp [pyTruthy] at h
              subst hb
              right; left
              exact ⟨Json.bool false, by simp [pyGet, hf], rfl, by simp [itemWord, hf]⟩
          | num n =>
              have hn : pyTruthy (Json.num n) = false := by
                simp only [wfItem, hf] at h
                rw [Bool.not_eq_true'] at h
                exact h
              right; left
              exact ⟨Json.num n, by simp [pyGet, hf], hn, by simp [itemWord, hf]⟩
          | arr xs =>
              have hn : pyTruthy (Json.arr xs) = false := by
                simp only [wfItem, hf] at h
                rw [Bool.not_eq_true'] at h
                exact h
              right; left
              exact ⟨Json.arr xs, by simp [pyGet, hf], hn, by simp [itemWord, hf]⟩
          | obj fs2 =>
              have hn : pyTruthy (Json.obj fs2) = false := by
                simp only [wfItem, hf] at h
                rw [Bool.not_eq_true'] at h
                exact h
              right; left
              exact ⟨Json.obj fs2, by simp [pyGet, hf], hn, by simp [itemWord, hf]⟩
  | null => simp [wfItem] at h
  | bool b => simp [wfItem] at h
  | num n => simp [wfItem] at h
  | str s => simp [wfItem] at h
  | arr xs => simp [wfItem] at h

theorem processWords_cons_ok (wdm : WordMap) (p : String) (isSp : Bool)
    (mIdx : Nat) (it : Json) (rest : List Json) (seen : List Json)
    (st : RebuildSt) (seen2 : List Json) (st2 : RebuildSt)
    (h : processItem wdm p isSp mIdx seen st it = .ok (seen2, st2)) :
    processWords wdm p isSp mIdx (it :: rest) seen st =
    processWords wdm p isSp mIdx rest seen2 st2 := by
  rw [processWords, h]
  rfl

theorem processWords_spec (wdm : WordMap) (p : String) (isSp : Bool) :
    ∀ (items : List Json) (mIdx : Nat) (seenS keptS : List String)
      (st : RebuildSt) (fs : List (String × Json)) (MS : List Json)
      (gfs : List (String × Json)) (cur : List Json),
      items.all wfItem = true →
      (isSp = false → ∀ pr ∈ items.filterMap itemWord,
        (alistFind wdm pr.1).isSome = true) →
      st.keptReg = keptS.map Json.str →
      alistFind st.recon p = some (Json.obj fs) →
      alistFind fs "meanings" = some (.arr MS) →
      ∀ (hlen : mIdx < MS.length),
      MS.get ⟨mIdx, hlen⟩ = Json.obj gfs →
      alistFind gfs "words" = some (.arr cur) →
      processWords wdm p isSp mIdx items (seenS.map Json.str) st = .ok
        ((refItems wdm isSp (items.filterMap itemWord) seenS keptS).2.1.map Json.str,
         ⟨setField st.recon p (Json.obj (setField fs "meanings" (.arr (MS.set mIdx
            (Json.obj (setField gfs "words" (.arr (cur ++
              (refItems wdm isSp (items.filterMap itemWord) seenS keptS).1.map Prod.snd)))))))),
          (refItems wdm isSp (items.filterMap itemWord) seenS keptS).2.2.map Json.str,
          st.origCount + (items.filterMap itemWord).length,
          st.finalCount + (refItems wdm isSp (items.filterMap itemWord) seenS keptS).1.length⟩) := by
  intro items
  induction items with
  | nil =>
      intro mIdx seenS keptS st fs MS gfs cur hwf hcov hkept hrp hMS hlen hG hWw
      simp only [List.filterMap_nil, refItems, List.append_nil, Nat.add_zero,
        List.length_nil, List.map_nil]
      rw [setField_self_id gfs "words" _ hWw, ← hG, list_set_self,
          setField_self_id fs "meanings" _ hMS, setField_self_id st.recon p _ hrp]
      rw [processWords, ← hkept]
  | cons it rest ih =>
      intro mIdx seenS keptS st fs MS gfs cur hwf hcov hkept hrp hMS hlen hG hWw
      rw [List.all_cons, Bool.and_eq_true] at hwf
      have hcov2 : isSp = false → ∀ pr ∈ rest.filterMap itemWord,
          (alistFind wdm pr.1).isSome = true := by
        intro hsp pr hpr
        refine hcov hsp pr ?_
        rw [List.filterMap_cons]
        cases itemWord it
        · exact hpr
        · exact List.mem_cons_of_mem _ hpr
      rcases wfItem_cases it hwf.1 with ⟨hpg, hiw⟩ | ⟨v, hpg, htv, hiw⟩ |
        ⟨s, hpg, hse, hiw⟩
      · have hpi : processItem wdm p isSp mIdx (seenS.map Json.str) st it =
            .ok (seenS.map Json.str, st) := by
          rw [processItem, hpg]
          rfl
        rw [processWords_cons_ok wdm p isSp mIdx it rest _ _ _ _ hpi]
        rw [List.filterMap_cons, hiw]
        exact ih mIdx seenS keptS st fs MS gfs cur hwf.2 hcov2 hkept hrp hMS hlen hG hWw
      · have hpi : processItem wdm p isSp mIdx (seenS.map Json.str) st it =
            .ok (seenS.map Json.str, st) := by
          rw [processItem, hpg]
          show (match some v with
            | none => Except.ok (seenS.map Json.str, st)
            | some w => if !pyTruthy w then Except.ok (seenS.map Json.str, st)
                        else _) = _
          simp [htv]
        rw [processWords_cons_ok wdm p isSp mIdx it rest _ _ _ _ hpi]
        rw [List.filterMap_cons, hiw]
        exact ih mIdx seenS keptS st fs MS gfs cur hwf.2 hcov2 hkept hrp hMS hlen hG hWw
      · have htv : pyTruthy (Json.str s) = true := by simp [pyTruthy, hse]
        have hpairs : (it :: rest).filterMap itemWord =
            (s, it) :: rest.filterMap itemWord := by
          rw [List.filterMap_cons, hiw]
        cases hsc : seenS.contains s with
        | true =>
            have hscj : ((seenS.map Json.str).contains (Json.str s)) = true := by
              rw [contains_map_str]; exact hsc
            have hpi : processItem wdm p isSp mIdx (seenS.map Json.str) st it =
                .ok (seenS.map Json.str,
                  ⟨st.recon, st.keptReg, st.origCount + 1, st.finalCount⟩) := by
              rw [processItem, hpg]
              show (match some (Json.str s) with
                | none => Except.ok (seenS.map Json.str, st)
                | some w =>
                  if !pyTruthy w then Except.ok (seenS.map Json.str, st)
                  else _) = _
              simp only [htv, Bool.not_true, if_false, pyHashable, hscj]
              rfl
            rw [processWords_cons_ok wdm p isSp mIdx it rest _ _ _ _ hpi, hpairs]
            rw [show refItems wdm isSp ((s, it) :: rest.filterMap itemWord) seenS keptS
                  = refItems wdm isSp (rest.filterMap itemWord) seenS keptS from by
              rw [refItems, hsc]
              rfl]
            rw [ih mIdx seenS keptS ⟨st.recon, st.keptReg, st.origCount + 1, st.finalCount⟩
                  fs MS gfs cur hwf.2 hcov2 hkept hrp hMS hlen hG hWw]
            simp only [Except.ok.injEq, Prod.mk.injEq, RebuildSt.mk.injEq,
              List.length_cons, true_and, and_true]
            omega
        | false =>
            have hscj : ((seenS.map Json.str).contains (Json.str s)) = false := by
              rw [contains_map_str]; exact hsc
            have hseen2 : (seenS.map Json.str) ++ [Json.str s] =
                (seenS ++ [s]).map Json.str := by
              rw [List.map_append]
              rfl
            cases hspt : isSp with
            | true =>
                subst hspt
                have happ := appendToRecon_eval st.recon p fs MS mIdx gfs cur it
                  hrp hMS hlen hG hWw
                have hpi : processItem wdm p true mIdx (seenS.map Json.str) st it =
                    .ok ((seenS ++ [s]).map Json.str,
                      ⟨setField st.recon p (Json.obj (setField fs "meanings"
                        (.arr (MS.set mIdx (Json.obj (setField gfs "words"
                          (.arr (cur ++ [it])))))))),
                       st.keptReg, st.origCount + 1, st.finalCount + 1⟩) := by
                  rw [processItem, hpg]
                  show (match some (Json.str s) with
                    | none => Except.ok (seenS.map Json.str, st)
                    | some w =>
                      if !pyTruthy w then Except.ok (seenS.map Json.str, st)
                      else _) = _
                  simp only [htv, Bool.not_true, if_false, pyHashable, hscj,
                    if_true, hseen2, happ]
                  rfl
                rw [processWords_cons_ok wdm p true mIdx it rest _ _ _ _ hpi, hpairs]
                rw [show refItems wdm true ((s, it) :: rest.filterMap itemWord) seenS keptS
                      = ((s, it) ::
                          (refItems wdm true (rest.filterMap itemWord) (seenS ++ [s]) keptS).1,
                         (refItems wdm true (rest.filterMap itemWord) (seenS ++ [s]) keptS).2) from by
                  rw [refItems, hsc]
                  simp]
                have hlen2 : mIdx < (MS.set mIdx (Json.obj (setField gfs "words"
                    (.arr (cur ++ [it]))))).length := by
                  rw [List.length_set]; exact hlen
                rw [ih mIdx (seenS ++ [s]) keptS
                      ⟨setField st.recon p (Json.obj (setField fs "meanings"
                        (.arr (MS.set mIdx (Json.obj (setField gfs "words"
                          (.arr (cur ++ [it])))))))),
                       st.keptReg, st.origCount + 1, st.finalCount + 1⟩
                      (setField fs "meanings"
                        (.arr (MS.set mIdx (Json.obj (setField gfs "words"
                          (.arr (cur ++ [it])))))))
                      (MS.set mIdx (Json.obj (setField gfs "words" (.arr (cur ++ [it])))))
                      (setField gfs "words" (.arr (cur ++ [it])))
                      (cur ++ [it]) hwf.2 hcov2 hkept
                      (by
                        show alistFind (setField st.recon p _) p = _
                        rw [alistFind_setField_self]
                        rw [hrp]
                        rfl)
                      (by
                        rw [alistFind_setField_self]
                        rw [hMS]
                        rfl)
                      hlen2
                      (by
                        rw [List.get_eq_getElem, List.getElem_set]
                        simp)
                      (by
                        rw [alistFind_setField_self]
                        rw [hWw]
                        rfl)]
                simp only [Except.ok.injEq, Prod.mk.injEq, RebuildSt.mk.injEq,
                  List.length_cons, List.map_cons, setField_setField, List.set_set,
                  List.append_assoc, List.singleton_append, true_and, and_true]
                omega
            | false =>
                subst hspt
                have hkcj : st.keptReg.contains (Json.str s) = keptS.contains s := by
                  rw [hkept, contains_map_str]
                cases hkc : keptS.contains s with
                | true =>
                    have hpi : processItem wdm p false mIdx (seenS.map Json.str) st it =
                        .ok ((seenS ++ [s]).map Json.str,
                          ⟨st.recon, st.keptReg, st.origCount + 1, st.finalCount⟩) := by
                      rw [processItem, hpg]
                      show (match some (Json.str s) with
                        | none => Except.ok (seenS.map Json.str, st)
                        | some w =>
                          if !pyTruthy w then Except.ok (seenS.map Json.str, st)
                          else _) = _
                      simp only [htv, Bool.not_true, if_false, pyHashable, hscj,
                        hkcj, hkc, hseen2]
                      rfl
                    rw [processWords_cons_ok wdm p false mIdx it rest _ _ _ _ hpi, hpairs]
                    rw [show refItems wdm false ((s, it) :: rest.filterMap itemWord) seenS keptS
                          = refItems wdm false (rest.filterMap itemWord) (seenS ++ [s]) keptS from by
                      rw [refItems, hsc, hkc]
                      simp]
                    rw [ih mIdx (seenS ++ [s]) keptS
                          ⟨st.recon, st.keptReg, st.origCount + 1, st.finalCount⟩
                          fs MS gfs cur hwf.2 hcov2 hkept hrp hMS hlen hG hWw]
                    simp only [Except.ok.injEq, Prod.mk.injEq, RebuildSt.mk.injEq,
                      List.length_cons, true_and, and_true]
                    omega
                | false =>
                    have hmem : (s, it) ∈ (it :: rest).filterMap itemWord := by
                      rw [hpairs]
                      exact List.mem_cons_self _ _
                    have hsome : (alistFind wdm s).isSome = true := hcov rfl (s, it) hmem
                    obtain ⟨info, hinfo⟩ := Option.isSome_iff_exists.mp hsome
                    have hcd : canonicalOfD wdm s = info.canonical_data := by
                      simp [canonicalOfD, canonicalOf, hinfo]
                    have happ := appendToRecon_eval st.recon p fs MS mIdx gfs cur
                      info.canonical_data hrp hMS hlen hG hWw
                    have hpi : processItem wdm p false mIdx (seenS.map Json.str) st it =
                        .ok ((seenS ++ [s]).map Json.str,
                          ⟨setField st.recon p (Json.obj (setField fs "meanings"
                            (.arr (MS.set mIdx (Json.obj (setField gfs "words"
                              (.arr (cur ++ [info.canonical_data])))))))),
                           st.keptReg ++ [Json.str s], st.origCount + 1,
                           st.finalCount + 1⟩) := by
                      rw [processItem, hpg]
                      show (match some (Json.str s) with
                        | none => Except.ok (seenS.map Json.str, st)
                        | some w =>
                          if !pyTruthy w then Except.ok (seenS.map Json.str, st)
                          else _) = _
                      simp only [htv, Bool.not_true, if_false, pyHashable, hscj,
                        hkcj, hkc, hseen2, hinfo, happ]
                      rfl
                    rw [processWords_cons_ok wdm p false mIdx it rest _ _ _ _ hpi, hpairs]
                    rw [show refItems wdm false ((s, it) :: rest.filterMap itemWord) seenS keptS
                          = ((s, canonicalOfD wdm s) ::
                              (refItems wdm false (rest.filterMap itemWord)
                                (seenS ++ [s]) (keptS ++ [s])).1,
                             (refItems wdm false (rest.filterMap itemWord)
                                (seenS ++ [s]) (keptS ++ [s])).2) from by
                      rw [refItems, hsc, hkc]
                      simp]
                    have hkept2 : (⟨setField st.recon p (Json.obj (setField fs "meanings"
                            (.arr (MS.set mIdx (Json.obj (setField gfs "words"
                              (.arr (cur ++ [info.canonical_data])))))))),
                           st.keptReg ++ [Json.str s], st.origCount + 1,
                           st.finalCount + 1⟩ : RebuildSt).keptReg =
                        (keptS ++ [s]).map Json.str := by
                      show st.keptReg ++ [Json.str s] = _
                      rw [hkept, List.map_append]
                      rfl
                    have hlen2 : mIdx < (MS.set mIdx (Json.obj (setField gfs "words"
                        (.arr (cur ++ [info.canonical_data]))))).length := by
                      rw [List.length_set]; exact hlen
                    rw [ih mIdx (seenS ++ [s]) (keptS ++ [s])
                          ⟨setField st.recon p (Json.obj (setField fs "meanings"
                            (.arr (MS.set mIdx (Json.obj (setField gfs "words"
                              (.arr (cur ++ [info.canonical_data])))))))),
                           st.keptReg ++ [Json.str s], st.origCount + 1,
                           st.finalCount + 1⟩
                          (setField fs "meanings"
                            (.arr (MS.set mIdx (Json.obj (setField gfs "words"
                              (.arr (cur ++ [info.canonical_data])))))))
                          (MS.set mIdx (Json.obj (setField gfs "words"
                            (.arr (cur ++ [info.canonical_data])))))
                          (setField gfs "words" (.arr (cur ++ [info.canonical_data])))
                          (cur ++ [info.canonical_data]) hwf.2 hcov2 hkept2
                          (by
                            show alistFind (setField st.recon p _) p = _
                            rw [alistFind_setField_self]
                            rw [hrp]
                            rfl)
                          (by
                            rw [alistFind_setField_self]
                            rw [hMS]
                            rfl)
                          hlen2
                          (by
                            rw [List.get_eq_getElem, List.getElem_set]
                            simp)
                          (by
                            rw [alistFind_setField_self]
                            rw [hWw]
                            rfl)]
                    simp only [Except.ok.injEq, Prod.mk.injEq, RebuildSt.mk.injEq,
                      List.length_cons, List.map_cons, setField_setField, List.set_set,
                      List.append_assoc, List.singleton_append, hcd, true_and, and_true]
                    omega

theorem except_bind_ok {ε α β : Type} (a : α) (f : α → Except ε β) :
    (Except.ok a >>= f : Except ε β) = f a := rfl

theorem set_append_len {α : Type} (l1 : List α) (x : α) (l2 : List α) (y : α) :
    (l1 ++ x :: l2).set l1.length y = l1 ++ y :: l2 := by
  induction l1 with
  | nil => rfl
  | cons a t ih => simp [List.set, ih]

theorem len_lt_append {α : Type} (l1 : List α) (x : α) (l2 : List α) :
    l1.length < (l1 ++ x :: l2).length := by
  rw [List.length_append, List.length_cons]
  omega

theorem get_append_len {α : Type} (l1 : List α) (x : α) (l2 : List α)
    (h : l1.length < (l1 ++ x :: l2).length) :
    (l1 ++ x :: l2).get ⟨l1.length, h⟩ = x := by
  induction l1 with
  | nil => rfl
  | cons a t ih =>
      have h2 : t.length < (t ++ x :: l2).length := len_lt_append t x l2
      simpa using ih h2

theorem processMeanings_cons_ok (wdm : WordMap) (p : String) (isSp : Bool)
    (mIdx : Nat) (g : Json) (gs : List Json) (seen : List Json)
    (st : RebuildSt) (items : List Json) (seen2 : List Json) (st2 : RebuildSt)
    (hval : pyGetD g "words" (.arr []) = .ok (.arr items))
    (h : processWords wdm p isSp mIdx items seen st = .ok (seen2, st2)) :
    processMeanings wdm p isSp mIdx (g :: gs) seen st =
    processMeanings wdm p isSp (mIdx + 1) gs seen2 st2 := by
  rw [processMeanings, hval, except_bind_ok]
  show (processWords wdm p isSp mIdx items seen st >>= fun x =>
    match x with
    | (seen', st') => processMeanings wdm p isSp (mIdx + 1) gs seen' st') = _
  rw [h, except_bind_ok]

theorem processMeanings_cons_skip (wdm : WordMap) (p : String) (isSp : Bool)
    (mIdx : Nat) (g : Json) (gs : List Json) (seen : List Json)
    (st : RebuildSt) (wv : Json)
    (hval : pyGetD g "words" (.arr []) = .ok wv)
    (hna : ∀ items, wv ≠ .arr items) :
    processMeanings wdm p isSp mIdx (g :: gs) seen st =
    processMeanings wdm p isSp (mIdx + 1) gs seen st := by
  rw [processMeanings, hval, except_bind_ok]
  cases wv with
  | arr items => exact absurd rfl (hna items)
  | null => rfl
  | bool b => rfl
  | num n => rfl
  | str s => rfl
  | obj fs => rfl

theorem processMeanings_spec (wdm : WordMap) (p : String) (isSp : Bool) :
    ∀ (todo : List Json) (done : List Json) (seenS keptS : List String)
      (st : RebuildSt) (fs : List (String × Json)),
      todo.all wfGroup = true →
      (isSp = false → ∀ pr ∈ todo.flatMap groupWords,
        (alistFind wdm pr.1).isSome = true) →
      st.keptReg = keptS.map Json.str →
      alistFind st.recon p = some (Json.obj fs) →
      alistFind fs "meanings" = some (.arr (done ++ todo.map clearGroupWf)) →
      processMeanings wdm p isSp done.length todo (seenS.map Json.str) st = .ok
        ((refGroups wdm isSp todo seenS keptS).seen.map Json.str,
         ⟨setField st.recon p (Json.obj (setField fs "meanings"
            (.arr (done ++ (refGroups wdm isSp todo seenS keptS).gs)))),
          (refGroups wdm isSp todo seenS keptS).kept.map Json.str,
          st.origCount + (todo.flatMap groupWords).length,
          st.finalCount + (refGroups wdm isSp todo seenS keptS).cnt⟩) := by
  intro todo
  induction todo with
  | nil =>
      intro done seenS keptS st fs hwf hcov hkept hrp hMS
      rw [List.map_nil, List.append_nil] at hMS
      simp only [refGroups, List.append_nil, List.flatMap_nil, List.length_nil,
        Nat.add_zero]
      rw [setField_self_id fs "meanings" _ hMS, setField_self_id st.recon p _ hrp,
        processMeanings, ← hkept]
  | cons g gs ih =>
      intro done seenS keptS st fs hwf hcov hkept hrp hMS
      rw [List.all_cons, Bool.and_eq_true] at hwf
      have hcov2 : isSp = false → ∀ pr ∈ gs.flatMap groupWords,
          (alistFind wdm pr.1).isSome = true := by
        intro hsp pr hpr
        refine hcov hsp pr ?_
        rw [List.flatMap_cons]
        exact List.mem_append_right _ hpr
      cases g with
      | obj ggfs =>
          have hpg : pyGetD (Json.obj ggfs) "words" (.arr []) =
              .ok ((alistFind ggfs "words").getD (.arr [])) := rfl
          cases hgw : alistFind ggfs "words" with
          | none =>
              have hval : pyGetD (Json.obj ggfs) "words" (.arr []) =
                  .ok (.arr []) := by rw [hpg, hgw]; rfl
              have hclr : clearGroupWf (Json.obj ggfs) = Json.obj ggfs := by
                simp [clearGroupWf, hgw]
              have hrg : refGroup wdm isSp (Json.obj ggfs) seenS keptS =
                  ⟨Json.obj ggfs, 0, seenS, keptS⟩ := by
                simp [refGroup, hgw]
              have hgwords : groupWords (Json.obj ggfs) = [] := by
                simp [groupWords, hgw]
              have hstep := processMeanings_cons_ok wdm p isSp done.length
                (Json.obj ggfs) gs (seenS.map Json.str) st [] (seenS.map Json.str)
                st hval (by rw [processWords])
              rw [hstep]
              have hMS2 : alistFind fs "meanings" =
                  some (.arr ((done ++ [Json.obj ggfs]) ++ gs.map clearGroupWf)) := by
                rw [hMS, List.map_cons, hclr, List.append_assoc,
                  List.singleton_append]
              have hlen2 : (done ++ [Json.obj ggfs]).length = done.length + 1 := by
                simp
              have := ih (done ++ [Json.obj ggfs]) seenS keptS st fs hwf.2 hcov2
                hkept hrp hMS2
              rw [hlen2] at this
              rw [this]
              rw [refGroups, hrg]
              simp only [List.flatMap_cons, hgwords, List.nil_append,
                List.append_assoc, List.singleton_append, Nat.zero_add]
          | some wv =>
              cases wv with
              | arr items =>
                  have hval : pyGetD (Json.obj ggfs) "words" (.arr []) =
                      .ok (.arr items) := by rw [hpg, hgw]; rfl
                  have hitems : items.all wfItem = true := by
                    have h2 := hwf.1
                    simp only [wfGroup, hgw] at h2
                    exact h2
                  have hclr : clearGroupWf (Json.obj ggfs) =
                      Json.obj (setField ggfs "words" (.arr [])) := by
                    simp [clearGroupWf, hgw]
                  have hgwords : groupWords (Json.obj ggfs) =
                      items.filterMap itemWord := by
                    simp [groupWords, hgw]
                  have hcovW : isSp = false → ∀ pr ∈ items.filterMap itemWord,
                      (alistFind wdm pr.1).isSome = true := by
                    intro hsp pr hpr
                    refine hcov hsp pr ?_
                    rw [List.flatMap_cons, hgwords]
                    exact List.mem_append_left _ hpr
                  have hMSform : done ++ (Json.obj ggfs :: gs).map clearGroupWf =
                      done ++ clearGroupWf (Json.obj ggfs) :: gs.map clearGroupWf := by
                    rw [List.map_cons]
                  have hlen : done.length <
                      (done ++ clearGroupWf (Json.obj ggfs) ::
                        gs.map clearGroupWf).length :=
                    len_lt_append _ _ _
                  have hMS2 : alistFind fs "meanings" = some (.arr (done ++
                      clearGroupWf (Json.obj ggfs) :: gs.map clearGroupWf)) := by
                    rw [hMS, hMSform]
                  have hG : (done ++ clearGroupWf (Json.obj ggfs) ::
                      gs.map clearGroupWf).get ⟨done.length, hlen⟩ =
                      Json.obj (setField ggfs "words" (.arr [])) := by
                    rw [get_append_len, hclr]
                  have hWw : alistFind (setField ggfs "words" (.arr [])) "words" =
                      some (.arr []) := by
                    rw [alistFind_setField_self]
                    rw [hgw]
                    rfl
                  have hpw := processWords_spec wdm p isSp items done.length seenS
                    keptS st fs
                    (done ++ clearGroupWf (Json.obj ggfs) :: gs.map clearGroupWf)
                    (setField ggfs "words" (.arr [])) [] hitems hcovW hkept hrp
                    hMS2 hlen hG hWw
                  have hstep := processMeanings_cons_ok wdm p isSp done.length
                    (Json.obj ggfs) gs (seenS.map Json.str) st items _ _ hval hpw
                  rw [hstep]
                  set r := refItems wdm isSp (items.filterMap itemWord) seenS keptS
                    with hr
                  have hrg : refGroup wdm isSp (Json.obj ggfs) seenS keptS =
                      ⟨Json.obj (setField ggfs "words" (.arr (r.1.map Prod.snd))),
                       r.1.length, r.2.1, r.2.2⟩ := by
                    rw [refGroup]
                    simp only [hgw, ← hr]
                  have hsetmid : (done ++ clearGroupWf (Json.obj ggfs) ::
                      gs.map clearGroupWf).set done.length
                      (Json.obj (setField (setField ggfs "words" (.arr []))
                        "words" (.arr ([] ++ r.1.map Prod.snd)))) =
                      done ++ (Json.obj (setField ggfs "words"
                        (.arr (r.1.map Prod.snd)))) :: gs.map clearGroupWf := by
                    rw [set_append_len, setField_setField, List.nil_append]
                  have hMS3 : alistFind (setField fs "meanings"
                      (.arr (done ++ (Json.obj (setField ggfs "words"
                        (.arr (r.1.map Prod.snd)))) :: gs.map clearGroupWf)))
                      "meanings" = some (.arr ((done ++ [Json.obj (setField ggfs
                        "words" (.arr (r.1.map Prod.snd)))]) ++
                        gs.map clearGroupWf)) := by
                    rw [alistFind_setField_self]
                    · rw [List.append_assoc, List.singleton_append]
                    · rw [hMS]
                      rfl
                  have hrp2 : alistFind (setField st.recon p (Json.obj (setField fs
                      "meanings" (.arr (done ++ (Json.obj (setField ggfs "words"
                        (.arr (r.1.map Prod.snd)))) :: gs.map clearGroupWf)))))
                      p = some (Json.obj (setField fs "meanings"
                        (.arr (done ++ (Json.obj (setField ggfs "words"
                          (.arr (r.1.map Prod.snd)))) :: gs.map clearGroupWf)))) := by
                    rw [alistFind_setField_self]
                    rw [hrp]
                    rfl
                  have hlen3 : (done ++ [Json.obj (setField ggfs "words"
                      (.arr (r.1.map Prod.snd)))]).length = done.length + 1 := by
                    simp
                  have := ih (done ++ [Json.obj (setField ggfs "words"
                      (.arr (r.1.map Prod.snd)))]) r.2.1 r.2.2
                    ⟨setField st.recon p (Json.obj (setField fs "meanings"
                      (.arr (done ++ (Json.obj (setField ggfs "words"
                        (.arr (r.1.map Prod.snd)))) :: gs.map clearGroupWf)))),
                     r.2.2.map Json.str, st.origCount +
                       (items.filterMap itemWord).length,
                     st.finalCount + r.1.length⟩
                    (setField fs "meanings" (.arr (done ++ (Json.obj (setField ggfs
                      "words" (.arr (r.1.map Prod.snd)))) :: gs.map clearGroupWf)))
                    hwf.2 hcov2 rfl hrp2 hMS3
                  rw [hlen3] at this
                  rw [← hsetmid] at this
                  rw [this]
                  rw [refGroups, hrg]
                  simp only [Except.ok.injEq, Prod.mk.injEq, RebuildSt.mk.injEq,
                    setField_setField, List.flatMap_cons, List.length_append,
                    List.append_assoc, List.singleton_append, hgwords, true_and,
                    and_true]
                  omega
              | null =>
                  have hval : pyGetD (Json.obj ggfs) "words" (.arr []) =
                      .ok Json.null := by rw [hpg, hgw]; rfl
                  have hclr : clearGroupWf (Json.obj ggfs) =
                      Json.obj (setField ggfs "words" (.arr [])) := by
                    simp [clearGroupWf, hgw]
                  have hrg : refGroup wdm isSp (Json.obj ggfs) seenS keptS =
                      ⟨Json.obj (setField ggfs "words" (.arr [])), 0, seenS, keptS⟩ := by
                    simp [refGroup, hgw]
                  have hgwords : groupWords (Json.obj ggfs) = [] := by
                    simp [groupWords, hgw]
                  rw [processMeanings_cons_skip wdm p isSp done.length
                    (Json.obj ggfs) gs (seenS.map Json.str) st Json.null hval
                    (fun items h => Json.noConfusion h)]
                  have hMS2 : alistFind fs "meanings" =
                      some (.arr ((done ++ [clearGroupWf (Json.obj ggfs)]) ++
                        gs.map clearGroupWf)) := by
                    rw [hMS, List.map_cons, List.append_assoc, List.singleton_append]
                  have hlen2 : (done ++ [clearGroupWf (Json.obj ggfs)]).length =
                      done.length + 1 := by simp
                  have := ih (done ++ [clearGroupWf (Json.obj ggfs)]) seenS keptS
                    st fs hwf.2 hcov2 hkept hrp hMS2
                  rw [hlen2] at this
                  rw [this]
                  rw [refGroups, hrg]
                  simp only [List.flatMap_cons, hgwords, List.nil_append, hclr,
                    List.append_assoc, List.singleton_append, Nat.zero_add]
              | bool b =>
                  have hval : pyGetD (Json.obj ggfs) "words" (.arr []) =
                      .ok (Json.bool b) := by rw [hpg, hgw]; rfl
                  have hclr : clearGroupWf (Json.obj ggfs) =
                      Json.obj (setField ggfs "words" (.arr [])) := by
                    simp [clearGroupWf, hgw]
                  have hrg : refGroup wdm isSp (Json.obj ggfs) seenS keptS =
                      ⟨Json.obj (setField ggfs "words" (.arr [])), 0, seenS, keptS⟩ := by
                    simp [refGroup, hgw]
                  have hgwords : groupWords (Json.obj ggfs) = [] := by
                    simp [groupWords, hgw]
                  rw [processMeanings_cons_skip wdm p isSp done.length
                    (Json.obj ggfs) gs (seenS.map Json.str) st (Json.bool b) hval
                    (fun items h => Json.noConfusion h)]
                  have hMS2 : alistFind fs "meanings" =
                      some (.arr ((done ++ [clearGroupWf (Json.obj ggfs)]) ++
                        gs.map clearGroupWf)) := by
                    rw [hMS, List.map_cons, List.append_assoc, List.singleton_append]
                  have hlen2 : (done ++ [clearGroupWf (Json.obj ggfs)]).length =
                      done.length + 1 := by simp
                  have := ih (done ++ [clearGroupWf (Json.obj ggfs)]) seenS keptS
                    st fs hwf.2 hcov2 hkept hrp hMS2
                  rw [hlen2] at this
                  rw [this]
                  rw [refGroups, hrg]
                  simp only [List.flatMap_cons, hgwords, List.nil_append, hclr,
                    List.append_assoc, List.singleton_append, Nat.zero_add]
              | num n =>
                  have hval : pyGetD (Json.obj ggfs) "words" (.arr []) =
                      .ok (Json.num n) := by rw [hpg, hgw]; rfl
                  have hclr : clearGroupWf (Json.obj ggfs) =
                      Json.obj (setField ggfs "words" (.arr [])) := by
                    simp [clearGroupWf, hgw]
                  have hrg : refGroup wdm isSp (Json.obj ggfs) seenS keptS =
                      ⟨Json.obj (setField ggfs "words" (.arr [])), 0, seenS, keptS⟩ := by
                    simp [refGroup, hgw]
                  have hgwords : groupWords (Json.obj ggfs) = [] := by
                    simp [groupWords, hgw]
                  rw [processMeanings_cons_skip wdm p isSp done.length
                    (Json.obj ggfs) gs (seenS.map Json.str) st (Json.num n) hval
                    (fun items h => Json.noConfusion h)]
                  have hMS2 : alistFind fs "meanings" =
                      some (.arr ((done ++ [clearGroupWf (Json.obj ggfs)]) ++
                        gs.map clearGroupWf)) := by
                    rw [hMS, List.map_cons, List.append_assoc, List.singleton_append]
                  have hlen2 : (done ++ [clearGroupWf (Json.obj ggfs)]).length =
                      done.length + 1 := by simp
                  have := ih (done ++ [clearGroupWf (Json.obj ggfs)]) seenS keptS
                    st fs hwf.2 hcov2 hkept hrp hMS2
                  rw [hlen2] at this
                  rw [this]
                  rw [refGroups, hrg]
                  simp only [List.flatMap_cons, hgwords, List.nil_append, hclr,
                    List.append_assoc, List.singleton_append, Nat.zero_add]
              | str s2 =>
                  have hval : pyGetD (Json.obj ggfs) "words" (.arr []) =
                      .ok (Json.str s2) := by rw [hpg, hgw]; rfl
                  have hclr : clearGroupWf (Json.obj ggfs) =
                      Json.obj (setField ggfs "words" (.arr [])) := by
                    simp [clearGroupWf, hgw]
                  have hrg : refGroup wdm isSp (Json.obj ggfs) seenS keptS =
                      ⟨Json.obj (setField ggfs "words" (.arr [])), 0, seenS, keptS⟩ := by
                    simp [refGroup, hgw]
                  have hgwords : groupWords (Json.obj ggfs) = [] := by
                    simp [groupWords, hgw]
                  rw [processMeanings_cons_skip wdm p isSp done.length
                    (Json.obj ggfs) gs (seenS.map Json.str) st (Json.str s2) hval
                    (fun items h => Json.noConfusion h)]
                  have hMS2 : alistFind fs "meanings" =
                      some (.arr ((done ++ [clearGroupWf (Json.obj ggfs)]) ++
                        gs.map clearGroupWf)) := by
                    rw [hMS, List.map_cons, List.append_assoc, List.singleton_append]
                  have hlen2 : (done ++ [clearGroupWf (Json.obj ggfs)]).length =
                      done.length + 1 := by simp
                  have := ih (done ++ [clearGroupWf (Json.obj ggfs)]) seenS keptS
                    st fs hwf.2 hcov2 hkept hrp hMS2
                  rw [hlen2] at this
                  rw [this]
                  rw [refGroups, hrg]
                  simp only [List.flatMap_cons, hgwords, List.nil_append, hclr,
                    List.append_assoc, List.singleton_append, Nat.zero_add]
              | obj fs2 =>
                  have hval : pyGetD (Json.obj ggfs) "words" (.arr []) =
                      .ok (Json.obj fs2) := by rw [hpg, hgw]; rfl
                  have hclr : clearGroupWf (Json.obj ggfs) =
                      Json.obj (setField ggfs "words" (.arr [])) := by
                    simp [clearGroupWf, hgw]
                  have hrg : refGroup wdm isSp (Json.obj ggfs) seenS keptS =
                      ⟨Json.obj (setField ggfs "words" (.arr [])), 0, seenS, keptS⟩ := by
                    simp [refGroup, hgw]
                  have hgwords : groupWords (Json.obj ggfs) = [] := by
                    simp [groupWords, hgw]
                  rw [processMeanings_cons_skip wdm p isSp done.length
                    (Json.obj ggfs) gs (seenS.map Json.str) st (Json.obj fs2) hval
                    (fun items h => Json.noConfusion h)]
                  have hMS2 : alistFind fs "meanings" =
                      some (.arr ((done ++ [clearGroupWf (Json.obj ggfs)]) ++
                        gs.map clearGroupWf)) := by
                    rw [hMS, List.map_cons, List.append_assoc, List.singleton_append]
                  have hlen2 : (done ++ [clearGroupWf (Json.obj ggfs)]).length =
                      done.length + 1 := by simp
                  have := ih (done ++ [clearGroupWf (Json.obj ggfs)]) seenS keptS
                    st fs hwf.2 hcov2 hkept hrp hMS2
                  rw [hlen2] at this
                  rw [this]
                  rw [refGroups, hrg]
                  simp only [List.flatMap_cons, hgwords, List.nil_append, hclr,
                    List.append_assoc, List.singleton_append, Nat.zero_add]
      | null => simp [wfGroup] at hwf
      | bool b => simp [wfGroup] at hwf
      | num n => simp [wfGroup] at hwf
      | str s2 => simp [wfGroup] at hwf
      | arr xs => simp [wfGroup] at hwf

theorem processFile_eval (wdm : WordMap) (p : String) (c : Json)
    (st : RebuildSt) (mv : Json) (gs : List Json) (seen2 : List Json)
    (st2 : RebuildSt)
    (hmv : pyGetD c "meanings" (.arr []) = .ok mv)
    (hit : pyIterate mv = .ok gs)
    (h : processMeanings wdm p (isSpecial p) 0 gs [] st = .ok (seen2, st2)) :
    processFile wdm p c st = .ok st2 := by
  rw [processFile, hmv, except_bind_ok, hit, except_bind_ok, h, except_bind_ok]

theorem processFile_spec (wdm : WordMap) (p : String) (c : Json)
    (keptS : List String) (st : RebuildSt)
    (hwf : wfDoc c = true)
    (hcov : isSpecial p = false → ∀ pr ∈ docWords c,
      (alistFind wdm pr.1).isSome = true)
    (hkept : st.keptReg = keptS.map Json.str)
    (hrp : alistFind st.recon p = some (clearDocWf c)) :
    processFile wdm p c st = .ok
      ⟨setField st.recon p (refDoc wdm (isSpecial p) c keptS).c,
       (refDoc wdm (isSpecial p) c keptS).kept.map Json.str,
       st.origCount + (docWords c).length,
       st.finalCount + (refDoc wdm (isSpecial p) c keptS).cnt⟩ := by
  cases c with
  | obj fs =>
      have hpg : pyGetD (Json.obj fs) "meanings" (.arr []) =
          .ok ((alistFind fs "meanings").getD (.arr [])) := rfl
      cases hm : alistFind fs "meanings" with
      | none =>
          have hclr : clearDocWf (Json.obj fs) = Json.obj fs := by
            simp [clearDocWf, hm]
          have hdw : docWords (Json.obj fs) = [] := by simp [docWords, hm]
          have hrd : refDoc wdm (isSpecial p) (Json.obj fs) keptS =
              ⟨Json.obj fs, 0, keptS⟩ := by
            simp [refDoc, hm]
          rw [processFile_eval wdm p (Json.obj fs) st (.arr []) [] [] st
            (by rw [hpg, hm]; rfl) rfl (by rw [processMeanings])]
          rw [hrd, hdw]
          rw [hclr] at hrp
          simp only [List.length_nil, Nat.add_zero]
          rw [setField_self_id st.recon p _ hrp, ← hkept]
      | some mv =>
          cases mv with
          | arr gs =>
              have hgs : gs.all wfGroup = true := by
                have h2 := hwf
                simp only [wfDoc, hm] at h2
                exact h2
              have hclr : clearDocWf (Json.obj fs) =
                  Json.obj (setField fs "meanings"
                    (.arr (gs.map clearGroupWf))) := by
                simp [clearDocWf, hm]
              have hdw : docWords (Json.obj fs) = gs.flatMap groupWords := by
                simp [docWords, hm]
              rw [hclr] at hrp
              have hMS2 : alistFind (setField fs "meanings"
                  (.arr (gs.map clearGroupWf))) "meanings" =
                  some (.arr (([] : List Json) ++ gs.map clearGroupWf)) := by
                rw [alistFind_setField_self]
                · rw [List.nil_append]
                · rw [hm]
                  rfl
              have hcov2 : isSpecial p = false → ∀ pr ∈ gs.flatMap groupWords,
                  (alistFind wdm pr.1).isSome = true := by
                rw [← hdw]
                exact hcov
              have hpm := processMeanings_spec wdm p (isSpecial p) gs
                ([] : List Json) ([] : List String) keptS st
                (setField fs "meanings" (.arr (gs.map clearGroupWf)))
                hgs hcov2 hkept hrp hMS2
              rw [show (([] : List Json).length) = 0 from rfl] at hpm
              rw [processFile_eval wdm p (Json.obj fs) st (.arr gs) gs _ _
                (by rw [hpg, hm]; rfl) rfl hpm]
              rw [show refDoc wdm (isSpecial p) (Json.obj fs) keptS =
                    ⟨Json.obj (setField fs "meanings"
                      (.arr (refGroups wdm (isSpecial p) gs [] keptS).gs)),
                     (refGroups wdm (isSpecial p) gs [] keptS).cnt,
                     (refGroups wdm (isSpecial p) gs [] keptS).kept⟩ from by
                rw [refDoc]
                simp only [hm]]
              simp only [Except.ok.injEq, RebuildSt.mk.injEq, setField_setField,
                List.nil_append, hdw, true_and, and_true]
          | null => simp [wfDoc, hm] at hwf
          | bool b => simp [wfDoc, hm] at hwf
          | num n => simp [wfDoc, hm] at hwf
          | str s2 => simp [wfDoc, hm] at hwf
          | obj fs2 => simp [wfDoc, hm] at hwf
  | null => simp [wfDoc] at hwf
  | bool b => simp [wfDoc] at hwf
  | num n => simp [wfDoc] at hwf
  | str s2 => simp [wfDoc] at hwf
  | arr xs => simp [wfDoc] at hwf

/-- The loaded files actually visited by the decision loop, in path order. -/
def visitList (fcm : List (String × Json)) (ps : List String) :
    List (String × Json) :=
  ps.filterMap (fun q => (alistFind fcm q).map (fun c => (q, c)))

theorem refFiles_keys (wdm : WordMap) (L : List (String × Json))
    (k : List String) :
    (refFiles wdm L k).files.map Prod.fst = L.map Prod.fst := by
  induction L generalizing k with
  | nil => rfl
  | cons pc rest ih =>
      obtain ⟨p, c⟩ := pc
      show ((p, (refDoc wdm (isSpecial p) c k).c) ::
        (refFiles wdm rest (refDoc wdm (isSpecial p) c k).kept).files).map
          Prod.fst = _
      rw [List.map_cons, List.map_cons, ih]

theorem visitList_mem_keys (fcm : List (String × Json)) (ps : List String)
    (q : String) (h : q ∈ (visitList fcm ps).map Prod.fst) : q ∈ ps := by
  rw [List.mem_map] at h
  obtain ⟨pc, hpc, hq⟩ := h
  rw [visitList, List.mem_filterMap] at hpc
  obtain ⟨q2, hq2, hmap⟩ := hpc
  cases hfq : alistFind fcm q2 with
  | none => rw [hfq] at hmap; cases hmap
  | some c =>
      rw [hfq] at hmap
      injection hmap with hmap2
      rw [← hq, ← hmap2]
      exact hq2

theorem processAll_cons_skip (wdm : WordMap) (fcm : List (String × Json))
    (p : String) (ps : List String) (st : RebuildSt)
    (h : alistFind fcm p = none) :
    processAll wdm fcm (p :: ps) st = processAll wdm fcm ps st := by
  rw [processAll, h]

theorem processAll_cons_ok (wdm : WordMap) (fcm : List (String × Json))
    (p : String) (ps : List String) (st : RebuildSt) (c : Json)
    (st1 : RebuildSt) (hf : alistFind fcm p = some c)
    (h : processFile wdm p c st = .ok st1) :
    processAll wdm fcm (p :: ps) st = processAll wdm fcm ps st1 := by
  rw [processAll, hf]
  show (processFile wdm p c st >>= fun st2 => processAll wdm fcm ps st2) = _
  rw [h, except_bind_ok]

theorem processAll_spec (wdm : WordMap) (fcm : List (String × Json)) :
    ∀ (ps : List String) (keptS : List String) (st : RebuildSt),
      ps.Nodup →
      (∀ q ∈ ps, ∀ c, alistFind fcm q = some c → wfDoc c = true) →
      (∀ q ∈ ps, ∀ c, alistFind fcm q = some c → isSpecial q = false →
        ∀ pr ∈ docWords c, (alistFind wdm pr.1).isSome = true) →
      st.keptReg = keptS.map Json.str →
      (∀ q ∈ ps, alistFind st.recon q = (alistFind fcm q).map clearDocWf) →
      ∃ st2, processAll wdm fcm ps st = .ok st2 ∧
        (∀ q, q ∉ ps → alistFind st2.recon q = alistFind st.recon q) ∧
        (∀ q ∈ ps, alistFind st2.recon q =
          (alistFind (refFiles wdm (visitList fcm ps) keptS).files q).or
            (alistFind st.recon q)) ∧
        st2.recon.map Prod.fst = st.recon.map Prod.fst ∧
        st2.keptReg = (refFiles wdm (visitList fcm ps) keptS).kept.map Json.str ∧
        st2.origCount = st.origCount + (flatWords (visitList fcm ps)).length ∧
        st2.finalCount = st.finalCount + (refFiles wdm (visitList fcm ps) keptS).cnt := by
  intro ps
  induction ps with
  | nil =>
      intro keptS st _ _ _ hkept _
      refine ⟨st, rfl, fun q _ => rfl, fun q hq => absurd hq (List.not_mem_nil q),
        rfl, ?_, ?_, ?_⟩
      · exact hkept
      · rfl
      · rfl
  | cons p ps ih =>
      intro keptS st hnd hwf hcov hkept hrecon
      have hnd2 : ps.Nodup := (List.nodup_cons.mp hnd).2
      have hpnotin : p ∉ ps := (List.nodup_cons.mp hnd).1
      have hwf2 : ∀ q ∈ ps, ∀ c, alistFind fcm q = some c → wfDoc c = true :=
        fun q hq => hwf q (List.mem_cons_of_mem p hq)
      have hcov2 : ∀ q ∈ ps, ∀ c, alistFind fcm q = some c →
          isSpecial q = false → ∀ pr ∈ docWords c,
          (alistFind wdm pr.1).isSome = true :=
        fun q hq => hcov q (List.mem_cons_of_mem p hq)
      cases hfp : alistFind fcm p with
      | none =>
          have hvis : visitList fcm (p :: ps) = visitList fcm ps := by
            rw [visitList, List.filterMap_cons, hfp]
            rfl
          obtain ⟨st2, hrun, hout, hin, hkeys, hkept2, horig, hfin⟩ :=
            ih keptS st hnd2 hwf2 hcov2 hkept
              (fun q hq => hrecon q (List.mem_cons_of_mem p hq))
          refine ⟨st2, ?_, ?_, ?_, hkeys, by rw [hvis]; exact hkept2,
            by rw [hvis]; exact horig, by rw [hvis]; exact hfin⟩
          · rw [processAll_cons_skip wdm fcm p ps st hfp]
            exact hrun
          · intro q hq
            exact hout q (fun hmem => hq (List.mem_cons_of_mem p hmem))
          · intro q hq
            rw [hvis]
            rcases List.mem_cons.mp hq with he | hmem
            · subst he
              have h1 : alistFind st2.recon q = alistFind st.recon q :=
                hout q hpnotin
              have h2 : alistFind (refFiles wdm (visitList fcm ps) keptS).files q
                  = none := by
                rw [alistFind_eq_none_iff, refFiles_keys]
                intro hmem
                exact hpnotin (visitList_mem_keys fcm ps q hmem)
              rw [h1, h2, Option.none_or]
            · exact hin q hmem
      | some c =>
          have hwfc : wfDoc c = true := hwf p (List.mem_cons_self p ps) c hfp
          have hrpc : alistFind st.recon p = some (clearDocWf c) := by
            rw [hrecon p (List.mem_cons_self p ps), hfp]
            rfl
          have hpf := processFile_spec wdm p c keptS st hwfc
            (hcov p (List.mem_cons_self p ps) c hfp) hkept hrpc
          have hvis : visitList fcm (p :: ps) = (p, c) :: visitList fcm ps := by
            rw [visitList, List.filterMap_cons, hfp]
            rfl
          have hsome : (alistFind st.recon p).isSome = true := by
            rw [hrpc]
            rfl
          obtain ⟨st2, hrun, hout, hin, hkeys, hkept2, horig, hfin⟩ :=
            ih (refDoc wdm (isSpecial p) c keptS).kept
              ⟨setField st.recon p (refDoc wdm (isSpecial p) c keptS).c,
               (refDoc wdm (isSpecial p) c keptS).kept.map Json.str,
               st.origCount + (docWords c).length,
               st.finalCount + (refDoc wdm (isSpecial p) c keptS).cnt⟩
              hnd2 hwf2 hcov2 rfl
              (by
                intro q hq
                show alistFind (setField st.recon p _) q = _
                rw [alistFind_setField_ne st.recon p q _
                  (fun he => hpnotin (he ▸ hq))]
                exact hrecon q (List.mem_cons_of_mem p hq))
          refine ⟨st2, ?_, ?_, ?_, ?_, ?_, ?_, ?_⟩
          · rw [processAll_cons_ok wdm fcm p ps st c _ hfp hpf]
            exact hrun
          · intro q hq
            have h1 := hout q (fun hmem => hq (List.mem_cons_of_mem p hmem))
            rw [h1]
            show alistFind (setField st.recon p _) q = _
            exact alistFind_setField_ne st.recon p q _
              (fun he => hq (by rw [he]; exact List.mem_cons_self p ps))
          · intro q hq
            rw [hvis]
            rcases List.mem_cons.mp hq with he | hmem
            · subst he
              have h1 := hout q hpnotin
              rw [h1]
              show alistFind (setField st.recon q _) q =
                (alistFind (refFiles wdm ((q, c) :: visitList fcm ps) keptS).files q).or _
              rw [alistFind_setField_self st.recon q _ hsome]
              rw [show (refFiles wdm ((q, c) :: visitList fcm ps) keptS).files =
                    (q, (refDoc wdm (isSpecial q) c keptS).c) ::
                    (refFiles wdm (visitList fcm ps)
                      (refDoc wdm (isSpecial q) c keptS).kept).files from by
                rw [refFiles]]
              rw [alistFind_cons, if_pos rfl, Option.or_some]
            · have h1 := hin q hmem
              rw [h1]
              show _ = (alistFind (refFiles wdm ((p, c) :: visitList fcm ps) keptS).files q).or _
              rw [show (refFiles wdm ((p, c) :: visitList fcm ps) keptS).files =
                    (p, (refDoc wdm (isSpecial p) c keptS).c) ::
                    (refFiles wdm (visitList fcm ps)
                      (refDoc wdm (isSpecial p) c keptS).kept).files from by
                rw [refFiles]]
              rw [alistFind_cons, if_neg (show ¬ (p = q) from
                fun he => hpnotin (by rw [he]; exact hmem))]
              show _ = _
              have h2 : alistFind
                  (setField st.recon p (refDoc wdm (isSpecial p) c keptS).c) q =
                  alistFind st.recon q :=
                alistFind_setField_ne st.recon p q _
                  (fun he => hpnotin (he ▸ hmem))
              rw [h2]
          · rw [hkeys]
            show (setField st.recon p _).map Prod.fst = _
            exact setField_keys st.recon p _ hsome
          · rw [hkept2, hvis, refFiles]
          · rw [horig, hvis]
            show _ = st.origCount + (flatWords ((p, c) :: visitList fcm ps)).length
            rw [show flatWords ((p, c) :: visitList fcm ps) =
                  docWords c ++ flatWords (visitList fcm ps) from by
              rw [flatWords, List.flatMap_cons]
              rfl]
            rw [List.length_append]
            show st.origCount + (docWords c).length +
                (flatWords (visitList fcm ps)).length =
              st.origCount + ((docWords c).length +
                (flatWords (visitList fcm ps)).length)
            omega
          · rw [hfin, hvis, refFiles]
            show st.finalCount + (refDoc wdm (isSpecial p) c keptS).cnt +
                (refFiles wdm (visitList fcm ps)
                  (refDoc wdm (isSpecial p) c keptS).kept).cnt =
              st.finalCount + ((refDoc wdm (isSpecial p) c keptS).cnt +
                (refFiles wdm (visitList fcm ps)
                  (refDoc wdm (isSpecial p) c keptS).kept).cnt)
            omega

/-- The word map built by phase 1 of the pipeline. -/
def pipelineWdm (fsys : String → Option Json) (paths : List String) : WordMap :=
  (collect_word_data fsys paths [] []).1

theorem pipelineWdm_canonical (fsys : String → Option Json)
    (paths : List String) (hnd : paths.Nodup)
    (hwf : ∀ p ∈ paths, wfLoad fsys p = true) (w : String) :
    canonicalOf (pipelineWdm fsys paths) w =
      firstItemFor (loadedOf fsys paths) w := by
  obtain ⟨_, hc, _⟩ := collect_spec fsys paths [] [] hnd hwf (fun p _ => rfl)
  rw [pipelineWdm, hc w]
  rfl

theorem pipelineWdm_good (fsys : String → Option Json) (paths : List String)
    (hnd : paths.Nodup) (hwf : ∀ p ∈ paths, wfLoad fsys p = true) :
    wdmGood (pipelineWdm fsys paths) := by
  obtain ⟨_, _, hg⟩ := collect_spec fsys paths [] [] hnd hwf (fun p _ => rfl)
  exact hg (fun w info h => by cases h)

theorem loadedOf_mem (fsys : String → Option Json) (paths : List String)
    (p : String) (c : Json) (h : (p, c) ∈ loadedOf fsys paths) :
    p ∈ paths ∧ fsys p = some c := by
  rw [loadedOf, List.mem_filterMap] at h
  obtain ⟨q, hq, hmap⟩ := h
  cases hfq : fsys q with
  | none => rw [hfq] at hmap; cases hmap
  | some d =>
      rw [hfq] at hmap
      injection hmap with hmap2
      rw [Prod.mk.injEq] at hmap2
      obtain ⟨h1, h2⟩ := hmap2
      constructor
      · rw [← h1]; exact hq
      · rw [← h1, hfq, h2]

theorem loadedOf_keys_sublist (fsys : String → Option Json)
    (paths : List String) :
    List.Sublist ((loadedOf fsys paths).map Prod.fst) paths := by
  induction paths with
  | nil => exact List.Sublist.refl []
  | cons p ps ih =>
      rw [loadedOf, List.filterMap_cons]
      cases fsys p with
      | none => exact List.Sublist.cons p ih
      | some d => exact List.Sublist.cons₂ p ih

theorem loadedOf_keys_nodup (fsys : String → Option Json)
    (paths : List String) (hnd : paths.Nodup) :
    ((loadedOf fsys paths).map Prod.fst).Nodup :=
  (loadedOf_keys_sublist fsys paths).nodup hnd

theorem alistFind_loadedOf (fsys : String → Option Json) (paths : List String)
    (hnd : paths.Nodup) (p : String) (hp : p ∈ paths) :
    alistFind (loadedOf fsys paths) p = fsys p := by
  induction paths with
  | nil => cases hp
  | cons q ps ih =>
      have hnd2 : ps.Nodup := (List.nodup_cons.mp hnd).2
      have hqnotin : q ∉ ps := (List.nodup_cons.mp hnd).1
      rw [loadedOf, List.filterMap_cons]
      cases hfq : fsys q with
      | none =>
          rcases List.mem_cons.mp hp with he | hmem
          · subst he
            show alistFind (loadedOf fsys ps) p = fsys p
            rw [(alistFind_eq_none_iff (loadedOf fsys ps) p).mpr, hfq]
            intro hk
            exact hqnotin ((loadedOf_keys_sublist fsys ps).subset hk)
          · show alistFind (loadedOf fsys ps) p = fsys p
            exact ih hnd2 hmem
      | some d =>
          rcases List.mem_cons.mp hp with he | hmem
          · subst he
            show alistFind ((p, d) :: loadedOf fsys ps) p = fsys p
            rw [alistFind_cons, if_pos rfl, hfq]
          · show alistFind ((q, d) :: loadedOf fsys ps) p = fsys p
            rw [alistFind_cons,
              if_neg (fun he => hqnotin (by rw [he]; exact hmem))]
            exact ih hnd2 hmem

theorem alistFind_loadedOf_notmem (fsys : String → Option Json)
    (paths : List String) (p : String) (hp : p ∉ paths) :
    alistFind (loadedOf fsys paths) p = none := by
  rw [alistFind_eq_none_iff]
  intro hk
  exact hp ((loadedOf_keys_sublist fsys paths).subset hk)

theorem visitList_loadedOf (fsys : String → Option Json) (paths : List String)
    (hnd : paths.Nodup) :
    visitList (loadedOf fsys paths) paths = loadedOf fsys paths := by
  rw [visitList]
  conv_rhs => rw [loadedOf]
  apply List.filterMap_congr
  intro q hq
  rw [alistFind_loadedOf fsys paths hnd q hq]

theorem map_fst_mapValues {α β : Type} (l : List (String × α)) (f : α → β) :
    (l.map (fun pc => (pc.1, f pc.2))).map Prod.fst = l.map Prod.fst := by
  induction l with
  | nil => rfl
  | cons pc rest ih => simp [ih]

theorem firstItemFor_isSome_of_mem (files : List (String × Json)) (p : String)
    (c : Json) (w : String) (it : Json) (hmem : (p, c) ∈ files)
    (hw : (w, it) ∈ docWords c) : (firstItemFor files w).isSome = true := by
  rw [firstItemFor]
  have h2 : (List.find? (fun pr => decide (pr.1 = w)) (flatWords files)).isSome
      = true := by
    rw [List.find?_isSome]
    refine ⟨(w, it), ?_, by simp⟩
    rw [flatWords, List.mem_flatMap]
    exact ⟨(p, c), hmem, hw⟩
  obtain ⟨x, hx⟩ := Option.isSome_iff_exists.mp h2
  rw [hx]
  rfl

theorem rebuild_eval (wdm : WordMap) (fcm : List (String × Json))
    (paths : List String) (recon0 : List (String × Json)) (st2 : RebuildSt)
    (hclr : clearAll fcm = .ok recon0)
    (h : processAll wdm fcm paths ⟨recon0, [], 0, 0⟩ = .ok st2) :
    rebuild_and_write_files wdm fcm paths = .ok
      ⟨st2.recon, st2.origCount, st2.finalCount,
       st2.recon.filter (fun pc => !(alistFind fcm pc.1 == some pc.2))⟩ := by
  rw [rebuild_and_write_files, hclr, except_bind_ok, h, except_bind_ok]

theorem runPipeline_master (fsys : String → Option Json) (paths : List String)
    (hnd : paths.Nodup) (hwf : ∀ p ∈ paths, wfLoad fsys p = true) :
    runPipeline fsys paths = .ok
      ⟨(refFiles (pipelineWdm fsys paths) (loadedOf fsys paths) []).files,
       (flatWords (loadedOf fsys paths)).length,
       (refFiles (pipelineWdm fsys paths) (loadedOf fsys paths) []).cnt,
       (refFiles (pipelineWdm fsys paths) (loadedOf fsys paths) []).files.filter
         (fun pc => !(alistFind (loadedOf fsys paths) pc.1 == some pc.2))⟩ := by
  obtain ⟨hfcm, hcanon, _⟩ :=
    collect_spec fsys paths [] [] hnd hwf (fun p _ => rfl)
  rw [List.nil_append] at hfcm
  have hwfL : ∀ pc ∈ loadedOf fsys paths, wfDoc pc.2 = true := by
    intro pc hpc
    obtain ⟨hmem, hfs⟩ := loadedOf_mem fsys paths pc.1 pc.2 hpc
    have h2 := hwf pc.1 hmem
    simp only [wfLoad, hfs] at h2
    exact h2
  have hclr := clearAll_wf (loadedOf fsys paths) hwfL
  have hWfind : ∀ q ∈ paths, alistFind (loadedOf fsys paths) q = fsys q :=
    fun q hq => alistFind_loadedOf fsys paths hnd q hq
  have hwfQ : ∀ q ∈ paths, ∀ c, alistFind (loadedOf fsys paths) q = some c →
      wfDoc c = true := by
    intro q hq c hc
    rw [hWfind q hq] at hc
    have h2 := hwf q hq
    simp only [wfLoad, hc] at h2
    exact h2
  have hcanon2 : ∀ w, canonicalOf (pipelineWdm fsys paths) w =
      firstItemFor (loadedOf fsys paths) w := by
    intro w
    have h3 := hcanon w
    rw [show canonicalOf [] w = none from rfl, Option.none_or] at h3
    exact h3
  have hcovQ : ∀ q ∈ paths, ∀ c, alistFind (loadedOf fsys paths) q = some c →
      isSpecial q = false → ∀ pr ∈ docWords c,
      (alistFind (pipelineWdm fsys paths) pr.1).isSome = true := by
    intro q hq c hc _ pr hpr
    have hmem : (q, c) ∈ loadedOf fsys paths :=
      alistFind_mem (loadedOf fsys paths) q c hc
    have hsome := firstItemFor_isSome_of_mem (loadedOf fsys paths) q c pr.1 pr.2
      hmem (by exact hpr)
    cases hfw : alistFind (pipelineWdm fsys paths) pr.1 with
    | some info => rfl
    | none =>
        exfalso
        have h4 := hcanon2 pr.1
        rw [canonicalOf, hfw] at h4
        rw [← h4] at hsome
        cases hsome
  obtain ⟨st2, hrun, hout, hin, hkeys, _, horig, hfin⟩ :=
    processAll_spec (pipelineWdm fsys paths) (loadedOf fsys paths) paths []
      ⟨(loadedOf fsys paths).map (fun pc => (pc.1, clearDocWf pc.2)), [], 0, 0⟩
      hnd hwfQ hcovQ rfl
      (fun q _ => alistFind_mapValues (loadedOf fsys paths) clearDocWf q)
  have hvis := visitList_loadedOf fsys paths hnd
  have hreconEq : st2.recon =
      (refFiles (pipelineWdm fsys paths) (loadedOf fsys paths) []).files := by
    apply alist_ext
    · show st2.recon.map Prod.fst = _
      rw [hkeys]
      show ((loadedOf fsys paths).map
        (fun pc => (pc.1, clearDocWf pc.2))).map Prod.fst = _
      rw [map_fst_mapValues, refFiles_keys]
    · rw [hkeys]
      show (((loadedOf fsys paths).map
        (fun pc => (pc.1, clearDocWf pc.2))).map Prod.fst).Nodup
      rw [map_fst_mapValues]
      exact loadedOf_keys_nodup fsys paths hnd
    · intro k
      by_cases hk : k ∈ paths
      · have h1 := hin k hk
        rw [hvis] at h1
        rw [h1]
        cases hfk : alistFind
            (refFiles (pipelineWdm fsys paths) (loadedOf fsys paths) []).files k with
        | some v =>
            show (some v).or _ = some v
            exact Option.or_some
        | none =>
            rw [Option.none_or]
            show alistFind ((loadedOf fsys paths).map
              (fun pc => (pc.1, clearDocWf pc.2))) k = none
            rw [alistFind_mapValues]
            rw [alistFind_eq_none_iff, refFiles_keys] at hfk
            rw [(alistFind_eq_none_iff (loadedOf fsys paths) k).mpr hfk]
            rfl
      · have h1 := hout k hk
        rw [h1]
        show alistFind ((loadedOf fsys paths).map
          (fun pc => (pc.1, clearDocWf pc.2))) k = _
        rw [alistFind_mapValues, alistFind_loadedOf_notmem fsys paths k hk]
        show (none : Option Json) = _
        rw [eq_comm, alistFind_eq_none_iff, refFiles_keys]
        intro hmem
        exact hk ((loadedOf_keys_sublist fsys paths).subset hmem)
  show rebuild_and_write_files (collect_word_data fsys paths [] []).1
    (collect_word_data fsys paths [] []).2 paths = _
  rw [hfcm]
  rw [show (collect_word_data fsys paths [] []).1 = pipelineWdm fsys paths
    from rfl]
  rw [rebuild_eval (pipelineWdm fsys paths) (loadedOf fsys paths) paths _ st2
    hclr hrun]
  rw [hreconEq, horig, hfin, hvis]
  rw [show (⟨(loadedOf fsys paths).map (fun pc => (pc.1, clearDocWf pc.2)),
        [], 0, 0⟩ : RebuildSt).origCount = 0 from rfl,
      show (⟨(loadedOf fsys paths).map (fun pc => (pc.1, clearDocWf pc.2)),
        [], 0, 0⟩ : RebuildSt).finalCount = 0 from rfl,
      Nat.zero_add, Nat.zero_add]

/-! Derived form of the reference rebuild: the output documents in terms of
the input word streams. -/

theorem contains_iff (l : List String) (w : String) :
    l.contains w = true ↔ w ∈ l :=
  List.elem_iff

theorem contains_eq_false_iff (l : List String) (w : String) :
    l.contains w = false ↔ w ∉ l := by
  constructor
  · intro h hm
    rw [(contains_iff l w).mpr hm] at h
    cases h
  · intro hm
    cases h : l.contains w
    · rfl
    · exact absurd ((contains_iff l w).mp h) hm

theorem not_contains_of_ne_true {l : List String} {w : String}
    (h : ¬ l.contains w = true) : w ∉ l :=
  fun hm => h ((contains_iff l w).mpr hm)

theorem bool_eq_false {b : Bool} (h : ¬ b = true) : b = false := by
  cases b
  · rfl
  · exact absurd rfl h

theorem contains_append_ne (l : List String) (x y : String)
    (h : y ≠ x) : (l ++ [x]).contains y = l.contains y := by
  cases hb : l.contains y with
  | false =>
      have hy : y ∉ l := (contains_eq_false_iff l y).mp hb
      refine (contains_eq_false_iff _ _).mpr ?_
      intro hm
      rcases List.mem_append.mp hm with hm | hm
      · exact hy hm
      · exact h (List.mem_singleton.mp hm)
  | true =>
      exact (contains_iff _ _).mpr
        (List.mem_append_left _ ((contains_iff l y).mp hb))

/-- The per-document seen set accumulated over a word stream. -/
def seenAfter (seen : List String) : List (String × Json) → List String
  | [] => seen
  | (w, _) :: rest =>
      if seen.contains w then seenAfter seen rest
      else seenAfter (seen ++ [w]) rest

theorem seenAfter_cons (seen : List String) (w : String) (it : Json)
    (rest : List (String × Json)) :
    seenAfter seen ((w, it) :: rest) =
      if seen.contains w then seenAfter seen rest
      else seenAfter (seen ++ [w]) rest := rfl

theorem mem_seenAfter (l : List (String × Json)) :
    ∀ (seen : List String) (w : String),
      w ∈ seenAfter seen l ↔ w ∈ seen ∨ w ∈ l.map Prod.fst := by
  induction l with
  | nil =>
      intro seen w
      simp [seenAfter]
  | cons pr rest ih =>
      intro seen w
      obtain ⟨w0, it0⟩ := pr
      rw [seenAfter_cons]
      by_cases h : seen.contains w0 = true
      · rw [if_pos h, ih]
        have hw0 : w0 ∈ seen := (contains_iff seen w0).mp h
        simp only [List.map_cons, List.mem_cons]
        constructor
        · rintro (h1 | h1)
          · exact Or.inl h1
          · exact Or.inr (Or.inr h1)
        · rintro (h1 | h1 | h1)
          · exact Or.inl h1
          · subst h1
            exact Or.inl hw0
          · exact Or.inr h1
      · rw [if_neg h, ih]
        simp only [List.mem_append, List.mem_singleton, List.map_cons,
          List.mem_cons]
        tauto

theorem seenAfter_append (l1 l2 : List (String × Json)) :
    ∀ (seen : List String),
      seenAfter seen (l1 ++ l2) = seenAfter (seenAfter seen l1) l2 := by
  induction l1 with
  | nil => intro seen; rfl
  | cons hd rest ih =>
      intro seen
      obtain ⟨w0, it0⟩ := hd
      rw [List.cons_append, seenAfter_cons, seenAfter_cons]
      by_cases hs : seen.contains w0 = true
      · rw [if_pos hs, if_pos hs, ih]
      · rw [if_neg hs, if_neg hs, ih]

theorem firstOccsAux_cons (seen : List String) (w : String) (it : Json)
    (rest : List (String × Json)) :
    firstOccsAux seen ((w, it) :: rest) =
      if seen.contains w then firstOccsAux seen rest
      else (w, it) :: firstOccsAux (seen ++ [w]) rest := rfl

theorem firstOccsAux_sub (l : List (String × Json)) :
    ∀ (seen : List String) (pr : String × Json),
      pr ∈ firstOccsAux seen l → pr ∈ l := by
  induction l with
  | nil => intro seen pr h; cases h
  | cons hd rest ih =>
      intro seen pr h
      obtain ⟨w0, it0⟩ := hd
      rw [firstOccsAux_cons] at h
      by_cases hs : seen.contains w0 = true
      · rw [if_pos hs] at h
        exact List.mem_cons_of_mem _ (ih seen pr h)
      · rw [if_neg hs] at h
        rcases List.mem_cons.mp h with he | hm
        · rw [he]
          exact List.mem_cons_self _ _
        · exact List.mem_cons_of_mem _ (ih _ pr hm)

theorem firstOccsAux_not_seen (l : List (String × Json)) :
    ∀ (seen : List String) (pr : String × Json),
      pr ∈ firstOccsAux seen l → pr.1 ∉ seen := by
  induction l with
  | nil => intro seen pr h; cases h
  | cons hd rest ih =>
      intro seen pr h
      obtain ⟨w0, it0⟩ := hd
      rw [firstOccsAux_cons] at h
      by_cases hs : seen.contains w0 = true
      · rw [if_pos hs] at h
        exact ih seen pr h
      · rw [if_neg hs] at h
        rcases List.mem_cons.mp h with he | hm
        · rw [he]
          exact not_contains_of_ne_true hs
        · intro hmem
          exact ih (seen ++ [w0]) pr hm (List.mem_append_left _ hmem)

theorem firstOccsAux_append (l1 l2 : List (String × Json)) :
    ∀ (seen : List String),
      firstOccsAux seen (l1 ++ l2) =
        firstOccsAux seen l1 ++ firstOccsAux (seenAfter seen l1) l2 := by
  induction l1 with
  | nil => intro seen; rfl
  | cons hd rest ih =>
      intro seen
      obtain ⟨w0, it0⟩ := hd
      rw [List.cons_append, firstOccsAux_cons, firstOccsAux_cons,
        seenAfter_cons]
      by_cases hs : seen.contains w0 = true
      · rw [if_pos hs, if_pos hs, if_pos hs, ih]
      · rw [if_neg hs, if_neg hs, if_neg hs, ih, List.cons_append]

theorem mem_map_fst_firstOccsAux (l : List (String × Json)) :
    ∀ (seen : List String) (w : String),
      w ∈ (firstOccsAux seen l).map Prod.fst ↔
        w ∉ seen ∧ w ∈ l.map Prod.fst := by
  induction l with
  | nil => intro seen w; simp [firstOccsAux]
  | cons hd rest ih =>
      intro seen w
      obtain ⟨w0, it0⟩ := hd
      rw [firstOccsAux_cons]
      by_cases hs : seen.contains w0 = true
      · rw [if_pos hs, ih]
        have hw0 : w0 ∈ seen := (contains_iff seen w0).mp hs
        simp only [List.map_cons, List.mem_cons]
        constructor
        · rintro ⟨h1, h2⟩
          exact ⟨h1, Or.inr h2⟩
        · rintro ⟨h1, h2 | h2⟩
          · subst h2
            exact absurd hw0 h1
          · exact ⟨h1, h2⟩
      · have hw0 : w0 ∉ seen := not_contains_of_ne_true hs
        rw [if_neg hs]
        simp only [List.map_cons, List.mem_cons, ih, List.mem_append,
          List.mem_singleton]
        constructor
        · rintro (h1 | ⟨h1, h2⟩)
          · subst h1
            exact ⟨hw0, Or.inl rfl⟩
          · exact ⟨fun hm => h1 (Or.inl hm), Or.inr h2⟩
        · rintro ⟨h1, h2 | h2⟩
          · exact Or.inl h2
          · by_cases hww : w = w0
            · exact Or.inl hww
            · refine Or.inr ⟨fun hm => ?_, h2⟩
              rcases hm with hm | hm
              · exact h1 hm
              · rcases hm with hm | hm
                · exact hww hm
                · exact List.not_mem_nil w hm

theorem nodup_map_fst_firstOccsAux (l : List (String × Json)) :
    ∀ (seen : List String), ((firstOccsAux seen l).map Prod.fst).Nodup := by
  induction l with
  | nil => intro seen; simp [firstOccsAux]
  | cons hd rest ih =>
      intro seen
      obtain ⟨w0, it0⟩ := hd
      rw [firstOccsAux_cons]
      by_cases hs : seen.contains w0 = true
      · rw [if_pos hs]
        exact ih seen
      · rw [if_neg hs, List.map_cons, List.nodup_cons]
        constructor
        · intro hm
          exact (mem_map_fst_firstOccsAux rest (seen ++ [w0]) w0).mp hm |>.1
            (List.mem_append_right _ (List.mem_singleton.mpr rfl))
        · exact ih (seen ++ [w0])

theorem find?_cons_pair (w0 : String) (it0 : Json)
    (rest : List (String × Json)) (w : String) :
    ((w0, it0) :: rest).find? (fun pr => pr.1 = w) =
      if w0 = w then some (w0, it0)
      else rest.find? (fun pr => pr.1 = w) := by
  by_cases h : w0 = w <;> simp [List.find?, h]

theorem find?_firstOccsAux (l : List (String × Json)) :
    ∀ (seen : List String) (w : String), w ∉ seen →
      (firstOccsAux seen l).find? (fun pr => pr.1 = w) =
        l.find? (fun pr => pr.1 = w) := by
  induction l with
  | nil => intro seen w _; rfl
  | cons hd rest ih =>
      intro seen w hw
      obtain ⟨w0, it0⟩ := hd
      rw [firstOccsAux_cons]
      by_cases hs : seen.contains w0 = true
      · have hne : w0 ≠ w := fun he => hw (he ▸ (contains_iff seen w0).mp hs)
        rw [if_pos hs, ih seen w hw, find?_cons_pair, if_neg hne]
      · rw [if_neg hs, find?_cons_pair, find?_cons_pair]
        by_cases he : w0 = w
        · rw [if_pos he, if_pos he]
        · rw [if_neg he, if_neg he]
          refine ih (seen ++ [w0]) w ?_
          intro hm
          rcases List.mem_append.mp hm with hm | hm
          · exact hw hm
          · exact he (List.mem_singleton.mp hm).symm

theorem refItems_eval_special (wdm : WordMap) (l : List (String × Json)) :
    ∀ (seen kept : List String),
      refItems wdm true l seen kept =
        (firstOccsAux seen l, seenAfter seen l, kept) := by
  induction l with
  | nil => intro seen kept; rfl
  | cons hd rest ih =>
      intro seen kept
      obtain ⟨w0, it0⟩ := hd
      by_cases hs : seen.contains w0 = true
      · simp only [refItems, firstOccsAux_cons, seenAfter_cons, hs, if_true]
        exact ih seen kept
      · have hs' : seen.contains w0 = false := bool_eq_false hs
        simp only [refItems, firstOccsAux_cons, seenAfter_cons, hs',
          Bool.false_eq_true, if_false, eq_self_iff_true, if_true]
        rw [ih (seen ++ [w0]) kept]

theorem filter_kept_append (F : List (String × Json)) (kept : List String)
    (w0 : String) (hF : ∀ pr ∈ F, pr.1 ≠ w0) :
    F.filter (fun pr => !(kept ++ [w0]).contains pr.1) =
      F.filter (fun pr => !kept.contains pr.1) := by
  apply List.filter_congr
  intro pr hpr
  rw [contains_append_ne kept w0 pr.1 (hF pr hpr)]

theorem refItems_eval_reg (wdm : WordMap) (l : List (String × Json)) :
    ∀ (seen kept : List String),
      refItems wdm false l seen kept =
        (((firstOccsAux seen l).filter (fun pr => !kept.contains pr.1)).map
           (fun pr => (pr.1, canonicalOfD wdm pr.1)),
         seenAfter seen l,
         kept ++ ((firstOccsAux seen l).filter
           (fun pr => !kept.contains pr.1)).map Prod.fst) := by
  induction l with
  | nil =>
      intro seen kept
      simp [refItems, firstOccsAux, seenAfter]
  | cons hd rest ih =>
      intro seen kept
      obtain ⟨w0, it0⟩ := hd
      by_cases hs : seen.contains w0 = true
      · simp only [refItems, firstOccsAux_cons, seenAfter_cons, hs, if_true]
        exact ih seen kept
      · have hs' : seen.contains w0 = false := bool_eq_false hs
        have hFne : ∀ pr ∈ firstOccsAux (seen ++ [w0]) rest, pr.1 ≠ w0 := by
          intro pr hpr he
          exact firstOccsAux_not_seen rest (seen ++ [w0]) pr hpr
            (List.mem_append_right _ (List.mem_singleton.mpr he))
        by_cases hk : kept.contains w0 = true
        · simp only [refItems, firstOccsAux_cons, seenAfter_cons, hs',
            Bool.false_eq_true, if_false, hk, if_true, List.filter_cons,
            Bool.not_true]
          rw [ih (seen ++ [w0]) kept]
        · have hk' : kept.contains w0 = false := bool_eq_false hk
          simp only [refItems, firstOccsAux_cons, seenAfter_cons, hs', hk',
            Bool.false_eq_true, if_false, List.filter_cons, Bool.not_false,
            if_true, List.map_cons]
          rw [ih (seen ++ [w0]) (kept ++ [w0]),
            filter_kept_append _ kept w0 hFne]
          refine congrArg (fun z => ((w0, canonicalOfD wdm w0) :: _, z)) ?_
          rw [List.append_assoc]
          rfl

theorem mem_filterMap_itemWord (items : List Json) (pr : String × Json)
    (h : pr ∈ items.filterMap itemWord) : itemWord pr.2 = some pr := by
  rw [List.mem_filterMap] at h
  obtain ⟨it, _, hit⟩ := h
  obtain ⟨hv, hw⟩ := itemWord_val it pr.1 pr.2 (by rw [hit])
  rw [hv, hw, ← hv]

theorem mem_groupWords_itemWord (g : Json) (pr : String × Json)
    (h : pr ∈ groupWords g) : itemWord pr.2 = some pr := by
  cases g with
  | obj gfs =>
      rw [groupWords] at h
      cases hf : alistFind gfs "words" with
      | none => rw [hf] at h; cases h
      | some v =>
          rw [hf] at h
          cases v with
          | arr items => exact mem_filterMap_itemWord items pr h
          | null => cases h
          | bool b => cases h
          | num n => cases h
          | str s => cases h
          | obj fs2 => cases h
  | null => cases h
  | bool b => cases h
  | num n => cases h
  | str s => cases h
  | arr xs => cases h

theorem mem_docWords_itemWord (c : Json) (pr : String × Json)
    (h : pr ∈ docWords c) : itemWord pr.2 = some pr := by
  cases c with
  | obj fs =>
      rw [docWords] at h
      cases hf : alistFind fs "meanings" with
      | none => rw [hf] at h; cases h
      | some v =>
          rw [hf] at h
          cases v with
          | arr gs =>
              rw [List.mem_flatMap] at h
              obtain ⟨g, _, hg⟩ := h
              exact mem_groupWords_itemWord g pr hg
          | null => cases h
          | bool b => cases h
          | num n => cases h
          | str s => cases h
          | obj fs2 => cases h
  | null => cases h
  | bool b => cases h
  | num n => cases h
  | str s => cases h
  | arr xs => cases h

theorem filterMap_itemWord_id (out : List (String × Json))
    (h : ∀ pr ∈ out, itemWord pr.2 = some pr) :
    (out.map Prod.snd).filterMap itemWord = out := by
  induction out with
  | nil => rfl
  | cons pr rest ih =>
      rw [List.map_cons, List.filterMap_cons,
        h pr (List.mem_cons_self _ _)]
      rw [ih (fun q hq => h q (List.mem_cons_of_mem _ hq))]

theorem groupWords_obj (gfs : List (String × Json)) (items : List Json)
    (hf : alistFind gfs "words" = some (.arr items)) :
    groupWords (.obj gfs) = items.filterMap itemWord := by
  rw [groupWords, hf]

theorem refGroup_eval (wdm : WordMap) (isSp : Bool) (g : Json)
    (seen kept : List String) (hwf : wfGroup g = true)
    (hcanon : ∀ pr ∈ groupWords g, itemWord (canonicalOfD wdm pr.1) =
      some (pr.1, canonicalOfD wdm pr.1)) :
    groupWords (refGroup wdm isSp g seen kept).g =
      (if isSp then firstOccsAux seen (groupWords g)
       else ((firstOccsAux seen (groupWords g)).filter
           (fun pr => !kept.contains pr.1)).map
           (fun pr => (pr.1, canonicalOfD wdm pr.1))) ∧
    (refGroup wdm isSp g seen kept).cnt =
      (groupWords (refGroup wdm isSp g seen kept).g).length ∧
    (refGroup wdm isSp g seen kept).seen = seenAfter seen (groupWords g) ∧
    (refGroup wdm isSp g seen kept).kept =
      (if isSp then kept
       else kept ++ ((firstOccsAux seen (groupWords g)).filter
           (fun pr => !kept.contains pr.1)).map Prod.fst) := by
  cases g with
  | obj gfs =>
      cases hf : alistFind gfs "words" with
      | none =>
          have hgw : groupWords (.obj gfs) = [] := by rw [groupWords, hf]
          have hrg : refGroup wdm isSp (.obj gfs) seen kept =
              ⟨.obj gfs, 0, seen, kept⟩ := by
            rw [refGroup, hf]
          rw [hrg, hgw]
          cases isSp <;> simp [firstOccsAux, seenAfter]
      | some v =>
          cases v with
          | arr items =>
              have hgw : groupWords (.obj gfs) = items.filterMap itemWord :=
                groupWords_obj gfs items hf
              have hpairs : ∀ pr ∈ items.filterMap itemWord,
                  itemWord pr.2 = some pr := mem_filterMap_itemWord items
              have hrg : refGroup wdm isSp (.obj gfs) seen kept =
                  ⟨.obj (setField gfs "words"
                    (.arr ((refItems wdm isSp (items.filterMap itemWord)
                      seen kept).1.map Prod.snd))),
                   (refItems wdm isSp (items.filterMap itemWord)
                      seen kept).1.length,
                   (refItems wdm isSp (items.filterMap itemWord)
                      seen kept).2.1,
                   (refItems wdm isSp (items.filterMap itemWord)
                      seen kept).2.2⟩ := by
                rw [refGroup, hf]
              have hout : ∀ pr ∈ (refItems wdm isSp (items.filterMap itemWord)
                  seen kept).1, itemWord pr.2 = some pr := by
                cases isSp with
                | true =>
                    rw [refItems_eval_special]
                    intro pr hpr
                    exact hpairs pr (firstOccsAux_sub _ seen pr hpr)
                | false =>
                    rw [refItems_eval_reg]
                    intro pr hpr
                    rw [List.mem_map] at hpr
                    obtain ⟨q, hq, hqe⟩ := hpr
                    have hqmem : q ∈ items.filterMap itemWord :=
                      firstOccsAux_sub _ seen q (List.mem_filter.mp hq).1
                    have := hcanon q (by rw [hgw]; exact hqmem)
                    rw [← hqe]
                    exact this
              have hgw2 : groupWords (refGroup wdm isSp (.obj gfs)
                  seen kept).g =
                  (refItems wdm isSp (items.filterMap itemWord) seen kept).1 := by
                rw [hrg]
                rw [groupWords_obj _ _ (alistFind_setField_self gfs "words" _
                  (by rw [hf]; rfl))]
                exact filterMap_itemWord_id _ hout
              refine ⟨?_, ?_, ?_, ?_⟩
              · rw [hgw2, hgw]
                cases isSp with
                | true => rw [refItems_eval_special, if_pos rfl]
                | false => rw [refItems_eval_reg, if_neg Bool.false_ne_true]
              · rw [hgw2, hrg]
              · rw [hrg, hgw]
                cases isSp with
                | true => rw [refItems_eval_special]
                | false => rw [refItems_eval_reg]
              · rw [hrg, hgw]
                cases isSp with
                | true => rw [refItems_eval_special, if_pos rfl]
                | false => rw [refItems_eval_reg, if_neg Bool.false_ne_true]
          | null =>
              have hgw : groupWords (.obj gfs) = [] := by rw [groupWords, hf]
              have hrg : refGroup wdm isSp (.obj gfs) seen kept =
                  ⟨.obj (setField gfs "words" (.arr [])), 0, seen, kept⟩ := by
                rw [refGroup, hf]
              have hgw2 : groupWords (refGroup wdm isSp (.obj gfs)
                  seen kept).g = [] := by
                rw [hrg, groupWords_obj _ _ (alistFind_setField_self gfs
                  "words" _ (by rw [hf]; rfl))]
                rfl
              rw [hgw2, hgw, hrg]
              cases isSp <;> simp [firstOccsAux, seenAfter]
          | bool b =>
              have hgw : groupWords (.obj gfs) = [] := by rw [groupWords, hf]
              have hrg : refGroup wdm isSp (.obj gfs) seen kept =
                  ⟨.obj (setField gfs "words" (.arr [])), 0, seen, kept⟩ := by
                rw [refGroup, hf]
              have hgw2 : groupWords (refGroup wdm isSp (.obj gfs)
                  seen kept).g = [] := by
                rw [hrg, groupWords_obj _ _ (alistFind_setField_self gfs
                  "words" _ (by rw [hf]; rfl))]
                rfl
              rw [hgw2, hgw, hrg]
              cases isSp <;> simp [firstOccsAux, seenAfter]
          | num n =>
              have hgw : groupWords (.obj gfs) = [] := by rw [groupWords, hf]
              have hrg : refGroup wdm isSp (.obj gfs) seen kept =
                  ⟨.obj (setField gfs "words" (.arr [])), 0, seen, kept⟩ := by
                rw [refGroup, hf]
              have hgw2 : groupWords (refGroup wdm isSp (.obj gfs)
                  seen kept).g = [] := by
                rw [hrg, groupWords_obj _ _ (alistFind_setField_self gfs
                  "words" _ (by rw [hf]; rfl))]
                rfl
              rw [hgw2, hgw, hrg]
              cases isSp <;> simp [firstOccsAux, seenAfter]
          | str s =>
              have hgw : groupWords (.obj gfs) = [] := by rw [groupWords, hf]
              have hrg : refGroup wdm isSp (.obj gfs) seen kept =
                  ⟨.obj (setField gfs "words" (.arr [])), 0, seen, kept⟩ := by
                rw [refGroup, hf]
              have hgw2 : groupWords (refGroup wdm isSp (.obj gfs)
                  seen kept).g = [] := by
                rw [hrg, groupWords_obj _ _ (alistFind_setField_self gfs
                  "words" _ (by rw [hf]; rfl))]
                rfl
              rw [hgw2, hgw, hrg]
              cases isSp <;> simp [firstOccsAux, seenAfter]
          | obj fs2 =>
              have hgw : groupWords (.obj gfs) = [] := by rw [groupWords, hf]
              have hrg : refGroup wdm isSp (.obj gfs) seen kept =
                  ⟨.obj (setField gfs "words" (.arr [])), 0, seen, kept⟩ := by
                rw [refGroup, hf]
              have hgw2 : groupWords (refGroup wdm isSp (.obj gfs)
                  seen kept).g = [] := by
                rw [hrg, groupWords_obj _ _ (alistFind_setField_self gfs
                  "words" _ (by rw [hf]; rfl))]
                rfl
              rw [hgw2, hgw, hrg]
              cases isSp <;> simp [firstOccsAux, seenAfter]
  | null => simp [wfGroup] at hwf
  | bool b => simp [wfGroup] at hwf
  | num n => simp [wfGroup] at hwf
  | str s => simp [wfGroup] at hwf
  | arr xs => simp [wfGroup] at hwf

theorem contains_append_not_mem (l m : List String) (y : String)
    (h : y ∉ m) : (l ++ m).contains y = l.contains y := by
  cases hb : l.contains y with
  | false =>
      have hy : y ∉ l := (contains_eq_false_iff l y).mp hb
      refine (contains_eq_false_iff _ _).mpr ?_
      intro hm
      rcases List.mem_append.mp hm with hm | hm
      · exact hy hm
      · exact h hm
  | true =>
      exact (contains_iff _ _).mpr
        (List.mem_append_left _ ((contains_iff l y).mp hb))

theorem filter_kept_extend (B : List (String × Json)) (kept ext : List String)
    (hB : ∀ pr ∈ B, pr.1 ∉ ext) :
    B.filter (fun pr => !(kept ++ ext).contains pr.1) =
      B.filter (fun pr => !kept.contains pr.1) := by
  apply List.filter_congr
  intro pr hpr
  rw [contains_append_not_mem kept ext pr.1 (hB pr hpr)]

theorem map_fst_filter_sub (A : List (String × Json))
    (q : String × Json → Bool) (w : String)
    (h : w ∈ (A.filter q).map Prod.fst) : w ∈ A.map Prod.fst := by
  rw [List.mem_map] at h ⊢
  obtain ⟨pr, hpr, he⟩ := h
  exact ⟨pr, (List.mem_filter.mp hpr).1, he⟩

theorem refGroups_eval_special (wdm : WordMap) (gs : List Json) :
    ∀ (seen kept : List String),
      gs.all wfGroup = true →
      (∀ pr ∈ gs.flatMap groupWords, itemWord (canonicalOfD wdm pr.1) =
        some (pr.1, canonicalOfD wdm pr.1)) →
      (refGroups wdm true gs seen kept).gs.flatMap groupWords =
        firstOccsAux seen (gs.flatMap groupWords) ∧
      (refGroups wdm true gs seen kept).cnt =
        ((refGroups wdm true gs seen kept).gs.flatMap groupWords).length ∧
      (refGroups wdm true gs seen kept).seen =
        seenAfter seen (gs.flatMap groupWords) ∧
      (refGroups wdm true gs seen kept).kept = kept ∧
      (refGroups wdm true gs seen kept).gs.length = gs.length := by
  induction gs with
  | nil =>
      intro seen kept _ _
      exact ⟨rfl, rfl, rfl, rfl, rfl⟩
  | cons g rest ih =>
      intro seen kept hwf hcanon
      rw [List.all_cons, Bool.and_eq_true] at hwf
      obtain ⟨hwfg, hwfr⟩ := hwf
      have hcg : ∀ pr ∈ groupWords g, itemWord (canonicalOfD wdm pr.1) =
          some (pr.1, canonicalOfD wdm pr.1) := fun pr hpr =>
        hcanon pr (by rw [List.flatMap_cons]; exact List.mem_append_left _ hpr)
      have hcr : ∀ pr ∈ rest.flatMap groupWords,
          itemWord (canonicalOfD wdm pr.1) =
          some (pr.1, canonicalOfD wdm pr.1) := fun pr hpr =>
        hcanon pr (by rw [List.flatMap_cons]; exact List.mem_append_right _ hpr)
      obtain ⟨hg1, hg2, hg3, hg4⟩ := refGroup_eval wdm true g seen kept hwfg hcg
      rw [if_pos rfl] at hg1 hg4
      obtain ⟨hr1, hr2, hr3, hr4, hr5⟩ :=
        ih (refGroup wdm true g seen kept).seen
          (refGroup wdm true g seen kept).kept hwfr hcr
      rw [hg3, hg4] at hr1 hr2 hr3 hr4 hr5
      have hgse : (refGroups wdm true (g :: rest) seen kept).gs =
          (refGroup wdm true g seen kept).g ::
            (refGroups wdm true rest (refGroup wdm true g seen kept).seen
              (refGroup wdm true g seen kept).kept).gs := rfl
      have hcnte : (refGroups wdm true (g :: rest) seen kept).cnt =
          (refGroup wdm true g seen kept).cnt +
            (refGroups wdm true rest (refGroup wdm true g seen kept).seen
              (refGroup wdm true g seen kept).kept).cnt := rfl
      have hseene : (refGroups wdm true (g :: rest) seen kept).seen =
          (refGroups wdm true rest (refGroup wdm true g seen kept).seen
            (refGroup wdm true g seen kept).kept).seen := rfl
      have hkepte : (refGroups wdm true (g :: rest) seen kept).kept =
          (refGroups wdm true rest (refGroup wdm true g seen kept).seen
            (refGroup wdm true g seen kept).kept).kept := rfl
      rw [hgse, hcnte, hseene, hkepte, hg3, hg4]
      refine ⟨?_, ?_, ?_, ?_, ?_⟩
      · rw [List.flatMap_cons, hg1, hr1, List.flatMap_cons,
          firstOccsAux_append]
      · rw [List.flatMap_cons, List.length_append, hg2, hr2]
      · rw [hr3, List.flatMap_cons, seenAfter_append]
      · exact hr4
      · rw [List.length_cons, hr5, List.length_cons]

theorem refGroups_eval_reg (wdm : WordMap) (gs : List Json) :
    ∀ (seen kept : List String),
      gs.all wfGroup = true →
      (∀ pr ∈ gs.flatMap groupWords, itemWord (canonicalOfD wdm pr.1) =
        some (pr.1, canonicalOfD wdm pr.1)) →
      (refGroups wdm false gs seen kept).gs.flatMap groupWords =
        ((firstOccsAux seen (gs.flatMap groupWords)).filter
           (fun pr => !kept.contains pr.1)).map
           (fun pr => (pr.1, canonicalOfD wdm pr.1)) ∧
      (refGroups wdm false gs seen kept).cnt =
        ((refGroups wdm false gs seen kept).gs.flatMap groupWords).length ∧
      (refGroups wdm false gs seen kept).seen =
        seenAfter seen (gs.flatMap groupWords) ∧
      (refGroups wdm false gs seen kept).kept =
        kept ++ ((firstOccsAux seen (gs.flatMap groupWords)).filter
           (fun pr => !kept.contains pr.1)).map Prod.fst ∧
      (refGroups wdm false gs seen kept).gs.length = gs.length := by
  induction gs with
  | nil =>
      intro seen kept _ _
      refine ⟨rfl, rfl, rfl, ?_, rfl⟩
      show kept = kept ++ []
      rw [List.append_nil]
  | cons g rest ih =>
      intro seen kept hwf hcanon
      rw [List.all_cons, Bool.and_eq_true] at hwf
      obtain ⟨hwfg, hwfr⟩ := hwf
      have hcg : ∀ pr ∈ groupWords g, itemWord (canonicalOfD wdm pr.1) =
          some (pr.1, canonicalOfD wdm pr.1) := fun pr hpr =>
        hcanon pr (by rw [List.flatMap_cons]; exact List.mem_append_left _ hpr)
      have hcr : ∀ pr ∈ rest.flatMap groupWords,
          itemWord (canonicalOfD wdm pr.1) =
          some (pr.1, canonicalOfD wdm pr.1) := fun pr hpr =>
        hcanon pr (by rw [List.flatMap_cons]; exact List.mem_append_right _ hpr)
      obtain ⟨hg1, hg2, hg3, hg4⟩ :=
        refGroup_eval wdm false g seen kept hwfg hcg
      rw [if_neg Bool.false_ne_true] at hg1 hg4
      obtain ⟨hr1, hr2, hr3, hr4, hr5⟩ :=
        ih (refGroup wdm false g seen kept).seen
          (refGroup wdm false g seen kept).kept hwfr hcr
      rw [hg3, hg4] at hr1 hr2 hr3 hr4 hr5
      have hBnotin : ∀ pr ∈ firstOccsAux (seenAfter seen (groupWords g))
          (rest.flatMap groupWords),
          pr.1 ∉ ((firstOccsAux seen (groupWords g)).filter
            (fun q => !kept.contains q.1)).map Prod.fst := by
        intro pr hpr hmem
        have h1 : pr.1 ∉ seenAfter seen (groupWords g) :=
          firstOccsAux_not_seen _ _ pr hpr
        have h2 : pr.1 ∈ (firstOccsAux seen (groupWords g)).map Prod.fst :=
          map_fst_filter_sub _ _ pr.1 hmem
        have h3 := (mem_map_fst_firstOccsAux (groupWords g) seen pr.1).mp h2
        exact h1 ((mem_seenAfter (groupWords g) seen pr.1).mpr (Or.inr h3.2))
      have hBfix := filter_kept_extend
        (firstOccsAux (seenAfter seen (groupWords g)) (rest.flatMap groupWords))
        kept
        (((firstOccsAux seen (groupWords g)).filter
          (fun q => !kept.contains q.1)).map Prod.fst)
        hBnotin
      rw [hBfix] at hr1 hr4
      have hgse : (refGroups wdm false (g :: rest) seen kept).gs =
          (refGroup wdm false g seen kept).g ::
            (refGroups wdm false rest (refGroup wdm false g seen kept).seen
              (refGroup wdm false g seen kept).kept).gs := rfl
      have hcnte : (refGroups wdm false (g :: rest) seen kept).cnt =
          (refGroup wdm false g seen kept).cnt +
            (refGroups wdm false rest (refGroup wdm false g seen kept).seen
              (refGroup wdm false g seen kept).kept).cnt := rfl
      have hseene : (refGroups wdm false (g :: rest) seen kept).seen =
          (refGroups wdm false rest (refGroup wdm false g seen kept).seen
            (refGroup wdm false g seen kept).kept).seen := rfl
      have hkepte : (refGroups wdm false (g :: rest) seen kept).kept =
          (refGroups wdm false rest (refGroup wdm false g seen kept).seen
            (refGroup wdm false g seen kept).kept).kept := rfl
      rw [hgse, hcnte, hseene, hkepte, hg3, hg4]
      refine ⟨?_, ?_, ?_, ?_, ?_⟩
      · rw [List.flatMap_cons, hg1, hr1, List.flatMap_cons,
          firstOccsAux_append, List.filter_append, List.map_append]
      · rw [List.flatMap_cons, List.length_append, hg2, hr2]
      · rw [hr3, List.flatMap_cons, seenAfter_append]
      · rw [hr4, List.flatMap_cons, firstOccsAux_append,
          List.filter_append, List.map_append, List.append_assoc]
      · rw [List.length_cons, hr5, List.length_cons]

theorem docWords_obj (fs : List (String × Json)) (gs : List Json)
    (hm : alistFind fs "meanings" = some (.arr gs)) :
    docWords (.obj fs) = gs.flatMap groupWords := by
  rw [docWords, hm]

theorem refDoc_eval (wdm : WordMap) (isSp : Bool) (c : Json)
    (kept : List String) (hwf : wfDoc c = true)
    (hcanon : ∀ pr ∈ docWords c, itemWord (canonicalOfD wdm pr.1) =
      some (pr.1, canonicalOfD wdm pr.1)) :
    docWords (refDoc wdm isSp c kept).c =
      (if isSp then firstOccs (docWords c)
       else ((firstOccs (docWords c)).filter
           (fun pr => !kept.contains pr.1)).map
           (fun pr => (pr.1, canonicalOfD wdm pr.1))) ∧
    (refDoc wdm isSp c kept).cnt =
      (docWords (refDoc wdm isSp c kept).c).length ∧
    (refDoc wdm isSp c kept).kept =
      (if isSp then kept
       else kept ++ ((firstOccs (docWords c)).filter
           (fun pr => !kept.contains pr.1)).map Prod.fst) := by
  cases c with
  | obj fs =>
      cases hm : alistFind fs "meanings" with
      | none =>
          have hrd : refDoc wdm isSp (.obj fs) kept = ⟨.obj fs, 0, kept⟩ := by
            simp [refDoc, hm]
          have hdw : docWords (Json.obj fs) = [] := by
            simp [docWords, hm]
          rw [hrd, hdw]
          cases isSp <;> simp [firstOccs, firstOccsAux]
      | some mv =>
          cases mv with
          | arr gs =>
              have hgs : gs.all wfGroup = true := by
                have h2 := hwf
                simp only [wfDoc, hm] at h2
                exact h2
              have hdw : docWords (Json.obj fs) = gs.flatMap groupWords :=
                docWords_obj fs gs hm
              have hrd : refDoc wdm isSp (.obj fs) kept =
                  ⟨.obj (setField fs "meanings"
                    (.arr (refGroups wdm isSp gs [] kept).gs)),
                   (refGroups wdm isSp gs [] kept).cnt,
                   (refGroups wdm isSp gs [] kept).kept⟩ := by
                simp only [refDoc, hm]
              have hdw2 : docWords (refDoc wdm isSp (.obj fs) kept).c =
                  (refGroups wdm isSp gs [] kept).gs.flatMap groupWords := by
                rw [hrd]
                exact docWords_obj _ _ (alistFind_setField_self fs "meanings" _
                  (by rw [hm]; rfl))
              have hcanon2 : ∀ pr ∈ gs.flatMap groupWords,
                  itemWord (canonicalOfD wdm pr.1) =
                  some (pr.1, canonicalOfD wdm pr.1) := by
                rw [← hdw]
                exact hcanon
              cases isSp with
              | true =>
                  obtain ⟨h1, h2, _, h4, _⟩ :=
                    refGroups_eval_special wdm gs [] kept hgs hcanon2
                  rw [if_pos rfl, if_pos rfl, hdw2, hrd, hdw]
                  exact ⟨h1, h2, h4⟩
              | false =>
                  obtain ⟨h1, h2, _, h4, _⟩ :=
                    refGroups_eval_reg wdm gs [] kept hgs hcanon2
                  rw [if_neg Bool.false_ne_true, if_neg Bool.false_ne_true,
                    hdw2, hrd, hdw]
                  exact ⟨h1, h2, h4⟩
          | null => simp [wfDoc, hm] at hwf
          | bool b => simp [wfDoc, hm] at hwf
          | num n => simp [wfDoc, hm] at hwf
          | str s => simp [wfDoc, hm] at hwf
          | obj fs2 => simp [wfDoc, hm] at hwf
  | null => simp [wfDoc] at hwf
  | bool b => simp [wfDoc] at hwf
  | num n => simp [wfDoc] at hwf
  | str s => simp [wfDoc] at hwf
  | arr xs => simp [wfDoc] at hwf

/-- The `words_kept_in_regular_files` set accumulated when the rebuild
reaches a given path. -/
def keptPrefix (wdm : WordMap) :
    List (String × Json) → List String → String → List String
  | [], kept, _ => kept
  | (q, c) :: rest, kept, p =>
      if q = p then kept
      else keptPrefix wdm rest (refDoc wdm (isSpecial q) c kept).kept p

/-- The loaded files strictly before a given path. -/
def beforeFiles : List (String × Json) → String → List (String × Json)
  | [], _ => []
  | (q, c) :: rest, p => if q = p then [] else (q, c) :: beforeFiles rest p

theorem keptPrefix_cons (wdm : WordMap) (q : String) (c : Json)
    (rest : List (String × Json)) (kept : List String) (p : String) :
    keptPrefix wdm ((q, c) :: rest) kept p =
      if q = p then kept
      else keptPrefix wdm rest (refDoc wdm (isSpecial q) c kept).kept p := rfl

theorem beforeFiles_cons (q : String) (c : Json)
    (rest : List (String × Json)) (p : String) :
    beforeFiles ((q, c) :: rest) p =
      if q = p then [] else (q, c) :: beforeFiles rest p := rfl

theorem flatWords_cons (q : String) (d : Json)
    (rest : List (String × Json)) :
    flatWords ((q, d) :: rest) = docWords d ++ flatWords rest := by
  rw [flatWords, flatWords, List.flatMap_cons]

theorem refFiles_find (wdm : WordMap) (L : List (String × Json)) :
    ∀ (kept : List String) (p : String) (c : Json),
      alistFind L p = some c →
      alistFind (refFiles wdm L kept).files p =
        some (refDoc wdm (isSpecial p) c (keptPrefix wdm L kept p)).c := by
  induction L with
  | nil => intro kept p c h; cases h
  | cons qd rest ih =>
      intro kept p c h
      obtain ⟨q, d⟩ := qd
      have hfiles : (refFiles wdm ((q, d) :: rest) kept).files =
          (q, (refDoc wdm (isSpecial q) d kept).c) ::
            (refFiles wdm rest (refDoc wdm (isSpecial q) d kept).kept).files :=
        rfl
      rw [hfiles, alistFind_cons, keptPrefix_cons]
      rw [alistFind_cons] at h
      by_cases hq : q = p
      · subst hq
        rw [if_pos rfl] at h
        injection h with h2
        subst h2
        rw [if_pos rfl, if_pos rfl]
      · rw [if_neg hq] at h
        rw [if_neg hq, if_neg hq]
        exact ih _ p c h

theorem docHasWord_iff (c : Json) (w : String) :
    docHasWord c w = true ↔ w ∈ (docWords c).map Prod.fst := by
  rw [docHasWord, List.any_eq_true]
  constructor
  · rintro ⟨pr, hpr, he⟩
    exact List.mem_map.mpr ⟨pr, hpr, of_decide_eq_true he⟩
  · intro h
    obtain ⟨pr, hpr, he⟩ := List.mem_map.mp h
    exact ⟨pr, hpr, decide_eq_true he⟩

theorem mem_map_fst_filter_firstOccs (l : List (String × Json))
    (kept : List String) (w : String) :
    w ∈ ((firstOccs l).filter (fun pr => !kept.contains pr.1)).map Prod.fst ↔
      (w ∉ kept ∧ w ∈ l.map Prod.fst) := by
  rw [firstOccs]
  constructor
  · intro h
    rw [List.mem_map] at h
    obtain ⟨pr, hpr, he⟩ := h
    rw [List.mem_filter] at hpr
    obtain ⟨h1, h2⟩ := hpr
    rw [← he]
    constructor
    · intro hm
      rw [(contains_iff kept pr.1).mpr hm] at h2
      exact absurd h2 (by decide)
    · exact ((mem_map_fst_firstOccsAux l [] pr.1).mp
        (List.mem_map.mpr ⟨pr, h1, rfl⟩)).2
  · rintro ⟨h1, h2⟩
    obtain ⟨pr, hpr, he⟩ := List.mem_map.mp
      ((mem_map_fst_firstOccsAux l [] w).mpr ⟨List.not_mem_nil w, h2⟩)
    refine List.mem_map.mpr ⟨pr, List.mem_filter.mpr ⟨hpr, ?_⟩, he⟩
    rw [he, (contains_eq_false_iff kept w).mpr h1]
    rfl

theorem refDoc_kept_mem (wdm : WordMap) (isSp : Bool) (c : Json)
    (kept : List String) (w : String) (hwf : wfDoc c = true)
    (hcanon : ∀ pr ∈ docWords c, itemWord (canonicalOfD wdm pr.1) =
      some (pr.1, canonicalOfD wdm pr.1)) :
    w ∈ (refDoc wdm isSp c kept).kept ↔
      w ∈ kept ∨ (isSp = false ∧ docHasWord c w = true) := by
  obtain ⟨_, _, h3⟩ := refDoc_eval wdm isSp c kept hwf hcanon
  rw [h3]
  cases isSp with
  | true =>
      rw [if_pos rfl]
      constructor
      · exact Or.inl
      · rintro (h | ⟨h, _⟩)
        · exact h
        · cases h
  | false =>
      rw [if_neg Bool.false_ne_true, List.mem_append,
        mem_map_fst_filter_firstOccs, docHasWord_iff]
      constructor
      · rintro (h | ⟨h1, h2⟩)
        · exact Or.inl h
        · exact Or.inr ⟨rfl, h2⟩
      · rintro (h | ⟨_, h2⟩)
        · exact Or.inl h
        · by_cases hk : w ∈ kept
          · exact Or.inl hk
          · exact Or.inr ⟨hk, h2⟩

theorem keptPrefix_mem (wdm : WordMap) (L : List (String × Json)) :
    ∀ (kept : List String) (p w : String),
      (∀ pc ∈ L, wfDoc pc.2 = true) →
      (∀ pr ∈ flatWords L, itemWord (canonicalOfD wdm pr.1) =
        some (pr.1, canonicalOfD wdm pr.1)) →
      (w ∈ keptPrefix wdm L kept p ↔
        w ∈ kept ∨ ∃ qd ∈ beforeFiles L p,
          isSpecial qd.1 = false ∧ docHasWord qd.2 w = true) := by
  induction L with
  | nil =>
      intro kept p w _ _
      simp [keptPrefix, beforeFiles]
  | cons qd rest ih =>
      intro kept p w hwf hcanon
      obtain ⟨q, d⟩ := qd
      have hwfd : wfDoc d = true := hwf (q, d) (List.mem_cons_self _ _)
      have hwfr : ∀ pc ∈ rest, wfDoc pc.2 = true :=
        fun pc hpc => hwf pc (List.mem_cons_of_mem _ hpc)
      have hcd : ∀ pr ∈ docWords d, itemWord (canonicalOfD wdm pr.1) =
          some (pr.1, canonicalOfD wdm pr.1) := fun pr hpr =>
        hcanon pr (by rw [flatWords_cons]; exact List.mem_append_left _ hpr)
      have hcr : ∀ pr ∈ flatWords rest, itemWord (canonicalOfD wdm pr.1) =
          some (pr.1, canonicalOfD wdm pr.1) := fun pr hpr =>
        hcanon pr (by rw [flatWords_cons]; exact List.mem_append_right _ hpr)
      rw [keptPrefix_cons, beforeFiles_cons]
      by_cases hq : q = p
      · rw [if_pos hq, if_pos hq]
        simp
      · rw [if_neg hq, if_neg hq,
          ih (refDoc wdm (isSpecial q) d kept).kept p w hwfr hcr,
          refDoc_kept_mem wdm (isSpecial q) d kept w hwfd hcd]
        constructor
        · rintro ((h | ⟨hsp, hdw⟩) | ⟨x, hx, hP⟩)
          · exact Or.inl h
          · exact Or.inr ⟨(q, d), List.mem_cons_self _ _, hsp, hdw⟩
          · exact Or.inr ⟨x, List.mem_cons_of_mem _ hx, hP⟩
        · rintro (h | ⟨x, hx, hP⟩)
          · exact Or.inl (Or.inl h)
          · rcases List.mem_cons.mp hx with he | hm
            · rw [he] at hP
              exact Or.inl (Or.inr hP)
            · exact Or.inr ⟨x, hm, hP⟩

theorem loadedOf_wf (fsys : String → Option Json) (paths : List String)
    (hwf : ∀ p ∈ paths, wfLoad fsys p = true) :
    ∀ pc ∈ loadedOf fsys paths, wfDoc pc.2 = true := by
  intro pc hpc
  obtain ⟨hmem, hfs⟩ := loadedOf_mem fsys paths pc.1 pc.2 hpc
  have h2 := hwf pc.1 hmem
  simp only [wfLoad, hfs] at h2
  exact h2

theorem mem_loadedOf (fsys : String → Option Json) (paths : List String)
    (p : String) (c : Json) (hp : p ∈ paths) (hc : fsys p = some c) :
    (p, c) ∈ loadedOf fsys paths := by
  rw [loadedOf, List.mem_filterMap]
  exact ⟨p, hp, by rw [hc]; rfl⟩

theorem mem_flatWords (L : List (String × Json)) (pc : String × Json)
    (pr : String × Json) (h1 : pc ∈ L) (h2 : pr ∈ docWords pc.2) :
    pr ∈ flatWords L := by
  rw [flatWords, List.mem_flatMap]
  exact ⟨pc, h1, h2⟩

theorem pipeline_canon_item (fsys : String → Option Json)
    (paths : List String) (hnd : paths.Nodup)
    (hwf : ∀ p ∈ paths, wfLoad fsys p = true) :
    ∀ pr ∈ flatWords (loadedOf fsys paths),
      itemWord (canonicalOfD (pipelineWdm fsys paths) pr.1) =
        some (pr.1, canonicalOfD (pipelineWdm fsys paths) pr.1) := by
  intro pr hpr
  have hcan := pipelineWdm_canonical fsys paths hnd hwf pr.1
  have hsome : (firstItemFor (loadedOf fsys paths) pr.1).isSome = true := by
    rw [firstItemFor]
    have h2 : (List.find? (fun q => decide (q.1 = pr.1))
        (flatWords (loadedOf fsys paths))).isSome = true := by
      rw [List.find?_isSome]
      exact ⟨pr, hpr, by simp⟩
    obtain ⟨x, hx⟩ := Option.isSome_iff_exists.mp h2
    rw [hx]
    rfl
  have hcs : (canonicalOf (pipelineWdm fsys paths) pr.1).isSome = true := by
    rw [hcan]
    exact hsome
  cases hfw : alistFind (pipelineWdm fsys paths) pr.1 with
  | none =>
      rw [canonicalOf, hfw] at hcs
      simp at hcs
  | some info =>
      have hgood := pipelineWdm_good fsys paths hnd hwf pr.1 info hfw
      have heq : canonicalOfD (pipelineWdm fsys paths) pr.1 =
          info.canonical_data := by
        rw [canonicalOfD, canonicalOf, hfw]
        rfl
      rw [heq]
      exact hgood

theorem pipeline_doc (fsys : String → Option Json) (paths : List String)
    (hnd : paths.Nodup) (hwf : ∀ p ∈ paths, wfLoad fsys p = true)
    (p : String) (c : Json) (hp : p ∈ paths) (hc : fsys p = some c) :
    ∃ r : RunResult, runPipeline fsys paths = .ok r ∧
      ∃ c', alistFind r.recon p = some c' ∧
        docWords c' =
          (if isSpecial p then firstOccs (docWords c)
           else ((firstOccs (docWords c)).filter (fun pr =>
               !(keptPrefix (pipelineWdm fsys paths)
                 (loadedOf fsys paths) [] p).contains pr.1)).map
               (fun pr => (pr.1, canonicalOfD (pipelineWdm fsys paths) pr.1)))
        ∧ (∀ w, w ∈ keptPrefix (pipelineWdm fsys paths)
              (loadedOf fsys paths) [] p ↔
            ∃ qd ∈ beforeFiles (loadedOf fsys paths) p,
              isSpecial qd.1 = false ∧ docHasWord qd.2 w = true) := by
  refine ⟨_, runPipeline_master fsys paths hnd hwf, ?_⟩
  have hfind : alistFind (loadedOf fsys paths) p = some c := by
    rw [alistFind_loadedOf fsys paths hnd p hp, hc]
  have hwfL := loadedOf_wf fsys paths hwf
  have hcanon := pipeline_canon_item fsys paths hnd hwf
  have hwfc : wfDoc c = true := by
    have h2 := hwf p hp
    simp only [wfLoad, hc] at h2
    exact h2
  have hcc : ∀ pr ∈ docWords c,
      itemWord (canonicalOfD (pipelineWdm fsys paths) pr.1) =
        some (pr.1, canonicalOfD (pipelineWdm fsys paths) pr.1) :=
    fun pr hpr => hcanon pr (mem_flatWords _ (p, c)
      pr (mem_loadedOf fsys paths p c hp hc) hpr)
  refine ⟨_, refFiles_find (pipelineWdm fsys paths)
    (loadedOf fsys paths) [] p c hfind, ?_, ?_⟩
  · obtain ⟨h1, _, _⟩ := refDoc_eval (pipelineWdm fsys paths) (isSpecial p) c
      (keptPrefix (pipelineWdm fsys paths) (loadedOf fsys paths) [] p)
      hwfc hcc
    exact h1
  · intro w
    rw [keptPrefix_mem (pipelineWdm fsys paths) (loadedOf fsys paths) []
      p w hwfL hcanon]
    constructor
    · rintro (h | h)
      · cases h
      · exact h
    · exact Or.inr

theorem map_fst_canonMap (wdm : WordMap) (l : List (String × Json)) :
    (l.map (fun pr => (pr.1, canonicalOfD wdm pr.1))).map Prod.fst =
      l.map Prod.fst := by
  induction l with
  | nil => rfl
  | cons pr rest ih => simp [ih]

theorem find?_map_canon (wdm : WordMap) (l : List (String × Json))
    (w : String) :
    (l.map (fun pr => (pr.1, canonicalOfD wdm pr.1))).find?
      (fun pr => pr.1 = w) =
      (l.find? (fun pr => pr.1 = w)).map
        (fun pr => (pr.1, canonicalOfD wdm pr.1)) := by
  induction l with
  | nil => rfl
  | cons pr rest ih =>
      obtain ⟨w0, it0⟩ := pr
      rw [List.map_cons]
      rw [find?_cons_pair, find?_cons_pair]
      by_cases he : w0 = w
      · rw [if_pos he, if_pos he]
        rfl
      · rw [if_neg he, if_neg he, ih]

theorem find?_filter_keep (l : List (String × Json))
    (q : String × Json → Bool) (w : String)
    (hq : ∀ pr ∈ l, pr.1 = w → q pr = true) :
    (l.filter q).find? (fun pr => pr.1 = w) =
      l.find? (fun pr => pr.1 = w) := by
  induction l with
  | nil => rfl
  | cons pr rest ih =>
      obtain ⟨w0, it0⟩ := pr
      rw [List.filter_cons]
      by_cases hqp : q (w0, it0) = true
      · rw [if_pos hqp, find?_cons_pair, find?_cons_pair]
        by_cases he : w0 = w
        · rw [if_pos he, if_pos he]
        · rw [if_neg he, if_neg he]
          exact ih (fun x hx hxe => hq x (List.mem_cons_of_mem _ hx) hxe)
      · have hne : w0 ≠ w := fun he =>
          hqp (hq (w0, it0) (List.mem_cons_self _ _) he)
        rw [if_neg hqp, find?_cons_pair, if_neg hne]
        exact ih (fun x hx hxe => hq x (List.mem_cons_of_mem _ hx) hxe)

theorem docHasWord_find? (c : Json) (w : String)
    (h : docHasWord c w = true) :
    ∃ pr, (docWords c).find? (fun q => q.1 = w) = some pr ∧ pr.1 = w := by
  rw [docHasWord] at h
  have h2 : ((docWords c).find? (fun q => decide (q.1 = w))).isSome = true := by
    rw [List.find?_isSome]
    obtain ⟨pr, hpr, he⟩ := List.any_eq_true.mp h
    exact ⟨pr, hpr, he⟩
  obtain ⟨pr, hpr⟩ := Option.isSome_iff_exists.mp h2
  have hp := List.find?_some hpr
  exact ⟨pr, hpr, of_decide_eq_true hp⟩

theorem firstEntryFor_special (c c' : Json)
    (hdw : docWords c' = firstOccs (docWords c)) (w : String) :
    firstEntryFor c' w = firstEntryFor c w := by
  rw [firstEntryFor, firstEntryFor, hdw, firstOccs,
    find?_firstOccsAux _ [] w (List.not_mem_nil w)]

theorem docHasWord_special (c c' : Json)
    (hdw : docWords c' = firstOccs (docWords c)) (w : String) :
    docHasWord c' w = docHasWord c w := by
  cases hb : docHasWord c w with
  | true =>
      rw [docHasWord_iff, hdw, firstOccs]
      exact (mem_map_fst_firstOccsAux (docWords c) [] w).mpr
        ⟨List.not_mem_nil w, (docHasWord_iff c w).mp hb⟩
  | false =>
      refine bool_eq_false ?_
      intro hcc
      have h2 := (mem_map_fst_firstOccsAux (docWords c) [] w).mp
        (by rw [docHasWord_iff, hdw, firstOccs] at hcc; exact hcc)
      rw [(docHasWord_iff c w).mpr h2.2] at hb
      cases hb

theorem docHasWord_reg (wdm : WordMap) (c c' : Json) (kept : List String)
    (hdw : docWords c' = ((firstOccs (docWords c)).filter
      (fun pr => !kept.contains pr.1)).map
      (fun pr => (pr.1, canonicalOfD wdm pr.1))) (w : String) :
    docHasWord c' w = true ↔ (w ∉ kept ∧ docHasWord c w = true) := by
  rw [docHasWord_iff, hdw, map_fst_canonMap,
    mem_map_fst_filter_firstOccs, docHasWord_iff]

theorem firstEntryFor_reg (wdm : WordMap) (c c' : Json) (kept : List String)
    (hdw : docWords c' = ((firstOccs (docWords c)).filter
      (fun pr => !kept.contains pr.1)).map
      (fun pr => (pr.1, canonicalOfD wdm pr.1)))
    (w : String) (hkw : w ∉ kept) (hw : docHasWord c w = true) :
    firstEntryFor c' w = some (canonicalOfD wdm w) := by
  rw [firstEntryFor, hdw, find?_map_canon]
  rw [find?_filter_keep _ _ w (fun pr _ hpe => by
    rw [hpe, (contains_eq_false_iff kept w).mpr hkw]
    rfl)]
  rw [firstOccs, find?_firstOccsAux _ [] w (List.not_mem_nil w)]
  obtain ⟨pr0, hfind, hpr0⟩ := docHasWord_find? c w hw
  rw [hfind, ← hpr0]
  rfl

theorem canonicalOfD_firstItemFor (fsys : String → Option Json)
    (paths : List String) (hnd : paths.Nodup)
    (hwf : ∀ p ∈ paths, wfLoad fsys p = true) (w : String)
    (hsome : (firstItemFor (loadedOf fsys paths) w).isSome = true) :
    some (canonicalOfD (pipelineWdm fsys paths) w) =
      firstItemFor (loadedOf fsys paths) w := by
  rw [canonicalOfD, pipelineWdm_canonical fsys paths hnd hwf w]
  obtain ⟨x, hx⟩ := Option.isSome_iff_exists.mp hsome
  rw [hx]
  rfl

theorem pipeline_doc2 (fsys : String → Option Json) (paths : List String)
    (hnd : paths.Nodup) (hwf : ∀ p ∈ paths, wfLoad fsys p = true)
    (p : String) (c : Json) (hp : p ∈ paths) (hc : fsys p = some c) :
    ∃ c', alistFind (refFiles (pipelineWdm fsys paths)
        (loadedOf fsys paths) []).files p = some c' ∧
      docWords c' =
        (if isSpecial p then firstOccs (docWords c)
         else ((firstOccs (docWords c)).filter (fun pr =>
             !(keptPrefix (pipelineWdm fsys paths)
               (loadedOf fsys paths) [] p).contains pr.1)).map
             (fun pr => (pr.1, canonicalOfD (pipelineWdm fsys paths) pr.1)))
      ∧ (∀ w, w ∈ keptPrefix (pipelineWdm fsys paths)
            (loadedOf fsys paths) [] p ↔
          ∃ qd ∈ beforeFiles (loadedOf fsys paths) p,
            isSpecial qd.1 = false ∧ docHasWord qd.2 w = true) := by
  have hfind : alistFind (loadedOf fsys paths) p = some c := by
    rw [alistFind_loadedOf fsys paths hnd p hp, hc]
  have hwfL := loadedOf_wf fsys paths hwf
  have hcanon := pipeline_canon_item fsys paths hnd hwf
  have hwfc : wfDoc c = true := by
    have h2 := hwf p hp
    simp only [wfLoad, hc] at h2
    exact h2
  have hcc : ∀ pr ∈ docWords c,
      itemWord (canonicalOfD (pipelineWdm fsys paths) pr.1) =
        some (pr.1, canonicalOfD (pipelineWdm fsys paths) pr.1) :=
    fun pr hpr => hcanon pr (mem_flatWords _ (p, c)
      pr (mem_loadedOf fsys paths p c hp hc) hpr)
  refine ⟨_, refFiles_find (pipelineWdm fsys paths)
    (loadedOf fsys paths) [] p c hfind, ?_, ?_⟩
  · obtain ⟨h1, _, _⟩ := refDoc_eval (pipelineWdm fsys paths) (isSpecial p) c
      (keptPrefix (pipelineWdm fsys paths) (loadedOf fsys paths) [] p)
      hwfc hcc
    exact h1
  · intro w
    rw [keptPrefix_mem (pipelineWdm fsys paths) (loadedOf fsys paths) []
      p w hwfL hcanon]
    constructor
    · rintro (h | h)
      · cases h
      · exact h
    · exact Or.inr

/-! Concrete input trees used to instantiate the theorems. -/

/-- A small word entry payload, distinguishable by its `note` field. -/
def wItem (w : String) (tag : Int) : Json :=
  .obj [("word", .str w), ("note", .num tag)]

def docS : Json :=
  .obj [("name", .str "S"),
        ("meanings", .arr [.obj [("words", .arr [wItem "w" 1])]])]

def docR1 : Json :=
  .obj [("name", .str "R1"),
        ("meanings", .arr [.obj [("words",
          .arr [wItem "w" 2, wItem "x" 3, .obj [("word", .str "")],
                wItem "x" 4])]])]

def docR2 : Json :=
  .obj [("name", .str "R2"),
        ("meanings", .arr [.obj [("words",
          .arr [wItem "w" 5, wItem "x" 6])]])]

def wPathsA : List String := ["d/pre/s.json", "d/r1.json", "d/r2.json"]

def wFsysA : String → Option Json := fun p =>
  if p = "d/pre/s.json" then some docS
  else if p = "d/r1.json" then some docR1
  else if p = "d/r2.json" then some docR2
  else none

def docB : Json :=
  .obj [("meanings", .arr [.obj [("words",
    .arr [wItem "a" 1, wItem "a" 2])]])]

def wPathsB : List String := ["b/r.json"]

def wFsysB : String → Option Json := fun p =>
  if p = "b/r.json" then some docB else none

def doc9 : Json := .obj [("meanings", .num 5)]

def wFsys9 : String → Option Json := fun p =>
  if p = "data/bad.json" then some doc9 else none

theorem firstItemFor_isSome_of_doc (fsys : String → Option Json)
    (paths : List String) (p : String) (c : Json) (hp : p ∈ paths)
    (hc : fsys p = some c) (w : String) (hw : docHasWord c w = true) :
    (firstItemFor (loadedOf fsys paths) w).isSome = true := by
  rw [docHasWord] at hw
  obtain ⟨pr, hpr, he⟩ := List.any_eq_true.mp hw
  have he2 : pr.1 = w := of_decide_eq_true he
  have hmem : (p, c) ∈ loadedOf fsys paths := mem_loadedOf fsys paths p c hp hc
  have hmem2 : (w, pr.2) ∈ docWords c := by
    rw [← he2]
    exact hpr
  exact firstItemFor_isSome_of_mem (loadedOf fsys paths) p c w pr.2 hmem hmem2

theorem map_fst_filter_comm (l : List (String × Json)) (p : String → Bool) :
    (l.filter (fun pr => p pr.1)).map Prod.fst = (l.map Prod.fst).filter p := by
  induction l with
  | nil => rfl
  | cons pr rest ih =>
      rw [List.filter_cons, List.map_cons, List.filter_cons]
      by_cases hp : p pr.1 = true
      · rw [if_pos hp, if_pos hp, List.map_cons, ih]
      · rw [if_neg hp, if_neg hp, ih]

/-- C1 (amended): for a word `w` present in both a special-tier document `S`
and a regular-tier document `R`, the retained entry for `w` in `S` is indeed
unchanged; but `w` is not removed from `R` on account of `S`: `w` survives in
`R` exactly when no regular-tier document earlier in the file order contains
it.  (The claimed unconditional absence of `w` from `R` is refuted by
`C1_tier_precedence_counterexample`.) -/
theorem C1_tier_precedence (fsys : String → Option Json) (paths : List String)
    (hnd : paths.Nodup) (hwf : ∀ p ∈ paths, wfLoad fsys p = true)
    (pS : String) (cS : Json) (hpS : pS ∈ paths) (hcS : fsys pS = some cS)
    (hspS : isSpecial pS = true)
    (pR : String) (cR : Json) (hpR : pR ∈ paths) (hcR : fsys pR = some cR)
    (hspR : isSpecial pR = false)
    (w : String) (hwS : docHasWord cS w = true)
    (hwR : docHasWord cR w = true) :
    ∃ r : RunResult, runPipeline fsys paths = .ok r ∧
      (∃ cS', alistFind r.recon pS = some cS' ∧ docHasWord cS' w = true ∧
        firstEntryFor cS' w = firstEntryFor cS w) ∧
      (∃ cR', alistFind r.recon pR = some cR' ∧
        (docHasWord cR' w = true ↔
          ¬ ∃ qd ∈ beforeFiles (loadedOf fsys paths) pR,
            isSpecial qd.1 = false ∧ docHasWord qd.2 w = true)) := by
  refine ⟨_, runPipeline_master fsys paths hnd hwf, ?_, ?_⟩
  · obtain ⟨cS', hfS, hdwS, _⟩ :=
      pipeline_doc2 fsys paths hnd hwf pS cS hpS hcS
    rw [if_pos hspS] at hdwS
    exact ⟨cS', hfS, by rw [docHasWord_special cS cS' hdwS w]; exact hwS,
      firstEntryFor_special cS cS' hdwS w⟩
  · obtain ⟨cR', hfR, hdwR, hkp⟩ :=
      pipeline_doc2 fsys paths hnd hwf pR cR hpR hcR
    rw [hspR, if_neg Bool.false_ne_true] at hdwR
    refine ⟨cR', hfR, ?_⟩
    rw [docHasWord_reg _ cR cR' _ hdwR w]
    constructor
    · rintro ⟨hnk, _⟩ hex
      exact hnk ((hkp w).mpr hex)
    · intro hnex
      exact ⟨fun hk => hnex ((hkp w).mp hk), hwR⟩

/-- The regular-tier document `d/r1.json` after the run on the concrete tree
`wFsysA`: it still contains the word `w` (with the canonical payload taken
from the special file), although the special file `d/pre/s.json` also
contains `w`. -/
def docR1out : Json :=
  .obj [("name", .str "R1"),
        ("meanings", .arr [.obj [("words", .arr [wItem "w" 1, wItem "x" 3])]])]

/-- C1 counterexample: on a well-formed input tree in which the word `w`
occurs both in the special-tier file `d/pre/s.json` and in the regular-tier
file `d/r1.json`, the pipeline keeps `w` in the regular file (it is the
first regular file containing `w`), contradicting the claimed absence of a
shared word from every regular-tier document. -/
theorem C1_tier_precedence_counterexample :
    (wPathsA.Nodup ∧ ∀ p ∈ wPathsA, wfLoad wFsysA p = true) ∧
    isSpecial "d/pre/s.json" = true ∧ isSpecial "d/r1.json" = false ∧
    wFsysA "d/pre/s.json" = some docS ∧ docHasWord docS "w" = true ∧
    wFsysA "d/r1.json" = some docR1 ∧ docHasWord docR1 "w" = true ∧
    ∃ r : RunResult, runPipeline wFsysA wPathsA = .ok r ∧
      alistFind r.recon "d/r1.json" = some docR1out ∧
      docHasWord docR1out "w" = true := by
  refine ⟨⟨by decide, by decide⟩, by decide, by decide, rfl, by decide, rfl,
    by decide, ⟨_, rfl, rfl, by decide⟩⟩

/-- C2: for a word `w` contained in two regular-tier documents `R1`
(earlier in the caller-supplied order, and the globally designated first
regular occurrence of `w`) and `R2` (later), the run keeps `w` in `R1` with
the canonical payload — the payload of the globally first occurrence of `w`
across the whole ordered loaded file list — and removes it from `R2`. -/
theorem C2_first_regular_wins (fsys : String → Option Json)
    (paths : List String) (hnd : paths.Nodup)
    (hwf : ∀ p ∈ paths, wfLoad fsys p = true)
    (p1 : String) (c1 : Json) (hp1 : p1 ∈ paths) (hc1 : fsys p1 = some c1)
    (hsp1 : isSpecial p1 = false)
    (p2 : String) (c2 : Json) (hp2 : p2 ∈ paths) (hc2 : fsys p2 = some c2)
    (hsp2 : isSpecial p2 = false)
    (w : String) (hw1 : docHasWord c1 w = true) (hw2 : docHasWord c2 w = true)
    (hbefore : (p1, c1) ∈ beforeFiles (loadedOf fsys paths) p2)
    (hfirst : ∀ qd ∈ beforeFiles (loadedOf fsys paths) p1,
      isSpecial qd.1 = false → docHasWord qd.2 w = false) :
    ∃ r : RunResult, runPipeline fsys paths = .ok r ∧
      (∃ c1', alistFind r.recon p1 = some c1' ∧ docHasWord c1' w = true ∧
        firstEntryFor c1' w = firstItemFor (loadedOf fsys paths) w) ∧
      (∃ c2', alistFind r.recon p2 = some c2' ∧
        docHasWord c2' w = false) := by
  refine ⟨_, runPipeline_master fsys paths hnd hwf, ?_, ?_⟩
  · obtain ⟨c1', hf1, hdw1, hkp1⟩ :=
      pipeline_doc2 fsys paths hnd hwf p1 c1 hp1 hc1
    rw [hsp1, if_neg Bool.false_ne_true] at hdw1
    have hnk1 : w ∉ keptPrefix (pipelineWdm fsys paths)
        (loadedOf fsys paths) [] p1 := by
      intro hk
      obtain ⟨qd, hqd, hqs, hqw⟩ := (hkp1 w).mp hk
      rw [hfirst qd hqd hqs] at hqw
      cases hqw
    refine ⟨c1', hf1,
      (docHasWord_reg _ c1 c1' _ hdw1 w).mpr ⟨hnk1, hw1⟩, ?_⟩
    rw [firstEntryFor_reg _ c1 c1' _ hdw1 w hnk1 hw1]
    exact canonicalOfD_firstItemFor fsys paths hnd hwf w
      (firstItemFor_isSome_of_doc fsys paths p1 c1 hp1 hc1 w hw1)
  · obtain ⟨c2', hf2, hdw2, hkp2⟩ :=
      pipeline_doc2 fsys paths hnd hwf p2 c2 hp2 hc2
    rw [hsp2, if_neg Bool.false_ne_true] at hdw2
    have hk2 : w ∈ keptPrefix (pipelineWdm fsys paths)
        (loadedOf fsys paths) [] p2 :=
      (hkp2 w).mpr ⟨(p1, c1), hbefore, hsp1, hw1⟩
    refine ⟨c2', hf2, bool_eq_false ?_⟩
    intro hcc
    exact ((docHasWord_reg _ c2 c2' _ hdw2 w).mp hcc).1 hk2

/-- C3: a word occurring in a special-tier document is still present there
after the run, with its original first-occurrence payload, regardless of
which other files contain it. -/
theorem C3_special_retention (fsys : String → Option Json)
    (paths : List String) (hnd : paths.Nodup)
    (hwf : ∀ p ∈ paths, wfLoad fsys p = true)
    (p : String) (c : Json) (hp : p ∈ paths) (hc : fsys p = some c)
    (hsp : isSpecial p = true) (w : String) (hw : docHasWord c w = true) :
    ∃ r : RunResult, runPipeline fsys paths = .ok r ∧
      ∃ c', alistFind r.recon p = some c' ∧ docHasWord c' w = true ∧
        firstEntryFor c' w = firstEntryFor c w := by
  refine ⟨_, runPipeline_master fsys paths hnd hwf, ?_⟩
  obtain ⟨c', hf, hdw, _⟩ := pipeline_doc2 fsys paths hnd hwf p c hp hc
  rw [if_pos hsp] at hdw
  exact ⟨c', hf, by rw [docHasWord_special c c' hdw w]; exact hw,
    firstEntryFor_special c c' hdw w⟩

/-- C4: within a single rebuilt document no word string occurs twice, and
the retained entries are the first in-document occurrences in traversal
order: a special document keeps exactly the first occurrence of each of its
words, and a regular document keeps the first occurrences of the words the
cross-file rule lets through. -/
theorem C4_same_doc_dedup (fsys : String → Option Json)
    (paths : List String) (hnd : paths.Nodup)
    (hwf : ∀ p ∈ paths, wfLoad fsys p = true)
    (p : String) (c : Json) (hp : p ∈ paths) (hc : fsys p = some c) :
    ∃ r : RunResult, runPipeline fsys paths = .ok r ∧
      ∃ c', alistFind r.recon p = some c' ∧
        ((docWords c').map Prod.fst).Nodup ∧
        (isSpecial p = true → docWords c' = firstOccs (docWords c)) ∧
        (isSpecial p = false → (docWords c').map Prod.fst =
          ((firstOccs (docWords c)).map Prod.fst).filter
            (fun v => !(keptPrefix (pipelineWdm fsys paths)
              (loadedOf fsys paths) [] p).contains v)) := by
  refine ⟨_, runPipeline_master fsys paths hnd hwf, ?_⟩
  obtain ⟨c', hf, hdw, _⟩ := pipeline_doc2 fsys paths hnd hwf p c hp hc
  refine ⟨c', hf, ?_, ?_, ?_⟩
  · cases hsp : isSpecial p with
    | true =>
        rw [if_pos hsp] at hdw
        rw [hdw, firstOccs]
        exact nodup_map_fst_firstOccsAux (docWords c) []
    | false =>
        rw [hsp, if_neg Bool.false_ne_true] at hdw
        rw [hdw, map_fst_canonMap, map_fst_filter_comm (firstOccs (docWords c))
          (fun v => !(keptPrefix (pipelineWdm fsys paths)
            (loadedOf fsys paths) [] p).contains v), firstOccs]
        exact (nodup_map_fst_firstOccsAux (docWords c) []).filter _
  · intro hsp
    rw [if_pos hsp] at hdw
    exact hdw
  · intro hsp
    rw [hsp, if_neg Bool.false_ne_true] at hdw
    rw [hdw, map_fst_canonMap, map_fst_filter_comm (firstOccs (docWords c))
      (fun v => !(keptPrefix (pipelineWdm fsys paths)
        (loadedOf fsys paths) [] p).contains v), firstOccs]

/-- C6: a rebuilt document is written back (and counted as modified) exactly
when its rebuilt content differs from the original parsed content. -/
theorem C6_noop_write (fsys : String → Option Json) (paths : List String)
    (hnd : paths.Nodup) (hwf : ∀ p ∈ paths, wfLoad fsys p = true)
    (p : String) (c : Json) (hp : p ∈ paths) (hc : fsys p = some c) :
    ∃ r : RunResult, runPipeline fsys paths = .ok r ∧
      ∃ c', alistFind r.recon p = some c' ∧
        ((p, c') ∈ r.written ↔ c' ≠ c) := by
  refine ⟨_, runPipeline_master fsys paths hnd hwf, ?_⟩
  obtain ⟨c', hf, _, _⟩ := pipeline_doc2 fsys paths hnd hwf p c hp hc
  refine ⟨c', hf, ?_⟩
  have hfindL : alistFind (loadedOf fsys paths) p = some c := by
    rw [alistFind_loadedOf fsys paths hnd p hp, hc]
  show (p, c') ∈ (refFiles (pipelineWdm fsys paths)
      (loadedOf fsys paths) []).files.filter
      (fun pc => !(alistFind (loadedOf fsys paths) pc.1 == some pc.2)) ↔
    c' ≠ c
  rw [List.mem_filter]
  constructor
  · rintro ⟨_, hb⟩
    have hb2 : (!(alistFind (loadedOf fsys paths) p == some c')) = true := hb
    rw [hfindL] at hb2
    intro he
    rw [he] at hb2
    simp at hb2
  · intro hne
    refine ⟨alistFind_mem _ p c' hf, ?_⟩
    show (!(alistFind (loadedOf fsys paths) p == some c')) = true
    rw [hfindL]
    have hb : (some c == some c' : Bool) = false := by
      rw [beq_eq_false_iff_ne]
      intro he
      injection he with he2
      exact hne he2.symm
    rw [hb]
    rfl

/-- Agreement of two meaning groups outside their `words` array: same key
sequence, and the same value at every key other than `words`. -/
def agreeGroup (g g' : Json) : Bool :=
  match g, g' with
  | .obj gfs, .obj gfs' =>
      (gfs.map Prod.fst == gfs'.map Prod.fst) &&
      (gfs.map Prod.fst).all (fun k =>
        (k == "words") || (alistFind gfs k == alistFind gfs' k))
  | a, b => a == b

/-- Agreement of two documents outside their `meanings[].words[]` arrays:
same key sequence, the same value at every key other than `meanings`, and
pairwise agreeing meaning groups. -/
def agreeOutsideWords (c c' : Json) : Bool :=
  match c, c' with
  | .obj fs, .obj fs' =>
      (fs.map Prod.fst == fs'.map Prod.fst) &&
      ((fs.map Prod.fst).all (fun k =>
        (k == "meanings") || (alistFind fs k == alistFind fs' k))) &&
      (match alistFind fs "meanings", alistFind fs' "meanings" with
       | some (.arr gs), some (.arr gs') =>
           (gs.length == gs'.length) &&
           (gs.zip gs').all (fun g2 => agreeGroup g2.1 g2.2)
       | mv, mv' => mv == mv')
  | a, b => a == b

theorem agreeGroup_self (g : Json) : agreeGroup g g = true := by
  cases g with
  | obj gfs => simp [agreeGroup, List.all_eq_true]
  | null => simp [agreeGroup]
  | bool b => simp [agreeGroup]
  | num n => simp [agreeGroup]
  | str s => simp [agreeGroup]
  | arr xs => simp [agreeGroup]

theorem agreeGroup_setField (gfs : List (String × Json)) (X : Json)
    (h : (alistFind gfs "words").isSome = true) :
    agreeGroup (.obj gfs) (.obj (setField gfs "words" X)) = true := by
  simp only [agreeGroup, Bool.and_eq_true]
  constructor
  · rw [setField_keys gfs "words" X h]
    simp
  · rw [List.all_eq_true]
    intro k hk
    by_cases hkw : k = "words"
    · subst hkw
      simp
    · rw [alistFind_setField_ne gfs "words" k X hkw]
      simp

theorem refGroup_agree (wdm : WordMap) (isSp : Bool) (g : Json)
    (seen kept : List String) :
    agreeGroup g (refGroup wdm isSp g seen kept).g = true := by
  cases g with
  | obj gfs =>
      cases hf : alistFind gfs "words" with
      | none =>
          have hrg : (refGroup wdm isSp (.obj gfs) seen kept).g = .obj gfs := by
            rw [refGroup, hf]
          rw [hrg]
          exact agreeGroup_self _
      | some v =>
          have hsome : (alistFind gfs "words").isSome = true := by
            rw [hf]
            rfl
          cases v with
          | arr items =>
              have hrg : (refGroup wdm isSp (.obj gfs) seen kept).g =
                  .obj (setField gfs "words"
                    (.arr ((refItems wdm isSp (items.filterMap itemWord)
                      seen kept).1.map Prod.snd))) := by
                rw [refGroup, hf]
              rw [hrg]
              exact agreeGroup_setField gfs _ hsome
          | null =>
              have hrg : (refGroup wdm isSp (.obj gfs) seen kept).g =
                  .obj (setField gfs "words" (.arr [])) := by
                rw [refGroup, hf]
              rw [hrg]
              exact agreeGroup_setField gfs _ hsome
          | bool b =>
              have hrg : (refGroup wdm isSp (.obj gfs) seen kept).g =
                  .obj (setField gfs "words" (.arr [])) := by
                rw [refGroup, hf]
              rw [hrg]
              exact agreeGroup_setField gfs _ hsome
          | num n =>
              have hrg : (refGroup wdm isSp (.obj gfs) seen kept).g =
                  .obj (setField gfs "words" (.arr [])) := by
                rw [refGroup, hf]
              rw [hrg]
              exact agreeGroup_setField gfs _ hsome
          | str s =>
              have hrg : (refGroup wdm isSp (.obj gfs) seen kept).g =
                  .obj (setField gfs "words" (.arr [])) := by
                rw [refGroup, hf]
              rw [hrg]
              exact agreeGroup_setField gfs _ hsome
          | obj fs2 =>
              have hrg : (refGroup wdm isSp (.obj gfs) seen kept).g =
                  .obj (setField gfs "words" (.arr [])) := by
                rw [refGroup, hf]
              rw [hrg]
              exact agreeGroup_setField gfs _ hsome
  | null => exact agreeGroup_self _
  | bool b => exact agreeGroup_self _
  | num n => exact agreeGroup_self _
  | str s => exact agreeGroup_self _
  | arr xs => exact agreeGroup_self _

theorem refGroups_length (wdm : WordMap) (isSp : Bool) (gs : List Json) :
    ∀ (seen kept : List String),
      (refGroups wdm isSp gs seen kept).gs.length = gs.length := by
  induction gs with
  | nil => intro seen kept; rfl
  | cons g rest ih =>
      intro seen kept
      have he : (refGroups wdm isSp (g :: rest) seen kept).gs =
          (refGroup wdm isSp g seen kept).g ::
            (refGroups wdm isSp rest (refGroup wdm isSp g seen kept).seen
              (refGroup wdm isSp g seen kept).kept).gs := rfl
      rw [he, List.length_cons, ih, List.length_cons]

theorem refGroups_zip_agree (wdm : WordMap) (isSp : Bool) (gs : List Json) :
    ∀ (seen kept : List String),
      ((gs.zip (refGroups wdm isSp gs seen kept).gs).all
        (fun g2 => agreeGroup g2.1 g2.2)) = true := by
  induction gs with
  | nil => intro seen kept; rfl
  | cons g rest ih =>
      intro seen kept
      have he : (refGroups wdm isSp (g :: rest) seen kept).gs =
          (refGroup wdm isSp g seen kept).g ::
            (refGroups wdm isSp rest (refGroup wdm isSp g seen kept).seen
              (refGroup wdm isSp g seen kept).kept).gs := rfl
      rw [he, List.zip_cons_cons, List.all_cons, Bool.and_eq_true]
      exact ⟨refGroup_agree wdm isSp g seen kept, ih _ _⟩

theorem refDoc_agree (wdm : WordMap) (isSp : Bool) (c : Json)
    (kept : List String) (hwf : wfDoc c = true) :
    agreeOutsideWords c (refDoc wdm isSp c kept).c = true := by
  cases c with
  | obj fs =>
      cases hm : alistFind fs "meanings" with
      | none =>
          have hrd : (refDoc wdm isSp (.obj fs) kept).c = .obj fs := by
            simp [refDoc, hm]
          rw [hrd]
          simp [agreeOutsideWords, hm, List.all_eq_true]
      | some mv =>
          cases mv with
          | arr gs =>
              have hsome : (alistFind fs "meanings").isSome = true := by
                rw [hm]
                rfl
              have hrd : (refDoc wdm isSp (.obj fs) kept).c =
                  .obj (setField fs "meanings"
                    (.arr (refGroups wdm isSp gs [] kept).gs)) := by
                simp [refDoc, hm]
              rw [hrd]
              simp only [agreeOutsideWords, Bool.and_eq_true]
              refine ⟨⟨?_, ?_⟩, ?_⟩
              · rw [setField_keys fs "meanings" _ hsome]
                simp
              · rw [List.all_eq_true]
                intro k hk
                by_cases hkm : k = "meanings"
                · subst hkm
                  simp
                · rw [alistFind_setField_ne fs "meanings" k _ hkm]
                  simp
              · rw [hm, alistFind_setField_self fs "meanings" _ hsome]
                rw [Bool.and_eq_true]
                constructor
                · rw [refGroups_length]
                  simp
                · exact refGroups_zip_agree wdm isSp gs [] kept
          | null => simp [wfDoc, hm] at hwf
          | bool b => simp [wfDoc, hm] at hwf
          | num n => simp [wfDoc, hm] at hwf
          | str s => simp [wfDoc, hm] at hwf
          | obj fs2 => simp [wfDoc, hm] at hwf
  | null => simp [wfDoc] at hwf
  | bool b => simp [wfDoc] at hwf
  | num n => simp [wfDoc] at hwf
  | str s => simp [wfDoc] at hwf
  | arr xs => simp [wfDoc] at hwf

/-- C7: for every loaded document, the rebuilt output preserves everything
outside the `meanings[].words[]` arrays — the key sequence of the document,
every value at a key other than `meanings`, the number and order of meaning
groups, and within each group the key sequence and every value at a key
other than `words`. -/
theorem C7_non_word_preservation (fsys : String → Option Json)
    (paths : List String) (hnd : paths.Nodup)
    (hwf : ∀ p ∈ paths, wfLoad fsys p = true)
    (p : String) (c : Json) (hp : p ∈ paths) (hc : fsys p = some c) :
    ∃ r : RunResult, runPipeline fsys paths = .ok r ∧
      ∃ c', alistFind r.recon p = some c' ∧
        agreeOutsideWords c c' = true := by
  refine ⟨_, runPipeline_master fsys paths hnd hwf, ?_⟩
  have hfind : alistFind (loadedOf fsys paths) p = some c := by
    rw [alistFind_loadedOf fsys paths hnd p hp, hc]
  have hwfc : wfDoc c = true := by
    have h2 := hwf p hp
    simp only [wfLoad, hc] at h2
    exact h2
  exact ⟨_, refFiles_find (pipelineWdm fsys paths)
    (loadedOf fsys paths) [] p c hfind,
    refDoc_agree (pipelineWdm fsys paths) (isSpecial p) c _ hwfc⟩

/-- Every entry of every `words` array of the group carries a proper word
(a non-empty string `word` field). -/
def tightGroup (g : Json) : Bool :=
  match g with
  | .obj gfs =>
    match alistFind gfs "words" with
    | none => true
    | some (.arr items) => items.all (fun it => (itemWord it).isSome)
    | some _ => false
  | _ => false

/-- Every entry of every `words` array of the document carries a proper
word. -/
def tightDoc (c : Json) : Bool :=
  match c with
  | .obj fs =>
    match alistFind fs "meanings" with
    | none => true
    | some (.arr gs) => gs.all tightGroup
    | some _ => false
  | _ => false

theorem tightGroup_setField_arr (gfs : List (String × Json))
    (out : List (String × Json))
    (hout : ∀ pr ∈ out, itemWord pr.2 = some pr) :
    tightGroup (.obj (setField gfs "words"
      (.arr (out.map Prod.snd)))) = true := by
  by_cases hsome : (alistFind gfs "words").isSome = true
  · rw [tightGroup, alistFind_setField_self gfs "words" _ hsome,
      List.all_eq_true]
    intro it hit
    obtain ⟨pr, hpr, he⟩ := List.mem_map.mp hit
    rw [← he, hout pr hpr]
    rfl
  · have hnone : alistFind gfs "words" = none := by
      cases hcc : alistFind gfs "words"
      · rfl
      · exact absurd (by rw [hcc]; rfl) hsome
    rw [setField_of_not_mem gfs "words" _ hnone, tightGroup, hnone]

theorem refGroup_tight (wdm : WordMap) (isSp : Bool) (g : Json)
    (seen kept : List String) (hwf : wfGroup g = true)
    (hcanon : ∀ pr ∈ groupWords g, itemWord (canonicalOfD wdm pr.1) =
      some (pr.1, canonicalOfD wdm pr.1)) :
    tightGroup (refGroup wdm isSp g seen kept).g = true := by
  cases g with
  | obj gfs =>
      cases hf : alistFind gfs "words" with
      | none =>
          have hrg : (refGroup wdm isSp (.obj gfs) seen kept).g = .obj gfs := by
            rw [refGroup, hf]
          rw [hrg, tightGroup, hf]
      | some v =>
          have hsome : (alistFind gfs "words").isSome = true := by
            rw [hf]
            rfl
          cases v with
          | arr items =>
              have hrg : (refGroup wdm isSp (.obj gfs) seen kept).g =
                  .obj (setField gfs "words"
                    (.arr ((refItems wdm isSp (items.filterMap itemWord)
                      seen kept).1.map Prod.snd))) := by
                rw [refGroup, hf]
              have hgw : groupWords (.obj gfs) = items.filterMap itemWord :=
                groupWords_obj gfs items hf
              have hout : ∀ pr ∈ (refItems wdm isSp (items.filterMap itemWord)
                  seen kept).1, itemWord pr.2 = some pr := by
                cases isSp with
                | true =>
                    rw [refItems_eval_special]
                    intro pr hpr
                    exact mem_filterMap_itemWord items pr
                      (firstOccsAux_sub _ seen pr hpr)
                | false =>
                    rw [refItems_eval_reg]
                    intro pr hpr
                    rw [List.mem_map] at hpr
                    obtain ⟨q, hq, hqe⟩ := hpr
                    have hqmem : q ∈ items.filterMap itemWord :=
                      firstOccsAux_sub _ seen q (List.mem_filter.mp hq).1
                    have := hcanon q (by rw [hgw]; exact hqmem)
                    rw [← hqe]
                    exact this
              rw [hrg]
              exact tightGroup_setField_arr gfs _ hout
          | null =>
              have hrg : (refGroup wdm isSp (.obj gfs) seen kept).g =
                  .obj (setField gfs "words" (.arr [])) := by
                rw [refGroup, hf]
              rw [hrg]
              exact tightGroup_setField_arr gfs []
                (fun pr hpr => absurd hpr (List.not_mem_nil pr))
          | bool b =>
              have hrg : (refGroup wdm isSp (.obj gfs) seen kept).g =
                  .obj (setField gfs "words" (.arr [])) := by
                rw [refGroup, hf]
              rw [hrg]
              exact tightGroup_setField_arr gfs []
                (fun pr hpr => absurd hpr (List.not_mem_nil pr))
          | num n =>
              have hrg : (refGroup wdm isSp (.obj gfs) seen kept).g =
                  .obj (setField gfs "words" (.arr [])) := by
                rw [refGroup, hf]
              rw [hrg]
              exact tightGroup_setField_arr gfs []
                (fun pr hpr => absurd hpr (List.not_mem_nil pr))
          | str s =>
              have hrg : (refGroup wdm isSp (.obj gfs) seen kept).g =
                  .obj (setField gfs "words" (.arr [])) := by
                rw [refGroup, hf]
              rw [hrg]
              exact tightGroup_setField_arr gfs []
                (fun pr hpr => absurd hpr (List.not_mem_nil pr))
          | obj fs2 =>
              have hrg : (refGroup wdm isSp (.obj gfs) seen kept).g =
                  .obj (setField gfs "words" (.arr [])) := by
                rw [refGroup, hf]
              rw [hrg]
              exact tightGroup_setField_arr gfs []
                (fun pr hpr => absurd hpr (List.not_mem_nil pr))
  | null => simp [wfGroup] at hwf
  | bool b => simp [wfGroup] at hwf
  | num n => simp [wfGroup] at hwf
  | str s => simp [wfGroup] at hwf
  | arr xs => simp [wfGroup] at hwf

theorem refGroups_tight (wdm : WordMap) (isSp : Bool) (gs : List Json) :
    ∀ (seen kept : List String),
      gs.all wfGroup = true →
      (∀ pr ∈ gs.flatMap groupWords, itemWord (canonicalOfD wdm pr.1) =
        some (pr.1, canonicalOfD wdm pr.1)) →
      (refGroups wdm isSp gs seen kept).gs.all tightGroup = true := by
  induction gs with
  | nil => intro seen kept _ _; rfl
  | cons g rest ih =>
      intro seen kept hwf hcanon
      rw [List.all_cons, Bool.and_eq_true] at hwf
      obtain ⟨hwfg, hwfr⟩ := hwf
      have hcg : ∀ pr ∈ groupWords g, itemWord (canonicalOfD wdm pr.1) =
          some (pr.1, canonicalOfD wdm pr.1) := fun pr hpr =>
        hcanon pr (by rw [List.flatMap_cons]; exact List.mem_append_left _ hpr)
      have hcr : ∀ pr ∈ rest.flatMap groupWords,
          itemWord (canonicalOfD wdm pr.1) =
          some (pr.1, canonicalOfD wdm pr.1) := fun pr hpr =>
        hcanon pr (by rw [List.flatMap_cons]; exact List.mem_append_right _ hpr)
      have he : (refGroups wdm isSp (g :: rest) seen kept).gs =
          (refGroup wdm isSp g seen kept).g ::
            (refGroups wdm isSp rest (refGroup wdm isSp g seen kept).seen
              (refGroup wdm isSp g seen kept).kept).gs := rfl
      rw [he, List.all_cons, Bool.and_eq_true]
      exact ⟨refGroup_tight wdm isSp g seen kept hwfg hcg, ih _ _ hwfr hcr⟩

theorem refDoc_tight (wdm : WordMap) (isSp : Bool) (c : Json)
    (kept : List String) (hwf : wfDoc c = true)
    (hcanon : ∀ pr ∈ docWords c, itemWord (canonicalOfD wdm pr.1) =
      some (pr.1, canonicalOfD wdm pr.1)) :
    tightDoc (refDoc wdm isSp c kept).c = true := by
  cases c with
  | obj fs =>
      cases hm : alistFind fs "meanings" with
      | none =>
          have hrd : (refDoc wdm isSp (.obj fs) kept).c = .obj fs := by
            simp [refDoc, hm]
          rw [hrd, tightDoc, hm]
      | some mv =>
          cases mv with
          | arr gs =>
              have hsome : (alistFind fs "meanings").isSome = true := by
                rw [hm]
                rfl
              have hgs : gs.all wfGroup = true := by
                have h2 := hwf
                simp only [wfDoc, hm] at h2
                exact h2
              have hdw : docWords (Json.obj fs) = gs.flatMap groupWords :=
                docWords_obj fs gs hm
              have hrd : (refDoc wdm isSp (.obj fs) kept).c =
                  .obj (setField fs "meanings"
                    (.arr (refGroups wdm isSp gs [] kept).gs)) := by
                simp [refDoc, hm]
              rw [hrd, tightDoc,
                alistFind_setField_self fs "meanings" _ hsome]
              exact refGroups_tight wdm isSp gs [] kept hgs
                (by rw [← hdw]; exact hcanon)
          | null => simp [wfDoc, hm] at hwf
          | bool b => simp [wfDoc, hm] at hwf
          | num n => simp [wfDoc, hm] at hwf
          | str s => simp [wfDoc, hm] at hwf
          | obj fs2 => simp [wfDoc, hm] at hwf
  | null => simp [wfDoc] at hwf
  | bool b => simp [wfDoc] at hwf
  | num n => simp [wfDoc] at hwf
  | str s => simp [wfDoc] at hwf
  | arr xs => simp [wfDoc] at hwf

theorem refFiles_mem (wdm : WordMap) (L : List (String × Json)) :
    ∀ (kept : List String) (pc : String × Json),
      pc ∈ (refFiles wdm L kept).files →
      ∃ c kp, (pc.1, c) ∈ L ∧
        pc.2 = (refDoc wdm (isSpecial pc.1) c kp).c := by
  induction L with
  | nil => intro kept pc h; cases h
  | cons qd rest ih =>
      intro kept pc h
      obtain ⟨q, d⟩ := qd
      have hfiles : (refFiles wdm ((q, d) :: rest) kept).files =
          (q, (refDoc wdm (isSpecial q) d kept).c) ::
            (refFiles wdm rest (refDoc wdm (isSpecial q) d kept).kept).files :=
        rfl
      rw [hfiles] at h
      rcases List.mem_cons.mp h with he | hm
      · refine ⟨d, kept, ?_, ?_⟩
        · rw [he]
          exact List.mem_cons_self _ _
        · rw [he]
      · obtain ⟨c, kp, hmem, heq⟩ := ih _ pc hm
        exact ⟨c, kp, List.mem_cons_of_mem _ hmem, heq⟩

/-- C10: entries whose `word` field is missing, empty, or otherwise falsy
are deleted from every rebuilt document — every entry of every rebuilt
`words` array carries a non-empty string `word` (`tightDoc`) — and such
entries are never counted: the reported original-entry count equals the
number of entries carrying a non-empty string `word` (`flatWords`
enumerates exactly those), so the skipped falsy entries do not contribute
to the removed-entries figure. -/
theorem C10_falsy_dropped_uncounted (fsys : String → Option Json)
    (paths : List String) (hnd : paths.Nodup)
    (hwf : ∀ p ∈ paths, wfLoad fsys p = true) :
    ∃ r : RunResult, runPipeline fsys paths = .ok r ∧
      r.origCount = (flatWords (loadedOf fsys paths)).length ∧
      ∀ pc ∈ r.recon, tightDoc pc.2 = true := by
  refine ⟨_, runPipeline_master fsys paths hnd hwf, rfl, ?_⟩
  intro pc hpc
  obtain ⟨c, kp, hmem, he⟩ := refFiles_mem (pipelineWdm fsys paths)
    (loadedOf fsys paths) [] pc hpc
  rw [he]
  exact refDoc_tight (pipelineWdm fsys paths) (isSpecial pc.1) c kp
    (loadedOf_wf fsys paths hwf (pc.1, c) hmem)
    (fun pr hpr => pipeline_canon_item fsys paths hnd hwf pr
      (mem_flatWords _ (pc.1, c) pr hmem hpr))

/-- C9: a document whose `meanings` value is not a list is tolerated by the
collection phase (skipped, with the file still recorded in
`file_content_map`), but it crashes the rebuild phase: the decision loop
iterates `original_content.get('meanings', [])` with no `isinstance` guard
(`04process_words.py` lines 144-145), so the run aborts with a `TypeError`
and no file of the batch is written — contradicting the claim that a
malformed shape is skipped with a warning and never aborts the batch. -/
theorem C9_nonlist_meanings_aborts :
    wFsys9 "data/bad.json" = some doc9 ∧
    (collect_word_data wFsys9 ["data/bad.json"] [] []).2 =
      [("data/bad.json", doc9)] ∧
    runPipeline wFsys9 ["data/bad.json"] =
      .error "TypeError: object is not iterable" :=
  ⟨rfl, rfl, rfl⟩

theorem C1_tier_precedence_witness :
    ∃ r : RunResult, runPipeline wFsysA wPathsA = .ok r ∧
      (∃ cS', alistFind r.recon "d/pre/s.json" = some cS' ∧
        docHasWord cS' "w" = true ∧
        firstEntryFor cS' "w" = firstEntryFor docS "w") ∧
      (∃ cR', alistFind r.recon "d/r1.json" = some cR' ∧
        (docHasWord cR' "w" = true ↔
          ¬ ∃ qd ∈ beforeFiles (loadedOf wFsysA wPathsA) "d/r1.json",
            isSpecial qd.1 = false ∧ docHasWord qd.2 "w" = true)) :=
  C1_tier_precedence wFsysA wPathsA (by decide) (by decide)
    "d/pre/s.json" docS (by decide) rfl (by decide)
    "d/r1.json" docR1 (by decide) rfl (by decide)
    "w" (by decide) (by decide)

theorem C2_first_regular_wins_witness :
    ∃ r : RunResult, runPipeline wFsysA wPathsA = .ok r ∧
      (∃ c1', alistFind r.recon "d/r1.json" = some c1' ∧
        docHasWord c1' "x" = true ∧
        firstEntryFor c1' "x" = firstItemFor (loadedOf wFsysA wPathsA) "x") ∧
      (∃ c2', alistFind r.recon "d/r2.json" = some c2' ∧
        docHasWord c2' "x" = false) :=
  C2_first_regular_wins wFsysA wPathsA (by decide) (by decide)
    "d/r1.json" docR1 (by decide) rfl (by decide)
    "d/r2.json" docR2 (by decide) rfl (by decide)
    "x" (by decide) (by decide) (by decide) (by decide)

theorem C3_special_retention_witness :
    ∃ r : RunResult, runPipeline wFsysA wPathsA = .ok r ∧
      ∃ c', alistFind r.recon "d/pre/s.json" = some c' ∧
        docHasWord c' "w" = true ∧
        firstEntryFor c' "w" = firstEntryFor docS "w" :=
  C3_special_retention wFsysA wPathsA (by decide) (by decide)
    "d/pre/s.json" docS (by decide) rfl (by decide) "w" (by decide)

theorem C4_same_doc_dedup_witness :
    ∃ r : RunResult, runPipeline wFsysA wPathsA = .ok r ∧
      ∃ c', alistFind r.recon "d/r1.json" = some c' ∧
        ((docWords c').map Prod.fst).Nodup ∧
        (isSpecial "d/r1.json" = true →
          docWords c' = firstOccs (docWords docR1)) ∧
        (isSpecial "d/r1.json" = false → (docWords c').map Prod.fst =
          ((firstOccs (docWords docR1)).map Prod.fst).filter
            (fun v => !(keptPrefix (pipelineWdm wFsysA wPathsA)
              (loadedOf wFsysA wPathsA) [] "d/r1.json").contains v)) :=
  C4_same_doc_dedup wFsysA wPathsA (by decide) (by decide)
    "d/r1.json" docR1 (by decide) rfl

theorem C6_noop_write_witness :
    ∃ r : RunResult, runPipeline wFsysA wPathsA = .ok r ∧
      ∃ c', alistFind r.recon "d/pre/s.json" = some c' ∧
        (("d/pre/s.json", c') ∈ r.written ↔ c' ≠ docS) :=
  C6_noop_write wFsysA wPathsA (by decide) (by decide)
    "d/pre/s.json" docS (by decide) rfl

theorem C7_non_word_preservation_witness :
    ∃ r : RunResult, runPipeline wFsysA wPathsA = .ok r ∧
      ∃ c', alistFind r.recon "d/r1.json" = some c' ∧
        agreeOutsideWords docR1 c' = true :=
  C7_non_word_preservation wFsysA wPathsA (by decide) (by decide)
    "d/r1.json" docR1 (by decide) rfl

theorem C10_falsy_dropped_uncounted_witness :
    ∃ r : RunResult, runPipeline wFsysA wPathsA = .ok r ∧
      r.origCount = (flatWords (loadedOf wFsysA wPathsA)).length ∧
      ∀ pc ∈ r.recon, tightDoc pc.2 = true :=
  C10_falsy_dropped_uncounted wFsysA wPathsA (by decide) (by decide)

/-! Identity of the rebuild on an already-rebuilt tree (used for
idempotence). -/

theorem filterMap_itemWord_snd (items : List Json)
    (h : items.all (fun it => (itemWord it).isSome) = true) :
    (items.filterMap itemWord).map Prod.snd = items := by
  induction items with
  | nil => rfl
  | cons it rest ih =>
      rw [List.all_cons, Bool.and_eq_true] at h
      obtain ⟨h1, h2⟩ := h
      obtain ⟨pr, hpr⟩ := Option.isSome_iff_exists.mp h1
      obtain ⟨hv, _⟩ := itemWord_val it pr.1 pr.2 hpr
      rw [List.filterMap_cons, hpr, List.map_cons, hv, ih h2]

theorem map_canon_id (wdm : WordMap) (l : List (String × Json))
    (h : ∀ pr ∈ l, canonicalOfD wdm pr.1 = pr.2) :
    l.map (fun pr => (pr.1, canonicalOfD wdm pr.1)) = l := by
  induction l with
  | nil => rfl
  | cons pr rest ih =>
      rw [List.map_cons, h pr (List.mem_cons_self _ _),
        ih (fun q hq => h q (List.mem_cons_of_mem _ hq))]

theorem firstOccsAux_id (l : List (String × Json)) :
    ∀ (seen : List String), (∀ w ∈ l.map Prod.fst, w ∉ seen) →
      (l.map Prod.fst).Nodup → firstOccsAux seen l = l := by
  induction l with
  | nil => intro seen _ _; rfl
  | cons pr rest ih =>
      intro seen hseen hnd
      obtain ⟨w0, it0⟩ := pr
      rw [List.map_cons, List.nodup_cons] at hnd
      have hw0 : w0 ∉ seen :=
        hseen w0 (by rw [List.map_cons]; exact List.mem_cons_self _ _)
      rw [firstOccsAux_cons,
        if_neg (fun hcc => hw0 ((contains_iff seen w0).mp hcc))]
      rw [ih (seen ++ [w0]) ?hs hnd.2]
      case hs =>
        intro v hv hmem
        rcases List.mem_append.mp hmem with hm | hm
        · exact hseen v (by rw [List.map_cons]; exact List.mem_cons_of_mem _ hv)
            hm
        · rw [List.mem_singleton] at hm
          subst hm
          exact hnd.1 hv

theorem seenAfter_id (l : List (String × Json)) :
    ∀ (seen : List String), (∀ w ∈ l.map Prod.fst, w ∉ seen) →
      (l.map Prod.fst).Nodup →
      seenAfter seen l = seen ++ l.map Prod.fst := by
  induction l with
  | nil => intro seen _ _; rw [List.map_nil, List.append_nil]; rfl
  | cons pr rest ih =>
      intro seen hseen hnd
      obtain ⟨w0, it0⟩ := pr
      rw [List.map_cons, List.nodup_cons] at hnd
      have hw0 : w0 ∉ seen :=
        hseen w0 (by rw [List.map_cons]; exact List.mem_cons_self _ _)
      rw [seenAfter_cons,
        if_neg (fun hcc => hw0 ((contains_iff seen w0).mp hcc))]
      rw [ih (seen ++ [w0]) ?hs hnd.2]
      case hs =>
        intro v hv hmem
        rcases List.mem_append.mp hmem with hm | hm
        · exact hseen v (by rw [List.map_cons]; exact List.mem_cons_of_mem _ hv)
            hm
        · rw [List.mem_singleton] at hm
          subst hm
          exact hnd.1 hv
      rw [List.map_cons, List.append_assoc, List.singleton_append]

theorem refItems_identity (wdm : WordMap) (isSp : Bool)
    (l : List (String × Json)) (seen kept : List String)
    (hseen : ∀ w ∈ l.map Prod.fst, w ∉ seen)
    (hnd : (l.map Prod.fst).Nodup)
    (hkept : isSp = false → ∀ w ∈ l.map Prod.fst, w ∉ kept)
    (hcanon : isSp = false → ∀ pr ∈ l, canonicalOfD wdm pr.1 = pr.2) :
    refItems wdm isSp l seen kept =
      (l, seen ++ l.map Prod.fst,
       if isSp then kept else kept ++ l.map Prod.fst) := by
  cases isSp with
  | true =>
      rw [refItems_eval_special, firstOccsAux_id l seen hseen hnd,
        seenAfter_id l seen hseen hnd, if_pos rfl]
  | false =>
      rw [refItems_eval_reg, firstOccsAux_id l seen hseen hnd,
        seenAfter_id l seen hseen hnd, if_neg Bool.false_ne_true]
      have hfl : l.filter (fun pr => !kept.contains pr.1) = l := by
        rw [List.filter_eq_self]
        intro pr hpr
        rw [(contains_eq_false_iff kept pr.1).mpr
          (hkept rfl pr.1 (List.mem_map.mpr ⟨pr, hpr, rfl⟩))]
        rfl
      rw [hfl, map_canon_id wdm l (hcanon rfl)]

theorem refGroup_identity (wdm : WordMap) (isSp : Bool) (g : Json)
    (seen kept : List String) (htight : tightGroup g = true)
    (hnd : ((groupWords g).map Prod.fst).Nodup)
    (hseen : ∀ w ∈ (groupWords g).map Prod.fst, w ∉ seen)
    (hkept : isSp = false → ∀ w ∈ (groupWords g).map Prod.fst, w ∉ kept)
    (hcanon : isSp = false → ∀ pr ∈ groupWords g,
      canonicalOfD wdm pr.1 = pr.2) :
    refGroup wdm isSp g seen kept =
      ⟨g, (groupWords g).length, seen ++ (groupWords g).map Prod.fst,
       if isSp then kept else kept ++ (groupWords g).map Prod.fst⟩ := by
  cases g with
  | obj gfs =>
      cases hf : alistFind gfs "words" with
      | none =>
          have hgw : groupWords (.obj gfs) = [] := by rw [groupWords, hf]
          have hrg : refGroup wdm isSp (.obj gfs) seen kept =
              ⟨.obj gfs, 0, seen, kept⟩ := by
            rw [refGroup, hf]
          rw [hrg, hgw]
          cases isSp <;> simp
      | some v =>
          cases v with
          | arr items =>
              have hall : items.all (fun it => (itemWord it).isSome) = true := by
                have h2 := htight
                rw [tightGroup, hf] at h2
                exact h2
              have hgw : groupWords (.obj gfs) = items.filterMap itemWord :=
                groupWords_obj gfs items hf
              have hrg : refGroup wdm isSp (.obj gfs) seen kept =
                  ⟨.obj (setField gfs "words"
                    (.arr ((refItems wdm isSp (items.filterMap itemWord)
                      seen kept).1.map Prod.snd))),
                   (refItems wdm isSp (items.filterMap itemWord)
                      seen kept).1.length,
                   (refItems wdm isSp (items.filterMap itemWord)
                      seen kept).2.1,
                   (refItems wdm isSp (items.filterMap itemWord)
                      seen kept).2.2⟩ := by
                rw [refGroup, hf]
              rw [hgw] at hnd hseen hkept hcanon
              rw [hrg, refItems_identity wdm isSp (items.filterMap itemWord)
                seen kept hseen hnd hkept hcanon]
              rw [show ((items.filterMap itemWord, seen ++
                  (items.filterMap itemWord).map Prod.fst,
                  if isSp then kept else kept ++
                    (items.filterMap itemWord).map Prod.fst) :
                  List (String × Json) × List String × List String).1 =
                items.filterMap itemWord from rfl]
              rw [filterMap_itemWord_snd items hall,
                setField_self_id gfs "words" (.arr items) hf, hgw]
          | null => rw [tightGroup, hf] at htight; cases htight
          | bool b => rw [tightGroup, hf] at htight; cases htight
          | num n => rw [tightGroup, hf] at htight; cases htight
          | str s => rw [tightGroup, hf] at htight; cases htight
          | obj fs2 => rw [tightGroup, hf] at htight; cases htight
  | null => simp [tightGroup] at htight
  | bool b => simp [tightGroup] at htight
  | num n => simp [tightGroup] at htight
  | str s => simp [tightGroup] at htight
  | arr xs => simp [tightGroup] at htight

theorem refGroups_identity_special (wdm : WordMap) (gs : List Json) :
    ∀ (seen kept : List String),
      gs.all tightGroup = true →
      ((gs.flatMap groupWords).map Prod.fst).Nodup →
      (∀ w ∈ (gs.flatMap groupWords).map Prod.fst, w ∉ seen) →
      refGroups wdm true gs seen kept =
        ⟨gs, (gs.flatMap groupWords).length,
         seen ++ (gs.flatMap groupWords).map Prod.fst, kept⟩ := by
  induction gs with
  | nil =>
      intro seen kept _ _ _
      rw [show ([] : List Json).flatMap groupWords = [] from rfl]
      simp [refGroups]
  | cons g rest ih =>
      intro seen kept htight hnd hseen
      rw [List.all_cons, Bool.and_eq_true] at htight
      obtain ⟨htg, htr⟩ := htight
      rw [List.flatMap_cons, List.map_append] at hnd hseen
      rw [List.nodup_append] at hnd
      obtain ⟨hnd1, hnd2, hdisj⟩ := hnd
      have hg := refGroup_identity wdm true g seen kept htg hnd1
        (fun w hw => hseen w (List.mem_append_left _ hw))
        (fun hsp => by cases hsp) (fun hsp => by cases hsp)
      rw [if_pos rfl] at hg
      have hseen2 : ∀ w ∈ (rest.flatMap groupWords).map Prod.fst,
          w ∉ seen ++ (groupWords g).map Prod.fst := by
        intro w hw hmem
        rcases List.mem_append.mp hmem with hm | hm
        · exact hseen w (List.mem_append_right _ hw) hm
        · exact hdisj hm hw
      have hr := ih (seen ++ (groupWords g).map Prod.fst) kept htr hnd2 hseen2
      have hcons : refGroups wdm true (g :: rest) seen kept =
          ⟨(refGroup wdm true g seen kept).g ::
             (refGroups wdm true rest (refGroup wdm true g seen kept).seen
               (refGroup wdm true g seen kept).kept).gs,
           (refGroup wdm true g seen kept).cnt +
             (refGroups wdm true rest (refGroup wdm true g seen kept).seen
               (refGroup wdm true g seen kept).kept).cnt,
           (refGroups wdm true rest (refGroup wdm true g seen kept).seen
             (refGroup wdm true g seen kept).kept).seen,
           (refGroups wdm true rest (refGroup wdm true g seen kept).seen
             (refGroup wdm true g seen kept).kept).kept⟩ := rfl
      rw [hcons, hg]
      rw [show (⟨g, (groupWords g).length,
            seen ++ (groupWords g).map Prod.fst, kept⟩ :
          RefGroupOut).seen = seen ++ (groupWords g).map Prod.fst from rfl,
        show (⟨g, (groupWords g).length,
            seen ++ (groupWords g).map Prod.fst, kept⟩ :
          RefGroupOut).kept = kept from rfl]
      rw [hr]
      rw [List.flatMap_cons, List.map_append, List.length_append,
        List.append_assoc]

theorem refGroups_identity_reg (wdm : WordMap) (gs : List Json) :
    ∀ (seen kept : List String),
      gs.all tightGroup = true →
      ((gs.flatMap groupWords).map Prod.fst).Nodup →
      (∀ w ∈ (gs.flatMap groupWords).map Prod.fst, w ∉ seen) →
      (∀ w ∈ (gs.flatMap groupWords).map Prod.fst, w ∉ kept) →
      (∀ pr ∈ gs.flatMap groupWords, canonicalOfD wdm pr.1 = pr.2) →
      refGroups wdm false gs seen kept =
        ⟨gs, (gs.flatMap groupWords).length,
         seen ++ (gs.flatMap groupWords).map Prod.fst,
         kept ++ (gs.flatMap groupWords).map Prod.fst⟩ := by
  induction gs with
  | nil =>
      intro seen kept _ _ _ _ _
      rw [show ([] : List Json).flatMap groupWords = [] from rfl]
      simp [refGroups]
  | cons g rest ih =>
      intro seen kept htight hnd hseen hkept hcanon
      rw [List.all_cons, Bool.and_eq_true] at htight
      obtain ⟨htg, htr⟩ := htight
      rw [List.flatMap_cons, List.map_append] at hnd hseen hkept
      rw [List.flatMap_cons] at hcanon
      rw [List.nodup_append] at hnd
      obtain ⟨hnd1, hnd2, hdisj⟩ := hnd
      have hg := refGroup_identity wdm false g seen kept htg hnd1
        (fun w hw => hseen w (List.mem_append_left _ hw))
        (fun _ w hw => hkept w (List.mem_append_left _ hw))
        (fun _ pr hpr => hcanon pr (List.mem_append_left _ hpr))
      rw [if_neg Bool.false_ne_true] at hg
      have hseen2 : ∀ w ∈ (rest.flatMap groupWords).map Prod.fst,
          w ∉ seen ++ (groupWords g).map Prod.fst := by
        intro w hw hmem
        rcases List.mem_append.mp hmem with hm | hm
        · exact hseen w (List.mem_append_right _ hw) hm
        · exact hdisj hm hw
      have hkept2 : ∀ w ∈ (rest.flatMap groupWords).map Prod.fst,
          w ∉ kept ++ (groupWords g).map Prod.fst := by
        intro w hw hmem
        rcases List.mem_append.mp hmem with hm | hm
        · exact hkept w (List.mem_append_right _ hw) hm
        · exact hdisj hm hw
      have hr := ih (seen ++ (groupWords g).map Prod.fst)
        (kept ++ (groupWords g).map Prod.fst) htr hnd2 hseen2 hkept2
        (fun pr hpr => hcanon pr (List.mem_append_right _ hpr))
      have hcons : refGroups wdm false (g :: rest) seen kept =
          ⟨(refGroup wdm false g seen kept).g ::
             (refGroups wdm false rest (refGroup wdm false g seen kept).seen
               (refGroup wdm false g seen kept).kept).gs,
           (refGroup wdm false g seen kept).cnt +
             (refGroups wdm false rest (refGroup wdm false g seen kept).seen
               (refGroup wdm false g seen kept).kept).cnt,
           (refGroups wdm false rest (refGroup wdm false g seen kept).seen
             (refGroup wdm false g seen kept).kept).seen,
           (refGroups wdm false rest (refGroup wdm false g seen kept).seen
             (refGroup wdm false g seen kept).kept).kept⟩ := rfl
      rw [hcons, hg]
      rw [show (⟨g, (groupWords g).length,
            seen ++ (groupWords g).map Prod.fst,
            kept ++ (groupWords g).map Prod.fst⟩ :
          RefGroupOut).seen = seen ++ (groupWords g).map Prod.fst from rfl,
        show (⟨g, (groupWords g).length,
            seen ++ (groupWords g).map Prod.fst,
            kept ++ (groupWords g).map Prod.fst⟩ :
          RefGroupOut).kept = kept ++ (groupWords g).map Prod.fst from rfl]
      rw [hr]
      rw [List.flatMap_cons, List.map_append, List.length_append,
        List.append_assoc, List.append_assoc]

theorem refDoc_identity (wdm : WordMap) (isSp : Bool) (c : Json)
    (kept : List String) (htight : tightDoc c = true)
    (hnd : ((docWords c).map Prod.fst).Nodup)
    (hkept : isSp = false → ∀ w ∈ (docWords c).map Prod.fst, w ∉ kept)
    (hcanon : isSp = false → ∀ pr ∈ docWords c,
      canonicalOfD wdm pr.1 = pr.2) :
    refDoc wdm isSp c kept =
      ⟨c, (docWords c).length,
       if isSp then kept else kept ++ (docWords c).map Prod.fst⟩ := by
  cases c with
  | obj fs =>
      cases hm : alistFind fs "meanings" with
      | none =>
          have hdw : docWords (Json.obj fs) = [] := by
            simp [docWords, hm]
          have hrd : refDoc wdm isSp (.obj fs) kept =
              ⟨.obj fs, 0, kept⟩ := by
            simp [refDoc, hm]
          rw [hrd, hdw]
          cases isSp <;> simp
      | some mv =>
          cases mv with
          | arr gs =>
              have hgs : gs.all tightGroup = true := by
                have h2 := htight
                rw [tightDoc, hm] at h2
                exact h2
              have hdw : docWords (Json.obj fs) = gs.flatMap groupWords :=
                docWords_obj fs gs hm
              have hrd : refDoc wdm isSp (.obj fs) kept =
                  ⟨.obj (setField fs "meanings"
                    (.arr (refGroups wdm isSp gs [] kept).gs)),
                   (refGroups wdm isSp gs [] kept).cnt,
                   (refGroups wdm isSp gs [] kept).kept⟩ := by
                simp [refDoc, hm]
              rw [hdw] at hnd hkept hcanon
              cases isSp with
              | true =>
                  rw [hrd, refGroups_identity_special wdm gs [] kept hgs hnd
                    (fun w _ hmem => List.not_mem_nil w hmem)]
                  rw [setField_self_id fs "meanings" (.arr gs) hm, hdw,
                    if_pos rfl]
              | false =>
                  rw [hrd, refGroups_identity_reg wdm gs [] kept hgs hnd
                    (fun w _ hmem => List.not_mem_nil w hmem)
                    (hkept rfl) (hcanon rfl)]
                  rw [setField_self_id fs "meanings" (.arr gs) hm, hdw,
                    if_neg Bool.false_ne_true]
          | null => rw [tightDoc, hm] at htight; cases htight
          | bool b => rw [tightDoc, hm] at htight; cases htight
          | num n => rw [tightDoc, hm] at htight; cases htight
          | str s => rw [tightDoc, hm] at htight; cases htight
          | obj fs2 => rw [tightDoc, hm] at htight; cases htight
  | null => simp [tightDoc] at htight
  | bool b => simp [tightDoc] at htight
  | num n => simp [tightDoc] at htight
  | str s => simp [tightDoc] at htight
  | arr xs => simp [tightDoc] at htight

/-- The regular documents of the list avoid the accumulated kept set: the
words of each regular document are disjoint from the kept set reaching it. -/
def regOk (kept : List String) : List (String × Json) → Prop
  | [] => True
  | (p, c) :: rest =>
      (isSpecial p = false → ∀ w ∈ (docWords c).map Prod.fst, w ∉ kept) ∧
      regOk (if isSpecial p then kept
             else kept ++ (docWords c).map Prod.fst) rest

theorem refFiles_identity (wdm : WordMap) (L : List (String × Json)) :
    ∀ (kept : List String),
      (∀ pc ∈ L, tightDoc pc.2 = true) →
      (∀ pc ∈ L, ((docWords pc.2).map Prod.fst).Nodup) →
      regOk kept L →
      (∀ pc ∈ L, isSpecial pc.1 = false →
        ∀ pr ∈ docWords pc.2, canonicalOfD wdm pr.1 = pr.2) →
      (refFiles wdm L kept).files = L ∧
      (refFiles wdm L kept).cnt = (flatWords L).length := by
  induction L with
  | nil => intro kept _ _ _ _; exact ⟨rfl, rfl⟩
  | cons pc rest ih =>
      intro kept htight hnd hreg hcanon
      obtain ⟨p, c⟩ := pc
      obtain ⟨hreg1, hreg2⟩ := hreg
      have hd := refDoc_identity wdm (isSpecial p) c kept
        (htight (p, c) (List.mem_cons_self _ _))
        (hnd (p, c) (List.mem_cons_self _ _)) hreg1
        (fun hsp => hcanon (p, c) (List.mem_cons_self _ _) hsp)
      have hr := ih (if isSpecial p then kept
          else kept ++ (docWords c).map Prod.fst)
        (fun qd hqd => htight qd (List.mem_cons_of_mem _ hqd))
        (fun qd hqd => hnd qd (List.mem_cons_of_mem _ hqd)) hreg2
        (fun qd hqd => hcanon qd (List.mem_cons_of_mem _ hqd))
      have hfe : (refFiles wdm ((p, c) :: rest) kept).files =
          (p, (refDoc wdm (isSpecial p) c kept).c) ::
            (refFiles wdm rest (refDoc wdm (isSpecial p) c kept).kept).files :=
        rfl
      have hce : (refFiles wdm ((p, c) :: rest) kept).cnt =
          (refDoc wdm (isSpecial p) c kept).cnt +
            (refFiles wdm rest (refDoc wdm (isSpecial p) c kept).kept).cnt :=
        rfl
      constructor
      · rw [hfe, hd]
        rw [show (⟨c, (docWords c).length,
              if isSpecial p then kept
              else kept ++ (docWords c).map Prod.fst⟩ :
            RefDocOut).c = c from rfl,
          show (⟨c, (docWords c).length,
              if isSpecial p then kept
              else kept ++ (docWords c).map Prod.fst⟩ :
            RefDocOut).kept = (if isSpecial p then kept
              else kept ++ (docWords c).map Prod.fst) from rfl]
        rw [hr.1]
      · rw [hce, hd]
        rw [show (⟨c, (docWords c).length,
              if isSpecial p then kept
              else kept ++ (docWords c).map Prod.fst⟩ :
            RefDocOut).cnt = (docWords c).length from rfl,
          show (⟨c, (docWords c).length,
              if isSpecial p then kept
              else kept ++ (docWords c).map Prod.fst⟩ :
            RefDocOut).kept = (if isSpecial p then kept
              else kept ++ (docWords c).map Prod.fst) from rfl]
        rw [hr.2, flatWords_cons, List.length_append]

theorem refDoc_words_nodup (wdm : WordMap) (isSp : Bool) (c : Json)
    (kp : List String) (hwf : wfDoc c = true)
    (hcanon : ∀ pr ∈ docWords c, itemWord (canonicalOfD wdm pr.1) =
      some (pr.1, canonicalOfD wdm pr.1)) :
    ((docWords (refDoc wdm isSp c kp).c).map Prod.fst).Nodup := by
  obtain ⟨h1, _, _⟩ := refDoc_eval wdm isSp c kp hwf hcanon
  cases isSp with
  | true =>
      rw [if_pos rfl] at h1
      rw [h1, firstOccs]
      exact nodup_map_fst_firstOccsAux (docWords c) []
  | false =>
      rw [if_neg Bool.false_ne_true] at h1
      rw [h1, map_fst_canonMap, map_fst_filter_comm (firstOccs (docWords c))
        (fun v => !kp.contains v), firstOccs]
      exact (nodup_map_fst_firstOccsAux (docWords c) []).filter _

theorem refDoc_reg_payload (wdm : WordMap) (c : Json) (kp : List String)
    (hwf : wfDoc c = true)
    (hcanon : ∀ pr ∈ docWords c, itemWord (canonicalOfD wdm pr.1) =
      some (pr.1, canonicalOfD wdm pr.1)) :
    ∀ pr ∈ docWords (refDoc wdm false c kp).c,
      pr.2 = canonicalOfD wdm pr.1 := by
  obtain ⟨h1, _, _⟩ := refDoc_eval wdm false c kp hwf hcanon
  rw [if_neg Bool.false_ne_true] at h1
  intro pr hpr
  rw [h1, List.mem_map] at hpr
  obtain ⟨q, _, he⟩ := hpr
  rw [← he]

theorem refDoc_word_sub (wdm : WordMap) (isSp : Bool) (c : Json)
    (kp : List String) (w : String) (hwf : wfDoc c = true)
    (hcanon : ∀ pr ∈ docWords c, itemWord (canonicalOfD wdm pr.1) =
      some (pr.1, canonicalOfD wdm pr.1))
    (h : docHasWord (refDoc wdm isSp c kp).c w = true) :
    docHasWord c w = true := by
  obtain ⟨h1, _, _⟩ := refDoc_eval wdm isSp c kp hwf hcanon
  cases isSp with
  | true =>
      rw [if_pos rfl] at h1
      rw [docHasWord_special c _ h1 w] at h
      exact h
  | false =>
      rw [if_neg Bool.false_ne_true] at h1
      exact ((docHasWord_reg wdm c _ kp h1 w).mp h).2

theorem refFiles_kept_mem (wdm : WordMap) (L : List (String × Json)) :
    ∀ (kept : List String) (w : String),
      (∀ pc ∈ L, wfDoc pc.2 = true) →
      (∀ pr ∈ flatWords L, itemWord (canonicalOfD wdm pr.1) =
        some (pr.1, canonicalOfD wdm pr.1)) →
      (w ∈ (refFiles wdm L kept).kept ↔
        w ∈ kept ∨ ∃ qd ∈ L, isSpecial qd.1 = false ∧
          docHasWord qd.2 w = true) := by
  induction L with
  | nil =>
      intro kept w _ _
      constructor
      · exact Or.inl
      · rintro (h | ⟨qd, hqd, _⟩)
        · exact h
        · cases hqd
  | cons pc rest ih =>
      intro kept w hwf hcanon
      obtain ⟨p, c⟩ := pc
      have hke : (refFiles wdm ((p, c) :: rest) kept).kept =
          (refFiles wdm rest (refDoc wdm (isSpecial p) c kept).kept).kept :=
        rfl
      rw [hke, ih (refDoc wdm (isSpecial p) c kept).kept w
        (fun qd hqd => hwf qd (List.mem_cons_of_mem _ hqd))
        (fun pr hpr => hcanon pr
          (by rw [flatWords_cons]; exact List.mem_append_right _ hpr)),
        refDoc_kept_mem wdm (isSpecial p) c kept w
          (hwf (p, c) (List.mem_cons_self _ _))
          (fun pr hpr => hcanon pr
            (by rw [flatWords_cons]; exact List.mem_append_left _ hpr))]
      constructor
      · rintro ((h | ⟨hsp, hdw⟩) | ⟨qd, hqd, hP⟩)
        · exact Or.inl h
        · exact Or.inr ⟨(p, c), List.mem_cons_self _ _, hsp, hdw⟩
        · exact Or.inr ⟨qd, List.mem_cons_of_mem _ hqd, hP⟩
      · rintro (h | ⟨qd, hqd, hP⟩)
        · exact Or.inl (Or.inl h)
        · rcases List.mem_cons.mp hqd with he | hm
          · rw [he] at hP
            exact Or.inl (Or.inr hP)
          · exact Or.inr ⟨qd, hm, hP⟩

theorem flatWords_append (A B : List (String × Json)) :
    flatWords (A ++ B) = flatWords A ++ flatWords B := by
  rw [flatWords, flatWords, flatWords, List.flatMap_append]

theorem firstItemFor_append (A B : List (String × Json)) (w : String) :
    firstItemFor (A ++ B) w =
      (firstItemFor A w).or (firstItemFor B w) := by
  rw [firstItemFor, firstItemFor, firstItemFor, flatWords_append,
    List.find?_append, option_map_or]

theorem firstItemFor_cons (p : String) (c : Json)
    (rest : List (String × Json)) (w : String) :
    firstItemFor ((p, c) :: rest) w =
      (firstEntryFor c w).or (firstItemFor rest w) := by
  rw [firstItemFor, firstItemFor, firstEntryFor, flatWords_cons,
    List.find?_append, option_map_or]

theorem firstItemFor_eq_none_of_all (files : List (String × Json))
    (w : String) (h : ∀ pc ∈ files, docHasWord pc.2 w = false) :
    firstItemFor files w = none := by
  rw [firstItemFor, List.find?_eq_none.mpr]
  · rfl
  · intro pr hpr hdec
    rw [flatWords, List.mem_flatMap] at hpr
    obtain ⟨pc, hpc, hmem⟩ := hpr
    have hw : pr.1 = w := of_decide_eq_true hdec
    have : docHasWord pc.2 w = true := by
      rw [docHasWord_iff]
      exact List.mem_map.mpr ⟨pr, hmem, hw⟩
    rw [h pc hpc] at this
    cases this

theorem firstEntryFor_eq_none (c : Json) (w : String)
    (h : docHasWord c w = false) : firstEntryFor c w = none := by
  rw [firstEntryFor, List.find?_eq_none.mpr]
  · rfl
  · intro pr hpr hdec
    have hw : pr.1 = w := of_decide_eq_true hdec
    have : docHasWord c w = true := by
      rw [docHasWord_iff]
      exact List.mem_map.mpr ⟨pr, hpr, hw⟩
    rw [h] at this
    cases this

theorem exists_first_file (L : List (String × Json)) (w : String)
    (h : ∃ pc ∈ L, docHasWord pc.2 w = true) :
    ∃ A p c B, L = A ++ (p, c) :: B ∧ docHasWord c w = true ∧
      ∀ qd ∈ A, docHasWord qd.2 w = false := by
  induction L with
  | nil =>
      obtain ⟨pc, hpc, _⟩ := h
      cases hpc
  | cons pc rest ih =>
      obtain ⟨p0, c0⟩ := pc
      by_cases h0 : docHasWord c0 w = true
      · exact ⟨[], p0, c0, rest, rfl, h0,
          fun qd hqd => absurd hqd (List.not_mem_nil qd)⟩
      · obtain ⟨pc1, hpc1, hw1⟩ := h
        rcases List.mem_cons.mp hpc1 with he | hm
        · rw [he] at hw1
          exact absurd hw1 h0
        · obtain ⟨A, p, c, B, hL, hcw, hA⟩ := ih ⟨pc1, hm, hw1⟩
          refine ⟨(p0, c0) :: A, p, c, B, by rw [hL, List.cons_append],
            hcw, ?_⟩
          intro qd hqd
          rcases List.mem_cons.mp hqd with he | hm2
          · rw [he]
            exact bool_eq_false h0
          · exact hA qd hm2

theorem refFiles_append (wdm : WordMap) (A B : List (String × Json)) :
    ∀ (kept : List String),
      (refFiles wdm (A ++ B) kept).files =
        (refFiles wdm A kept).files ++
          (refFiles wdm B (refFiles wdm A kept).kept).files ∧
      (refFiles wdm (A ++ B) kept).kept =
        (refFiles wdm B (refFiles wdm A kept).kept).kept := by
  induction A with
  | nil => intro kept; exact ⟨rfl, rfl⟩
  | cons pc rest ih =>
      intro kept
      obtain ⟨p, c⟩ := pc
      have hfe : ∀ (M : List (String × Json)) (k : List String),
          (refFiles wdm ((p, c) :: M) k).files =
            (p, (refDoc wdm (isSpecial p) c k).c) ::
              (refFiles wdm M (refDoc wdm (isSpecial p) c k).kept).files :=
        fun M k => rfl
      have hke : ∀ (M : List (String × Json)) (k : List String),
          (refFiles wdm ((p, c) :: M) k).kept =
            (refFiles wdm M (refDoc wdm (isSpecial p) c k).kept).kept :=
        fun M k => rfl
      rw [List.cons_append, hfe (rest ++ B) kept, hfe rest kept,
        hke (rest ++ B) kept, hke rest kept,
        (ih (refDoc wdm (isSpecial p) c kept).kept).1,
        (ih (refDoc wdm (isSpecial p) c kept).kept).2, List.cons_append]
      exact ⟨rfl, rfl⟩

theorem regOk_refFiles (wdm : WordMap) (L : List (String × Json)) :
    ∀ (kept : List String),
      (∀ pc ∈ L, wfDoc pc.2 = true) →
      (∀ pr ∈ flatWords L, itemWord (canonicalOfD wdm pr.1) =
        some (pr.1, canonicalOfD wdm pr.1)) →
      regOk kept (refFiles wdm L kept).files := by
  induction L with
  | nil =>
      intro kept _ _
      show True
      trivial
  | cons pc rest ih =>
      intro kept hwf hcanon
      obtain ⟨p, c⟩ := pc
      have hwfc : wfDoc c = true := hwf (p, c) (List.mem_cons_self _ _)
      have hcc : ∀ pr ∈ docWords c,
          itemWord (canonicalOfD wdm pr.1) =
            some (pr.1, canonicalOfD wdm pr.1) := fun pr hpr =>
        hcanon pr (by rw [flatWords_cons]; exact List.mem_append_left _ hpr)
      have hwfr : ∀ qd ∈ rest, wfDoc qd.2 = true :=
        fun qd hqd => hwf qd (List.mem_cons_of_mem _ hqd)
      have hcr : ∀ pr ∈ flatWords rest,
          itemWord (canonicalOfD wdm pr.1) =
            some (pr.1, canonicalOfD wdm pr.1) := fun pr hpr =>
        hcanon pr (by rw [flatWords_cons]; exact List.mem_append_right _ hpr)
      have hfe : (refFiles wdm ((p, c) :: rest) kept).files =
          (p, (refDoc wdm (isSpecial p) c kept).c) ::
            (refFiles wdm rest (refDoc wdm (isSpecial p) c kept).kept).files :=
        rfl
      rw [hfe]
      show (isSpecial p = false →
          ∀ w ∈ (docWords (refDoc wdm (isSpecial p) c kept).c).map Prod.fst,
            w ∉ kept) ∧
        regOk (if isSpecial p then kept
               else kept ++ (docWords
                 (refDoc wdm (isSpecial p) c kept).c).map Prod.fst)
          (refFiles wdm rest (refDoc wdm (isSpecial p) c kept).kept).files
      obtain ⟨h1, _, h3⟩ := refDoc_eval wdm (isSpecial p) c kept hwfc hcc
      constructor
      · intro hsp w hw
        rw [hsp] at h1 hw
        rw [if_neg Bool.false_ne_true] at h1
        rw [h1, map_fst_canonMap] at hw
        exact ((mem_map_fst_filter_firstOccs (docWords c) kept w).mp hw).1
      · have hk : (if isSpecial p then kept
            else kept ++ (docWords
              (refDoc wdm (isSpecial p) c kept).c).map Prod.fst) =
            (refDoc wdm (isSpecial p) c kept).kept := by
          cases hsp : isSpecial p with
          | true =>
              rw [hsp] at h3
              rw [if_pos rfl] at h3
              rw [if_pos rfl, h3]
          | false =>
              rw [hsp] at h1 h3
              rw [if_neg Bool.false_ne_true] at h1 h3
              rw [if_neg Bool.false_ne_true, h1, h3, map_fst_canonMap]
        rw [hk]
        exact ih (refDoc wdm (isSpecial p) c kept).kept hwfr hcr

theorem firstItemFor_stable (wdm : WordMap) (L : List (String × Json))
    (hwfL : ∀ pc ∈ L, wfDoc pc.2 = true)
    (hcanonL : ∀ pr ∈ flatWords L, itemWord (canonicalOfD wdm pr.1) =
      some (pr.1, canonicalOfD wdm pr.1))
    (hglobal : ∀ v, canonicalOf wdm v = firstItemFor L v) (w : String) :
    firstItemFor (refFiles wdm L []).files w = firstItemFor L w := by
  by_cases hex : ∃ pc ∈ L, docHasWord pc.2 w = true
  · obtain ⟨A, p, c, B, hLs, hcw, hA⟩ := exists_first_file L w hex
    subst hLs
    have hmemc : (p, c) ∈ A ++ (p, c) :: B :=
      List.mem_append_right _ (List.mem_cons_self _ _)
    have hwfc : wfDoc c = true := hwfL (p, c) hmemc
    have hccc : ∀ pr ∈ docWords c,
        itemWord (canonicalOfD wdm pr.1) =
          some (pr.1, canonicalOfD wdm pr.1) := fun pr hpr =>
      hcanonL pr (mem_flatWords _ (p, c) pr hmemc hpr)
    have hwfA : ∀ pc ∈ A, wfDoc pc.2 = true :=
      fun pc hpc => hwfL pc (List.mem_append_left _ hpc)
    have hcanonA : ∀ pr ∈ flatWords A,
        itemWord (canonicalOfD wdm pr.1) =
          some (pr.1, canonicalOfD wdm pr.1) := fun pr hpr =>
      hcanonL pr (by rw [flatWords_append]; exact List.mem_append_left _ hpr)
    obtain ⟨hfapp, _⟩ := refFiles_append wdm A ((p, c) :: B) []
    rw [hfapp]
    have hfe : (refFiles wdm ((p, c) :: B) (refFiles wdm A []).kept).files =
        (p, (refDoc wdm (isSpecial p) c (refFiles wdm A []).kept).c) ::
          (refFiles wdm B
            (refDoc wdm (isSpecial p) c
              (refFiles wdm A []).kept).kept).files := rfl
    rw [hfe]
    have hAout : firstItemFor (refFiles wdm A []).files w = none := by
      apply firstItemFor_eq_none_of_all
      intro pc' hpc'
      refine bool_eq_false ?_
      intro hcc
      obtain ⟨d, kp, hmem, he⟩ := refFiles_mem wdm A [] pc' hpc'
      rw [he] at hcc
      have hsub := refDoc_word_sub wdm (isSpecial pc'.1) d kp w
        (hwfA (pc'.1, d) hmem)
        (fun pr hpr => hcanonA pr (mem_flatWords _ (pc'.1, d) pr hmem hpr))
        hcc
      rw [hA (pc'.1, d) hmem] at hsub
      cases hsub
    have hAin : firstItemFor A w = none :=
      firstItemFor_eq_none_of_all A w hA
    rw [firstItemFor_append, firstItemFor_cons, hAout, Option.none_or,
      firstItemFor_append, firstItemFor_cons, hAin, Option.none_or]
    obtain ⟨pr0, hfind0, hpr0⟩ := docHasWord_find? c w hcw
    have hRHS : firstEntryFor c w = some pr0.2 := by
      rw [firstEntryFor, hfind0]
      rfl
    obtain ⟨h1, _, _⟩ := refDoc_eval wdm (isSpecial p) c
      (refFiles wdm A []).kept hwfc hccc
    cases hsp : isSpecial p with
    | true =>
        rw [hsp] at h1
        rw [if_pos rfl] at h1
        rw [firstEntryFor_special c _ h1 w, hRHS, Option.or_some,
          Option.or_some]
    | false =>
        rw [hsp] at h1
        rw [if_neg Bool.false_ne_true] at h1
        have hnk : w ∉ (refFiles wdm A []).kept := by
          intro hk
          rcases (refFiles_kept_mem wdm A [] w hwfA hcanonA).mp hk with
            h | ⟨qd, hqd, _, hdw⟩
          · exact List.not_mem_nil w h
          · rw [hA qd hqd] at hdw
            cases hdw
        rw [firstEntryFor_reg wdm c _ _ h1 w hnk hcw, hRHS, Option.or_some,
          Option.or_some]
        have hfi : firstItemFor (A ++ (p, c) :: B) w = some pr0.2 := by
          rw [firstItemFor_append, firstItemFor_cons, hAin, Option.none_or,
            hRHS, Option.or_some]
        rw [canonicalOfD, hglobal w, hfi]
        rfl
  · have hall : ∀ pc ∈ L, docHasWord pc.2 w = false :=
      fun pc hpc => bool_eq_false (fun hcc => hex ⟨pc, hpc, hcc⟩)
    rw [firstItemFor_eq_none_of_all L w hall,
      firstItemFor_eq_none_of_all _ w ?_]
    intro pc' hpc'
    refine bool_eq_false ?_
    intro hcc
    obtain ⟨d, kp, hmem, he⟩ := refFiles_mem wdm L [] pc' hpc'
    rw [he] at hcc
    have hsub := refDoc_word_sub wdm (isSpecial pc'.1) d kp w
      (hwfL (pc'.1, d) hmem)
      (fun pr hpr => hcanonL pr (mem_flatWords _ (pc'.1, d) pr hmem hpr))
      hcc
    rw [hall (pc'.1, d) hmem] at hsub
    cases hsub

theorem alistFind_filter {α : Type} (l : List (String × α))
    (q : String × α → Bool) (k : String) (hnd : (l.map Prod.fst).Nodup) :
    alistFind (l.filter q) k =
      match alistFind l k with
      | some v => if q (k, v) then some v else none
      | none => none := by
  induction l with
  | nil => rfl
  | cons kv rest ih =>
      obtain ⟨k0, v0⟩ := kv
      rw [List.map_cons, List.nodup_cons] at hnd
      rw [List.filter_cons]
      by_cases hq : q (k0, v0) = true
      · rw [if_pos hq, alistFind_cons]
        by_cases hk : k0 = k
        · subst hk
          have hscr : alistFind ((k0, v0) :: rest) k0 = some v0 := by
            rw [alistFind_cons, if_pos rfl]
          rw [if_pos rfl, hscr]
          show some v0 = if q (k0, v0) then some v0 else none
          rw [if_pos hq]
        · have hscr : alistFind ((k0, v0) :: rest) k = alistFind rest k := by
            rw [alistFind_cons, if_neg hk]
          rw [if_neg hk, ih hnd.2, hscr]
      · rw [if_neg hq]
        by_cases hk : k0 = k
        · subst hk
          have hnone : alistFind (rest.filter q) k0 = none := by
            rw [alistFind_eq_none_iff]
            intro hm
            exact hnd.1 (((List.filter_sublist rest).map Prod.fst).subset hm)
          have hscr : alistFind ((k0, v0) :: rest) k0 = some v0 := by
            rw [alistFind_cons, if_pos rfl]
          rw [hnone, hscr]
          show (none : Option α) = if q (k0, v0) then some v0 else none
          rw [if_neg (fun hcc => hq hcc)]
        · have hscr : alistFind ((k0, v0) :: rest) k = alistFind rest k := by
            rw [alistFind_cons, if_neg hk]
          rw [ih hnd.2, hscr]

theorem diskAfter_find (fsys : String → Option Json) (paths : List String)
    (hnd : paths.Nodup) (hwf : ∀ p ∈ paths, wfLoad fsys p = true)
    (p : String) (hp : p ∈ paths) :
    diskAfter fsys
      ⟨(refFiles (pipelineWdm fsys paths) (loadedOf fsys paths) []).files,
       (flatWords (loadedOf fsys paths)).length,
       (refFiles (pipelineWdm fsys paths) (loadedOf fsys paths) []).cnt,
       (refFiles (pipelineWdm fsys paths)
         (loadedOf fsys paths) []).files.filter
         (fun pc => !(alistFind (loadedOf fsys paths) pc.1 == some pc.2))⟩
      p =
    alistFind (refFiles (pipelineWdm fsys paths)
      (loadedOf fsys paths) []).files p := by
  have hndR : ((refFiles (pipelineWdm fsys paths)
      (loadedOf fsys paths) []).files.map Prod.fst).Nodup := by
    rw [refFiles_keys]
    exact loadedOf_keys_nodup fsys paths hnd
  have hsc := alistFind_filter
    (refFiles (pipelineWdm fsys paths) (loadedOf fsys paths) []).files
    (fun pc => !(alistFind (loadedOf fsys paths) pc.1 == some pc.2)) p hndR
  show (match alistFind ((refFiles (pipelineWdm fsys paths)
      (loadedOf fsys paths) []).files.filter
      (fun pc => !(alistFind (loadedOf fsys paths) pc.1 == some pc.2))) p with
    | some c => some c
    | none => fsys p) =
    alistFind (refFiles (pipelineWdm fsys paths)
      (loadedOf fsys paths) []).files p
  rw [hsc]
  cases hfR : alistFind (refFiles (pipelineWdm fsys paths)
      (loadedOf fsys paths) []).files p with
  | none =>
      have hLn : alistFind (loadedOf fsys paths) p = none := by
        rw [alistFind_eq_none_iff] at hfR ⊢
        rw [refFiles_keys] at hfR
        exact hfR
      show fsys p = none
      rw [← alistFind_loadedOf fsys paths hnd p hp, hLn]
  | some c' =>
      show (match (if (!(alistFind (loadedOf fsys paths) p == some c'))
          then some c' else none) with
        | some c => some c
        | none => fsys p) = some c'
      by_cases hbe : (alistFind (loadedOf fsys paths) p == some c') = true
      · rw [show (!(alistFind (loadedOf fsys paths) p == some c')) = false
          from by rw [hbe]; rfl]
        rw [if_neg Bool.false_ne_true]
        show fsys p = some c'
        have hLp : alistFind (loadedOf fsys paths) p = some c' :=
          beq_iff_eq.mp hbe
        rw [← alistFind_loadedOf fsys paths hnd p hp, hLp]
      · rw [show (!(alistFind (loadedOf fsys paths) p == some c')) = true
          from by rw [bool_eq_false hbe]; rfl]
        rw [if_pos rfl]

theorem loadedOf_eq_of_find (fsys2 fsys : String → Option Json) :
    ∀ (paths : List String) (L0 : List (String × Json)), paths.Nodup →
      L0.map Prod.fst = (loadedOf fsys paths).map Prod.fst →
      (∀ p ∈ paths, fsys2 p = alistFind L0 p) →
      loadedOf fsys2 paths = L0 := by
  intro paths
  induction paths with
  | nil =>
      intro L0 _ hkeys _
      cases L0 with
      | nil => rfl
      | cons kv rest => simp [loadedOf] at hkeys
  | cons p rest ih =>
      intro L0 hnd hkeys hfind
      rw [List.nodup_cons] at hnd
      obtain ⟨hpnotin, hnd2⟩ := hnd
      cases hfp : fsys p with
      | none =>
          have hLe : loadedOf fsys (p :: rest) = loadedOf fsys rest := by
            simp [loadedOf, List.filterMap_cons, hfp]
          rw [hLe] at hkeys
          have hp0 : p ∉ L0.map Prod.fst := by
            rw [hkeys]
            intro hm
            exact hpnotin ((loadedOf_keys_sublist fsys rest).subset hm)
          have hf2 : fsys2 p = none := by
            rw [hfind p (List.mem_cons_self _ _),
              (alistFind_eq_none_iff L0 p).mpr hp0]
          have hLe2 : loadedOf fsys2 (p :: rest) = loadedOf fsys2 rest := by
            simp [loadedOf, List.filterMap_cons, hf2]
          rw [hLe2]
          exact ih L0 hnd2 hkeys
            (fun q hq => hfind q (List.mem_cons_of_mem _ hq))
      | some d =>
          have hLe : loadedOf fsys (p :: rest) =
              (p, d) :: loadedOf fsys rest := by
            simp [loadedOf, List.filterMap_cons, hfp]
          rw [hLe, List.map_cons] at hkeys
          cases L0 with
          | nil => simp at hkeys
          | cons kv L0' =>
              obtain ⟨k0, v0⟩ := kv
              rw [List.map_cons] at hkeys
              injection hkeys with h1 h2
              subst h1
              have hf2 : fsys2 k0 = some v0 := by
                rw [hfind k0 (List.mem_cons_self _ _), alistFind_cons,
                  if_pos rfl]
              have hLe2 : loadedOf fsys2 (k0 :: rest) =
                  (k0, v0) :: loadedOf fsys2 rest := by
                simp [loadedOf, List.filterMap_cons, hf2]
              rw [hLe2]
              refine congrArg (List.cons (k0, v0)) ?_
              refine ih L0' hnd2 h2 ?_
              intro q hq
              rw [hfind q (List.mem_cons_of_mem _ hq), alistFind_cons,
                if_neg (fun he => hpnotin (by rw [he]; exact hq))]

theorem wfItem_of_itemWord (it : Json) (pr : String × Json)
    (h : itemWord it = some pr) : wfItem it = true := by
  cases it with
  | obj fs =>
      rw [itemWord] at h
      cases hf : alistFind fs "word" with
      | none => rw [hf] at h; cases h
      | some v =>
          rw [hf] at h
          cases v with
          | str s => simp [wfItem, hf]
          | null => cases h
          | bool b => cases h
          | num n => cases h
          | arr xs => cases h
          | obj fs2 => cases h
  | null => cases h
  | bool b => cases h
  | num n => cases h
  | str s => cases h
  | arr xs => cases h

theorem wfGroup_of_tight (g : Json) (h : tightGroup g = true) :
    wfGroup g = true := by
  cases g with
  | obj gfs =>
      cases hf : alistFind gfs "words" with
      | none => simp [wfGroup, hf]
      | some v =>
          cases v with
          | arr items =>
              rw [tightGroup, hf] at h
              rw [wfGroup, hf, List.all_eq_true]
              rw [List.all_eq_true] at h
              intro it hit
              obtain ⟨pr, hpr⟩ := Option.isSome_iff_exists.mp (h it hit)
              exact wfItem_of_itemWord it pr hpr
          | null => rw [tightGroup, hf] at h; cases h
          | bool b => rw [tightGroup, hf] at h; cases h
          | num n => rw [tightGroup, hf] at h; cases h
          | str s => rw [tightGroup, hf] at h; cases h
          | obj fs2 => rw [tightGroup, hf] at h; cases h
  | null => simp [tightGroup] at h
  | bool b => simp [tightGroup] at h
  | num n => simp [tightGroup] at h
  | str s => simp [tightGroup] at h
  | arr xs => simp [tightGroup] at h

theorem wfDoc_of_tight (c : Json) (h : tightDoc c = true) :
    wfDoc c = true := by
  cases c with
  | obj fs =>
      cases hm : alistFind fs "meanings" with
      | none => simp [wfDoc, hm]
      | some v =>
          cases v with
          | arr gs =>
              rw [tightDoc, hm] at h
              rw [wfDoc, hm, List.all_eq_true]
              rw [List.all_eq_true] at h
              intro g hg
              exact wfGroup_of_tight g (h g hg)
          | null => rw [tightDoc, hm] at h; cases h
          | bool b => rw [tightDoc, hm] at h; cases h
          | num n => rw [tightDoc, hm] at h; cases h
          | str s => rw [tightDoc, hm] at h; cases h
          | obj fs2 => rw [tightDoc, hm] at h; cases h
  | null => simp [tightDoc] at h
  | bool b => simp [tightDoc] at h
  | num n => simp [tightDoc] at h
  | str s => simp [tightDoc] at h
  | arr xs => simp [tightDoc] at h

/-- C5: the pipeline is idempotent.  Running it again on the tree produced
by a first run succeeds, rebuilds every document to exactly the same
content, removes zero entries (the original and final counters of the
second run coincide), writes no file back, and leaves the file system
byte-identical. -/
theorem C5_idempotent (fsys : String → Option Json) (paths : List String)
    (hnd : paths.Nodup) (hwf : ∀ p ∈ paths, wfLoad fsys p = true)
    (r : RunResult) (h1 : runPipeline fsys paths = .ok r) :
    ∃ r2 : RunResult, runPipeline (diskAfter fsys r) paths = .ok r2 ∧
      r2.recon = r.recon ∧ r2.origCount = r2.finalCount ∧
      r2.written = [] ∧
      ∀ p, diskAfter (diskAfter fsys r) r2 p = diskAfter fsys r p := by
  have hmaster := runPipeline_master fsys paths hnd hwf
  rw [h1] at hmaster
  injection hmaster with hr
  subst hr
  have hwfL := loadedOf_wf fsys paths hwf
  have hcanonL := pipeline_canon_item fsys paths hnd hwf
  have hglobal : ∀ v, canonicalOf (pipelineWdm fsys paths) v =
      firstItemFor (loadedOf fsys paths) v :=
    fun v => pipelineWdm_canonical fsys paths hnd hwf v
  have hndR : ((refFiles (pipelineWdm fsys paths)
      (loadedOf fsys paths) []).files.map Prod.fst).Nodup := by
    rw [refFiles_keys]
    exact loadedOf_keys_nodup fsys paths hnd
  have hL2 : loadedOf (diskAfter fsys
      ⟨(refFiles (pipelineWdm fsys paths) (loadedOf fsys paths) []).files,
       (flatWords (loadedOf fsys paths)).length,
       (refFiles (pipelineWdm fsys paths) (loadedOf fsys paths) []).cnt,
       (refFiles (pipelineWdm fsys paths)
         (loadedOf fsys paths) []).files.filter
         (fun pc => !(alistFind (loadedOf fsys paths) pc.1 == some pc.2))⟩)
      paths =
      (refFiles (pipelineWdm fsys paths) (loadedOf fsys paths) []).files :=
    loadedOf_eq_of_find _ fsys paths
      (refFiles (pipelineWdm fsys paths) (loadedOf fsys paths) []).files
      hnd (refFiles_keys _ _ _)
      (fun p hp => diskAfter_find fsys paths hnd hwf p hp)
  have hmemfact : ∀ pc : String × Json,
      pc ∈ (refFiles (pipelineWdm fsys paths)
        (loadedOf fsys paths) []).files →
      ∃ c kp, (pc.1, c) ∈ loadedOf fsys paths ∧
        wfDoc c = true ∧
        (∀ pr ∈ docWords c, itemWord (canonicalOfD
          (pipelineWdm fsys paths) pr.1) =
          some (pr.1, canonicalOfD (pipelineWdm fsys paths) pr.1)) ∧
        pc.2 = (refDoc (pipelineWdm fsys paths) (isSpecial pc.1) c kp).c := by
    intro pc hpc
    obtain ⟨c, kp, hmem, he⟩ := refFiles_mem (pipelineWdm fsys paths)
      (loadedOf fsys paths) [] pc hpc
    exact ⟨c, kp, hmem, hwfL (pc.1, c) hmem,
      fun pr hpr => hcanonL pr (mem_flatWords _ (pc.1, c) pr hmem hpr), he⟩
  have hwf2 : ∀ p ∈ paths, wfLoad (diskAfter fsys
      ⟨(refFiles (pipelineWdm fsys paths) (loadedOf fsys paths) []).files,
       (flatWords (loadedOf fsys paths)).length,
       (refFiles (pipelineWdm fsys paths) (loadedOf fsys paths) []).cnt,
       (refFiles (pipelineWdm fsys paths)
         (loadedOf fsys paths) []).files.filter
         (fun pc => !(alistFind (loadedOf fsys paths) pc.1 == some pc.2))⟩)
      p = true := by
    intro p hp
    cases hfp : diskAfter fsys
      ⟨(refFiles (pipelineWdm fsys paths) (loadedOf fsys paths) []).files,
       (flatWords (loadedOf fsys paths)).length,
       (refFiles (pipelineWdm fsys paths) (loadedOf fsys paths) []).cnt,
       (refFiles (pipelineWdm fsys paths)
         (loadedOf fsys paths) []).files.filter
         (fun pc => !(alistFind (loadedOf fsys paths) pc.1 == some pc.2))⟩
      p with
    | none => simp [wfLoad, hfp]
    | some c' =>
        have hfind : alistFind (refFiles (pipelineWdm fsys paths)
            (loadedOf fsys paths) []).files p = some c' := by
          rw [← diskAfter_find fsys paths hnd hwf p hp]
          exact hfp
        obtain ⟨c, kp, _, hwfc, hcc, he⟩ :=
          hmemfact (p, c') (alistFind_mem _ p c' hfind)
        have hwfc' : wfDoc c' = true := by
          rw [show c' = (refDoc (pipelineWdm fsys paths) (isSpecial p)
            c kp).c from he]
          exact wfDoc_of_tight _ (refDoc_tight (pipelineWdm fsys paths)
            (isSpecial p) c kp hwfc hcc)
        simp [wfLoad, hfp, hwfc']
  have hstab : ∀ v, canonicalOfD (pipelineWdm (diskAfter fsys
      ⟨(refFiles (pipelineWdm fsys paths) (loadedOf fsys paths) []).files,
       (flatWords (loadedOf fsys paths)).length,
       (refFiles (pipelineWdm fsys paths) (loadedOf fsys paths) []).cnt,
       (refFiles (pipelineWdm fsys paths)
         (loadedOf fsys paths) []).files.filter
         (fun pc => !(alistFind (loadedOf fsys paths) pc.1 == some pc.2))⟩)
      paths) v = canonicalOfD (pipelineWdm fsys paths) v := by
    intro v
    rw [canonicalOfD, canonicalOfD,
      pipelineWdm_canonical _ paths hnd hwf2 v, hL2,
      firstItemFor_stable (pipelineWdm fsys paths) (loadedOf fsys paths)
        hwfL hcanonL hglobal v,
      pipelineWdm_canonical fsys paths hnd hwf v]
  have htight : ∀ pc ∈ (refFiles (pipelineWdm fsys paths)
      (loadedOf fsys paths) []).files, tightDoc pc.2 = true := by
    intro pc hpc
    obtain ⟨c, kp, _, hwfc, hcc, he⟩ := hmemfact pc hpc
    rw [he]
    exact refDoc_tight (pipelineWdm fsys paths) (isSpecial pc.1) c kp hwfc hcc
  have hndw : ∀ pc ∈ (refFiles (pipelineWdm fsys paths)
      (loadedOf fsys paths) []).files,
      ((docWords pc.2).map Prod.fst).Nodup := by
    intro pc hpc
    obtain ⟨c, kp, _, hwfc, hcc, he⟩ := hmemfact pc hpc
    rw [he]
    exact refDoc_words_nodup (pipelineWdm fsys paths) (isSpecial pc.1) c kp
      hwfc hcc
  have hregOk : regOk [] (refFiles (pipelineWdm fsys paths)
      (loadedOf fsys paths) []).files :=
    regOk_refFiles (pipelineWdm fsys paths) (loadedOf fsys paths) []
      hwfL hcanonL
  have hcanonId : ∀ pc ∈ (refFiles (pipelineWdm fsys paths)
      (loadedOf fsys paths) []).files, isSpecial pc.1 = false →
      ∀ pr ∈ docWords pc.2, canonicalOfD (pipelineWdm (diskAfter fsys
        ⟨(refFiles (pipelineWdm fsys paths)
           (loadedOf fsys paths) []).files,
         (flatWords (loadedOf fsys paths)).length,
         (refFiles (pipelineWdm fsys paths) (loadedOf fsys paths) []).cnt,
         (refFiles (pipelineWdm fsys paths)
           (loadedOf fsys paths) []).files.filter
           (fun pc => !(alistFind (loadedOf fsys paths) pc.1 ==
             some pc.2))⟩) paths) pr.1 = pr.2 := by
    intro pc hpc hsp pr hpr
    obtain ⟨c, kp, _, hwfc, hcc, he⟩ := hmemfact pc hpc
    rw [hsp] at he
    rw [he] at hpr
    rw [hstab pr.1,
      (refDoc_reg_payload (pipelineWdm fsys paths) c kp hwfc hcc) pr hpr]
  obtain ⟨hfid, hcid⟩ := refFiles_identity (pipelineWdm (diskAfter fsys
      ⟨(refFiles (pipelineWdm fsys paths) (loadedOf fsys paths) []).files,
       (flatWords (loadedOf fsys paths)).length,
       (refFiles (pipelineWdm fsys paths) (loadedOf fsys paths) []).cnt,
       (refFiles (pipelineWdm fsys paths)
         (loadedOf fsys paths) []).files.filter
         (fun pc => !(alistFind (loadedOf fsys paths) pc.1 == some pc.2))⟩)
      paths)
    (refFiles (pipelineWdm fsys paths) (loadedOf fsys paths) []).files
    [] htight hndw hregOk hcanonId
  have hmaster2 := runPipeline_master (diskAfter fsys
      ⟨(refFiles (pipelineWdm fsys paths) (loadedOf fsys paths) []).files,
       (flatWords (loadedOf fsys paths)).length,
       (refFiles (pipelineWdm fsys paths) (loadedOf fsys paths) []).cnt,
       (refFiles (pipelineWdm fsys paths)
         (loadedOf fsys paths) []).files.filter
         (fun pc => !(alistFind (loadedOf fsys paths) pc.1 == some pc.2))⟩)
    paths hnd hwf2
  rw [hL2] at hmaster2
  have hwr : ((refFiles (pipelineWdm (diskAfter fsys
      ⟨(refFiles (pipelineWdm fsys paths) (loadedOf fsys paths) []).files,
       (flatWords (loadedOf fsys paths)).length,
       (refFiles (pipelineWdm fsys paths) (loadedOf fsys paths) []).cnt,
       (refFiles (pipelineWdm fsys paths)
         (loadedOf fsys paths) []).files.filter
         (fun pc => !(alistFind (loadedOf fsys paths) pc.1 == some pc.2))⟩)
      paths)
      (refFiles (pipelineWdm fsys paths)
        (loadedOf fsys paths) []).files []).files.filter
      (fun pc => !(alistFind (refFiles (pipelineWdm fsys paths)
        (loadedOf fsys paths) []).files pc.1 == some pc.2))) = [] := by
    rw [hfid, List.filter_eq_nil_iff]
    intro pc hpc
    intro hb
    have hfind : alistFind (refFiles (pipelineWdm fsys paths)
        (loadedOf fsys paths) []).files pc.1 = some pc.2 :=
      alistFind_of_mem_nodup _ pc.1 pc.2 (by
        rw [show (pc.1, pc.2) = pc from rfl]
        exact hpc) hndR
    have hb2 : (!(alistFind (refFiles (pipelineWdm fsys paths)
        (loadedOf fsys paths) []).files pc.1 == some pc.2)) = true := hb
    rw [hfind] at hb2
    simp at hb2
  refine ⟨_, hmaster2, ?_, ?_, ?_, ?_⟩
  · exact hfid
  · show (flatWords (refFiles (pipelineWdm fsys paths)
      (loadedOf fsys paths) []).files).length = _
    rw [hcid]
  · exact hwr
  · intro p
    show (match alistFind ((refFiles (pipelineWdm (diskAfter fsys
        ⟨(refFiles (pipelineWdm fsys paths)
           (loadedOf fsys paths) []).files,
         (flatWords (loadedOf fsys paths)).length,
         (refFiles (pipelineWdm fsys paths) (loadedOf fsys paths) []).cnt,
         (refFiles (pipelineWdm fsys paths)
           (loadedOf fsys paths) []).files.filter
           (fun pc => !(alistFind (loadedOf fsys paths) pc.1 ==
             some pc.2))⟩) paths)
        (refFiles (pipelineWdm fsys paths)
          (loadedOf fsys paths) []).files []).files.filter
        (fun pc => !(alistFind (refFiles (pipelineWdm fsys paths)
          (loadedOf fsys paths) []).files pc.1 == some pc.2))) p with
      | some c => some c
      | none => diskAfter fsys
          ⟨(refFiles (pipelineWdm fsys paths)
             (loadedOf fsys paths) []).files,
           (flatWords (loadedOf fsys paths)).length,
           (refFiles (pipelineWdm fsys paths) (loadedOf fsys paths) []).cnt,
           (refFiles (pipelineWdm fsys paths)
             (loadedOf fsys paths) []).files.filter
             (fun pc => !(alistFind (loadedOf fsys paths) pc.1 ==
               some pc.2))⟩ p) = _
    rw [hwr]
    rfl

/-- The result of the first pipeline run on the one-file tree `wFsysB`. -/
def wRunB1 : RunResult :=
  ⟨[("b/r.json", .obj [("meanings",
      .arr [.obj [("words", .arr [wItem "a" 1])]])])],
   2, 1,
   [("b/r.json", .obj [("meanings",
      .arr [.obj [("words", .arr [wItem "a" 1])]])])]⟩

theorem C5_idempotent_witness :
    ∃ r2 : RunResult, runPipeline (diskAfter wFsysB wRunB1) wPathsB =
      .ok r2 ∧
      r2.recon = wRunB1.recon ∧ r2.origCount = r2.finalCount ∧
      r2.written = [] ∧
      ∀ p, diskAfter (diskAfter wFsysB wRunB1) r2 p =
        diskAfter wFsysB wRunB1 p :=
  C5_idempotent wFsysB wPathsB (by decide) (by decide) wRunB1 rfl

/-! Observers and well-formedness for the `07clean_data.py` step-1 model. -/

/-- Well-formed word entry for `07clean_data.py`: a dict whose `word` field,
when present, is a string (so `.get('word', '').strip()` succeeds). -/
def wfCItem (it : Json) : Bool :=
  match it with
  | .obj ifs =>
    match alistFind ifs "word" with
    | none => true
    | some (.str _) => true
    | some _ => false
  | _ => false

/-- Well-formed meaning group for `07clean_data.py`: a dict whose `words`
value, when present, is a list of well-formed entries. -/
def wfCGroup (g : Json) : Bool :=
  match g with
  | .obj gfs =>
    match alistFind gfs "words" with
    | none => true
    | some (.arr items) => items.all wfCItem
    | some _ => false
  | _ => false

/-- Well-formed document for `07clean_data.py`: a dict whose `meanings`
value, when present, is a list of well-formed groups. -/
def wfCDoc (c : Json) : Bool :=
  match c with
  | .obj fs =>
    match alistFind fs "meanings" with
    | none => true
    | some (.arr gs) => gs.all wfCGroup
    | some _ => false
  | _ => false

/-- Total form of `word_item.get('word', '').strip()` on a well-formed
entry. -/
def stripF (it : Json) : String :=
  match it with
  | .obj ifs =>
    match alistFind ifs "word" with
    | none => pyStrip ""
    | some (.str s) => pyStrip s
    | some _ => ""
  | _ => ""

/-- The non-empty stripped words of one meaning group, with multiplicity,
in order. -/
def groupCWords (g : Json) : List String :=
  match g with
  | .obj gfs =>
    match alistFind gfs "words" with
    | some (.arr items) => (items.map stripF).filter (fun s => !s.isEmpty)
    | _ => []
  | _ => []

/-- The non-empty stripped words of a document, with multiplicity, in
order. -/
def docCWords (c : Json) : List String :=
  match c with
  | .obj fs =>
    match alistFind fs "meanings" with
    | some (.arr gs) => gs.flatMap groupCWords
    | _ => []
  | _ => []

theorem mem_addNew (acc : List String) (x w : String) :
    w ∈ addNew acc x ↔ w ∈ acc ∨ w = x := by
  rw [addNew]
  by_cases h : acc.contains x = true
  · rw [if_pos h]
    constructor
    · exact Or.inl
    · rintro (h2 | h2)
      · exact h2
      · subst h2
        exact (contains_iff acc w).mp h
  · rw [if_neg h, List.mem_append, List.mem_singleton]

theorem mem_foldl_addNew (l : List String) :
    ∀ (acc : List String) (w : String),
      w ∈ l.foldl addNew acc ↔ w ∈ acc ∨ w ∈ l := by
  induction l with
  | nil => intro acc w; simp
  | cons x rest ih =>
      intro acc w
      rw [List.foldl_cons, ih, mem_addNew]
      simp only [List.mem_cons]
      tauto

theorem docCWords_falsy (c : Json) (hwf : wfCDoc c = true)
    (h : pyTruthy c = false) : docCWords c = [] := by
  cases c with
  | obj fs =>
      cases fs with
      | nil => rfl
      | cons kv rest => simp [pyTruthy] at h
  | null => rfl
  | bool b => rfl
  | num n => rfl
  | str s => rfl
  | arr xs => rfl

theorem stripWordOfItem_wf (it : Json) (h : wfCItem it = true) :
    stripWordOfItem it = .ok (stripF it) := by
  cases it with
  | obj ifs =>
      cases hf : alistFind ifs "word" with
      | none => rw [stripWordOfItem, stripF, hf]
      | some v =>
          cases v with
          | str s => rw [stripWordOfItem, stripF, hf]
          | null => rw [wfCItem, hf] at h; cases h
          | bool b => rw [wfCItem, hf] at h; cases h
          | num n => rw [wfCItem, hf] at h; cases h
          | arr xs => rw [wfCItem, hf] at h; cases h
          | obj fs2 => rw [wfCItem, hf] at h; cases h
  | null => simp [wfCItem] at h
  | bool b => simp [wfCItem] at h
  | num n => simp [wfCItem] at h
  | str s => simp [wfCItem] at h
  | arr xs => simp [wfCItem] at h

theorem mapM_strip (items : List Json) (h : items.all wfCItem = true) :
    items.mapM stripWordOfItem = .ok (items.map stripF) := by
  induction items with
  | nil => rfl
  | cons it rest ih =>
      rw [List.all_cons, Bool.and_eq_true] at h
      rw [List.mapM_cons, stripWordOfItem_wf it h.1]
      show (Except.ok (stripF it) >>= fun y =>
        rest.mapM stripWordOfItem >>= fun ys => pure (y :: ys)) = _
      rw [except_bind_ok, ih h.2, except_bind_ok]
      rfl

theorem foldl_inner_flatMap {α β γ : Type} (g : γ → β → γ) (f : α → List β) :
    ∀ (l : List α) (acc : γ),
      l.foldl (fun a x => (f x).foldl g a) acc = (l.flatMap f).foldl g acc := by
  intro l
  induction l with
  | nil => intro acc; rfl
  | cons x rest ih =>
      intro acc
      rw [List.foldl_cons, ih, List.flatMap_cons, List.foldl_append]

theorem getWordsGroup_wf (g : Json) (acc : List String)
    (h : wfCGroup g = true) :
    getWordsGroup g acc = .ok ((groupCWords g).foldl addNew acc) := by
  cases g with
  | obj gfs =>
      cases hw : alistFind gfs "words" with
      | none =>
          show (Except.ok (alistFind gfs "words").isSome >>= fun hasW =>
            if !hasW then .ok acc else _) = _
          rw [except_bind_ok, hw]
          show Except.ok acc = .ok ((groupCWords (.obj gfs)).foldl addNew acc)
          rw [groupCWords, hw]
          rfl
      | some wv =>
          cases wv with
          | arr items =>
              show (Except.ok (alistFind gfs "words").isSome >>= fun hasW =>
                if !hasW then .ok acc else
                match alistFind gfs "words" with
                | some (.arr items) =>
                    items.mapM stripWordOfItem >>= fun ws =>
                    .ok ((ws.filter (fun s => !s.isEmpty)).foldl addNew acc)
                | _ => .ok acc) = _
              rw [except_bind_ok, hw]
              show (items.mapM stripWordOfItem >>= fun ws =>
                Except.ok ((ws.filter (fun s => !s.isEmpty)).foldl addNew acc)) = _
              rw [wfCGroup, hw] at h
              rw [mapM_strip items h, except_bind_ok, groupCWords, hw]
          | null => rw [wfCGroup, hw] at h; cases h
          | bool b => rw [wfCGroup, hw] at h; cases h
          | num n => rw [wfCGroup, hw] at h; cases h
          | str s => rw [wfCGroup, hw] at h; cases h
          | obj fs2 => rw [wfCGroup, hw] at h; cases h
  | null => simp [wfCGroup] at h
  | bool b => simp [wfCGroup] at h
  | num n => simp [wfCGroup] at h
  | str s => simp [wfCGroup] at h
  | arr xs => simp [wfCGroup] at h

theorem foldlM_getWordsGroup (gs : List Json) (h : gs.all wfCGroup = true) :
    ∀ acc, gs.foldlM (fun acc g => getWordsGroup g acc) acc =
      .ok (gs.foldl (fun acc g => (groupCWords g).foldl addNew acc) acc) := by
  induction gs with
  | nil => intro acc; rfl
  | cons g rest ih =>
      rw [List.all_cons, Bool.and_eq_true] at h
      intro acc
      rw [List.foldlM_cons, getWordsGroup_wf g acc h.1, except_bind_ok,
        ih h.2, List.foldl_cons]

theorem get_words_wf (c : Json) (h : wfCDoc c = true) :
    get_words_from_data c = .ok ((docCWords c).foldl addNew []) := by
  cases c with
  | obj fs =>
      cases fs with
      | nil => rfl
      | cons kv rest =>
          cases hm : alistFind (kv :: rest) "meanings" with
          | none =>
              show (if !pyTruthy (.obj (kv :: rest)) then Except.ok [] else
                Except.ok (alistFind (kv :: rest) "meanings").isSome >>=
                  fun hasM => _) = _
              rw [if_neg (by simp [pyTruthy]), except_bind_ok, hm]
              show Except.ok [] = _
              rw [docCWords, hm]
              rfl
          | some mv =>
              cases mv with
              | arr gs =>
                  show (if !pyTruthy (.obj (kv :: rest)) then Except.ok [] else
                    Except.ok (alistFind (kv :: rest) "meanings").isSome >>=
                      fun hasM =>
                      if !hasM then .ok [] else
                      match alistFind (kv :: rest) "meanings" with
                      | some (.arr gs) =>
                          gs.foldlM (fun acc g => getWordsGroup g acc) []
                      | _ => .ok []) = _
                  rw [if_neg (by simp [pyTruthy]), except_bind_ok, hm]
                  show gs.foldlM (fun acc g => getWordsGroup g acc) [] = _
                  rw [wfCDoc, hm] at h
                  rw [foldlM_getWordsGroup gs h, docCWords, hm,
                    foldl_inner_flatMap]
              | null => rw [wfCDoc, hm] at h; cases h
              | bool b => rw [wfCDoc, hm] at h; cases h
              | num n => rw [wfCDoc, hm] at h; cases h
              | str s => rw [wfCDoc, hm] at h; cases h
              | obj fs2 => rw [wfCDoc, hm] at h; cases h
  | null => simp [wfCDoc] at h
  | bool b => simp [wfCDoc] at h
  | num n => simp [wfCDoc] at h
  | str s => simp [wfCDoc] at h
  | arr xs => simp [wfCDoc] at h

theorem wfmAdd_cons_ne (k0 : String) (fs0 : List String)
    (rest : List (String × List String)) (w p : String) (hne : k0 ≠ w) :
    wfmAdd ((k0, fs0) :: rest) w p = (k0, fs0) :: wfmAdd rest w p := by
  have hfind : alistFind ((k0, fs0) :: rest) w = alistFind rest w := by
    rw [alistFind_cons, if_neg hne]
  cases hr : alistFind rest w with
  | none =>
      rw [wfmAdd, hfind, hr, wfmAdd, hr]
      rfl
  | some fs1 =>
      rw [wfmAdd, hfind, hr, wfmAdd, hr, List.map_cons]
      have : ¬((k0, fs0).1 = w) := hne
      rw [if_neg this]

theorem wfmAdd_find (m : List (String × List String)) (w p v : String)
    (hnd : (m.map Prod.fst).Nodup) :
    alistFind (wfmAdd m w p) v =
      if v = w then some ((alistFind m w).getD [] ++ [p])
      else alistFind m v := by
  induction m with
  | nil =>
      rw [wfmAdd, alistFind_nil]
      show alistFind [(w, [p])] v = _
      rw [alistFind_cons, alistFind_nil]
      by_cases hv : v = w
      · rw [if_pos (hv.symm), if_pos hv]
        rfl
      · rw [if_neg (fun he => hv he.symm), if_neg hv]
  | cons hd rest ih =>
      obtain ⟨k0, fs0⟩ := hd
      rw [List.map_cons, List.nodup_cons] at hnd
      by_cases hk : k0 = w
      · subst hk
        have hfind : alistFind ((k0, fs0) :: rest) k0 = some fs0 := by
          rw [alistFind_cons, if_pos rfl]
        have hhd : ((k0, fs0).1 = k0) := rfl
        have hrest : rest.map (fun kv =>
            if kv.1 = k0 then (kv.1, kv.2 ++ [p]) else kv) = rest := by
          have : ∀ kv ∈ rest, (fun kv =>
              if kv.1 = k0 then (kv.1, kv.2 ++ [p]) else kv) kv = id kv := by
            intro kv hkv
            have : kv.1 ≠ k0 := by
              intro he
              exact hnd.1 (he ▸ (List.mem_map.mpr ⟨kv, hkv, rfl⟩))
            simp [this]
          rw [List.map_congr_left this, List.map_id]
        have hstep : wfmAdd ((k0, fs0) :: rest) k0 p =
            (k0, fs0 ++ [p]) :: rest := by
          rw [wfmAdd, hfind]
          show ((k0, fs0) :: rest).map (fun kv =>
            if kv.1 = k0 then (kv.1, kv.2 ++ [p]) else kv) = _
          simp [hrest]
        rw [hstep]
        by_cases hv : v = k0
        · subst hv
          rw [alistFind_cons, if_pos rfl, if_pos rfl, hfind]
          rfl
        · rw [alistFind_cons, if_neg (fun he => hv he.symm), if_neg hv,
            alistFind_cons, if_neg (fun he => hv he.symm)]
      · rw [wfmAdd_cons_ne k0 fs0 rest w p hk, alistFind_cons]
        by_cases hv : k0 = v
        · subst hv
          rw [if_pos rfl]
          have hvw : ¬(k0 = w) := hk
          rw [if_neg hvw, alistFind_cons, if_pos rfl]
        · rw [if_neg hv, ih hnd.2]
          by_cases hw : v = w
          · rw [if_pos hw, if_pos hw, alistFind_cons, if_neg hk]
          · rw [if_neg hw, if_neg hw, alistFind_cons, if_neg hv]

theorem wfmAdd_keys (m : List (String × List String)) (w p : String) :
    (wfmAdd m w p).map Prod.fst =
      if (alistFind m w).isSome then m.map Prod.fst
      else m.map Prod.fst ++ [w] := by
  cases hm : alistFind m w with
  | none =>
      rw [wfmAdd, hm]
      show (m ++ [(w, [p])]).map Prod.fst = _
      rw [List.map_append]
      rfl
  | some fs0 =>
      rw [wfmAdd, hm]
      show (m.map _).map Prod.fst = _
      rw [List.map_map]
      have : ∀ kv ∈ m, (Prod.fst ∘ fun kv =>
          if kv.1 = w then (kv.1, kv.2 ++ [p]) else kv) kv = Prod.fst kv := by
        intro kv _
        by_cases hk : kv.1 = w <;> simp [hk]
      rw [List.map_congr_left this]
      rfl

theorem wfmAdd_nodup (m : List (String × List String)) (w p : String)
    (hnd : (m.map Prod.fst).Nodup) :
    ((wfmAdd m w p).map Prod.fst).Nodup := by
  rw [wfmAdd_keys]
  cases hm : alistFind m w with
  | none =>
      show (m.map Prod.fst ++ [w]).Nodup
      rw [List.nodup_append]
      refine ⟨hnd, List.nodup_singleton w, ?_⟩
      intro a ha hb
      rw [List.mem_singleton] at hb
      subst hb
      exact (alistFind_eq_none_iff m a).mp hm ha
  | some fs0 =>
      exact hnd

theorem foldl_wfmAdd_nodup (ws : List String) :
    ∀ (m : List (String × List String)) (p : String),
      (m.map Prod.fst).Nodup →
      ((ws.foldl (fun acc w => wfmAdd acc w p) m).map Prod.fst).Nodup := by
  induction ws with
  | nil => intro m p h; exact h
  | cons w0 rest ih =>
      intro m p h
      rw [List.foldl_cons]
      exact ih _ p (wfmAdd_nodup m w0 p h)

theorem foldl_wfmAdd_mem (ws : List String) :
    ∀ (m : List (String × List String)) (p v f : String),
      (m.map Prod.fst).Nodup →
      ((∃ fs, alistFind (ws.foldl (fun acc w => wfmAdd acc w p) m) v = some fs
          ∧ f ∈ fs) ↔
       (∃ fs, alistFind m v = some fs ∧ f ∈ fs) ∨ (v ∈ ws ∧ f = p)) := by
  induction ws with
  | nil =>
      intro m p v f _
      simp
  | cons w0 rest ih =>
      intro m p v f hnd
      rw [List.foldl_cons, ih (wfmAdd m w0 p) p v f (wfmAdd_nodup m w0 p hnd)]
      have hmid : (∃ fs, alistFind (wfmAdd m w0 p) v = some fs ∧ f ∈ fs) ↔
          ((∃ fs, alistFind m v = some fs ∧ f ∈ fs) ∨ (v = w0 ∧ f = p)) := by
        rw [wfmAdd_find m w0 p v hnd]
        by_cases hv : v = w0
        · subst hv
          rw [if_pos rfl]
          cases hm : alistFind m v with
          | none =>
              have hgd : ((none : Option (List String)).getD [] ++ [p]) =
                [p] := rfl
              rw [hgd]
              constructor
              · rintro ⟨fs, he, hf⟩
                injection he with he
                subst he
                exact Or.inr ⟨rfl, List.mem_singleton.mp hf⟩
              · rintro (⟨fs, he, hf⟩ | ⟨he, hf⟩)
                · cases he
                · exact ⟨[p], rfl, by rw [hf]; exact List.mem_singleton.mpr rfl⟩
          | some fs0 =>
              have hgd : ((some fs0).getD [] ++ [p]) = fs0 ++ [p] := rfl
              rw [hgd]
              constructor
              · rintro ⟨fs, he, hf⟩
                injection he with he
                subst he
                rcases List.mem_append.mp hf with hf | hf
                · exact Or.inl ⟨fs0, rfl, hf⟩
                · exact Or.inr ⟨rfl, List.mem_singleton.mp hf⟩
              · rintro (⟨fs, he, hf⟩ | ⟨he, hf⟩)
                · injection he with he
                  subst he
                  exact ⟨fs0 ++ [p], rfl, List.mem_append.mpr (Or.inl hf)⟩
                · exact ⟨fs0 ++ [p], rfl, List.mem_append.mpr (Or.inr
                    (by rw [hf]; exact List.mem_singleton.mpr rfl))⟩
        · rw [if_neg hv]
          constructor
          · exact fun h => Or.inl h
          · rintro (h | ⟨hv0, _⟩)
            · exact h
            · exact absurd hv0 hv
      rw [hmid]
      simp only [List.mem_cons]
      constructor
      · rintro ((h | ⟨hv, hf⟩) | ⟨hv, hf⟩)
        · exact Or.inl h
        · exact Or.inr ⟨Or.inl hv, hf⟩
        · exact Or.inr ⟨Or.inr hv, hf⟩
      · rintro (h | ⟨hv | hv, hf⟩)
        · exact Or.inl (Or.inl h)
        · exact Or.inl (Or.inr ⟨hv, hf⟩)
        · exact Or.inr ⟨hv, hf⟩

theorem buildWfm_spec (disk : List (String × Json)) :
    ∀ (m : List (String × List String)),
      (∀ pc ∈ disk, wfCDoc pc.2 = true) →
      (m.map Prod.fst).Nodup →
      ∃ wfm, buildWfm disk m = .ok wfm ∧ ((wfm.map Prod.fst).Nodup) ∧
        ∀ v f, ((∃ fs, alistFind wfm v = some fs ∧ f ∈ fs) ↔
          ((∃ fs, alistFind m v = some fs ∧ f ∈ fs) ∨
           ∃ d, (f, d) ∈ disk ∧ v ∈ docCWords d)) := by
  induction disk with
  | nil =>
      intro m _ hnd
      refine ⟨m, rfl, hnd, ?_⟩
      intro v f
      simp
  | cons pc rest ih =>
      obtain ⟨p, data⟩ := pc
      intro m hwf hnd
      have hwfd : wfCDoc data = true := hwf (p, data) (List.mem_cons_self _ _)
      have hwfr : ∀ pc ∈ rest, wfCDoc pc.2 = true :=
        fun pc hpc => hwf pc (List.mem_cons_of_mem _ hpc)
      cases hpt : pyTruthy data with
      | false =>
          have hstep : buildWfm ((p, data) :: rest) m = buildWfm rest m := by
            rw [buildWfm, hpt]
            rfl
          obtain ⟨wfm, heq, hnd2, hmem⟩ := ih m hwfr hnd
          refine ⟨wfm, hstep ▸ heq, hnd2, ?_⟩
          intro v f
          rw [hmem v f]
          have hdw : docCWords data = [] := docCWords_falsy data hwfd hpt
          constructor
          · rintro (h | ⟨d, hd, hv⟩)
            · exact Or.inl h
            · exact Or.inr ⟨d, List.mem_cons_of_mem _ hd, hv⟩
          · rintro (h | ⟨d, hd, hv⟩)
            · exact Or.inl h
            · rcases List.mem_cons.mp hd with hd | hd
              · injection hd with h1 h2
                subst h2
                rw [hdw] at hv
                cases hv
              · exact Or.inr ⟨d, hd, hv⟩
      | true =>
          have hws := get_words_wf data hwfd
          have hstep : buildWfm ((p, data) :: rest) m =
              buildWfm rest (((docCWords data).foldl addNew []).foldl
                (fun acc w => wfmAdd acc w p) m) := by
            rw [buildWfm, hpt]
            show (get_words_from_data data >>= fun ws =>
              buildWfm rest (ws.foldl (fun acc w => wfmAdd acc w p) m)) = _
            rw [hws, except_bind_ok]
          set m' := ((docCWords data).foldl addNew []).foldl
            (fun acc w => wfmAdd acc w p) m with hm'
          have hnd' : (m'.map Prod.fst).Nodup :=
            foldl_wfmAdd_nodup _ m p hnd
          obtain ⟨wfm, heq, hnd2, hmem⟩ := ih m' hwfr hnd'
          refine ⟨wfm, hstep ▸ heq, hnd2, ?_⟩
          intro v f
          rw [hmem v f, foldl_wfmAdd_mem _ m p v f hnd]
          have hvws : v ∈ (docCWords data).foldl addNew [] ↔
              v ∈ docCWords data := by
            rw [mem_foldl_addNew _ [] v]
            simp
          constructor
          · rintro ((h | ⟨hv, hf⟩) | ⟨d, hd, hv⟩)
            · exact Or.inl h
            · subst hf
              exact Or.inr ⟨data, List.mem_cons_self _ _, hvws.mp hv⟩
            · exact Or.inr ⟨d, List.mem_cons_of_mem _ hd, hv⟩
          · rintro (h | ⟨d, hd, hv⟩)
            · exact Or.inl (Or.inl h)
            · rcases List.mem_cons.mp hd with hd | hd
              · injection hd with h1 h2
                subst h1
                subst h2
                exact Or.inl (Or.inr ⟨hvws.mpr hv, rfl⟩)
              · exact Or.inr ⟨d, hd, hv⟩

theorem mem_setField {α : Type} (l : List (String × α)) (k : String) (v : α) :
    ∀ pc ∈ setField l k v, pc = (k, v) ∨ pc ∈ l := by
  induction l with
  | nil => intro pc hpc; cases hpc
  | cons hd tl ih =>
      obtain ⟨k0, v0⟩ := hd
      intro pc hpc
      by_cases hk : k0 = k
      · rw [setField, if_pos hk] at hpc
        rcases List.mem_cons.mp hpc with h | h
        · exact Or.inl h
        · exact Or.inr (List.mem_cons_of_mem _ h)
      · rw [setField, if_neg hk] at hpc
        rcases List.mem_cons.mp hpc with h | h
        · exact Or.inr (h ▸ List.mem_cons_self _ _)
        · rcases ih pc h with h2 | h2
          · exact Or.inl h2
          · exact Or.inr (List.mem_cons_of_mem _ h2)

theorem filterAuxM_strip (toRemove : List String) :
    ∀ (items acc : List Json), items.all wfCItem = true →
      List.filterAuxM (fun w => do
        let s ← stripWordOfItem w
        pure (!toRemove.contains s)) items acc =
      .ok ((items.filter
        (fun it => !toRemove.contains (stripF it))).reverse ++ acc) := by
  intro items
  induction items with
  | nil => intro acc _; rfl
  | cons it rest ih =>
      intro acc h
      rw [List.all_cons, Bool.and_eq_true] at h
      show (stripWordOfItem it >>= fun s =>
        (pure (!toRemove.contains s) : Except String Bool)) >>= (fun b =>
        List.filterAuxM _ rest (bif b then it :: acc else acc)) = _
      rw [stripWordOfItem_wf it h.1, except_bind_ok]
      show List.filterAuxM _ rest
        (bif !toRemove.contains (stripF it) then it :: acc else acc) = _
      cases hc : toRemove.contains (stripF it) with
      | false =>
          show List.filterAuxM _ rest (it :: acc) = _
          rw [ih (it :: acc) h.2, List.filter_cons, hc]
          show _ = Except.ok ((it :: rest.filter
            (fun it => !toRemove.contains (stripF it))).reverse ++ acc)
          rw [List.reverse_cons, List.append_assoc]
          rfl
      | true =>
          show List.filterAuxM _ rest acc = _
          rw [ih acc h.2, List.filter_cons, hc]
          rfl

theorem filterM_strip (toRemove : List String) (items : List Json)
    (h : items.all wfCItem = true) :
    items.filterM (fun w => do
      let s ← stripWordOfItem w
      pure (!toRemove.contains s)) =
    .ok (items.filter (fun it => !toRemove.contains (stripF it))) := by
  show (List.filterAuxM _ items [] >>= fun as =>
    (pure as.reverse : Except String (List Json))) = _
  rw [filterAuxM_strip toRemove items [] h, except_bind_ok,
    List.append_nil, List.reverse_reverse]
  rfl

theorem kept_map_strip (toRemove : List String) (items : List Json) :
    ((items.filter (fun it => !toRemove.contains (stripF it))).map stripF).filter
        (fun s => !s.isEmpty) =
    ((items.map stripF).filter (fun s => !s.isEmpty)).filter
        (fun s => !toRemove.contains s) := by
  rw [show (fun it => !toRemove.contains (stripF it)) =
      ((fun s => !toRemove.contains s) ∘ stripF) from rfl]
  rw [← List.map_filter stripF items, List.filter_filter, List.filter_filter]
  exact List.filter_congr (fun x _ => Bool.and_comm _ _)

theorem removeFromMeaning_spec (toRemove : List String) (g : Json)
    (h : wfCGroup g = true) :
    ∃ g' n, removeFromMeaning toRemove g = .ok (g', n) ∧ wfCGroup g' = true ∧
      groupCWords g' =
        (groupCWords g).filter (fun s => !toRemove.contains s) ∧
      (n = 0 → g' = g) := by
  cases g with
  | obj gfs =>
      cases hw : alistFind gfs "words" with
      | none =>
          refine ⟨.obj gfs, 0, ?_, h, ?_, fun _ => rfl⟩
          · simp [removeFromMeaning, pyContains, hw]
            rfl
          · rw [groupCWords, hw]
            rfl
      | some wv =>
          cases wv with
          | arr items =>
              rw [wfCGroup, hw] at h
              have hkept := filterM_strip toRemove items h
              set kept := items.filter
                (fun it => !toRemove.contains (stripF it)) with hkdef
              refine ⟨.obj (setField gfs "words" (.arr kept)),
                items.length - kept.length, ?_, ?_, ?_, ?_⟩
              · simp only [removeFromMeaning, pyContains, hw,
                  except_bind_ok, Option.isSome_some, Bool.not_true,
                  Bool.false_eq_true, if_false, pyLen, pyIterate, hkept]
              · rw [wfCGroup, alistFind_setField_self gfs "words" (.arr kept)
                  (by rw [hw]; rfl)]
                rw [List.all_eq_true] at h ⊢
                intro x hx
                exact h x (List.mem_of_mem_filter hx)
              · rw [groupCWords, alistFind_setField_self gfs "words"
                  (.arr kept) (by rw [hw]; rfl), groupCWords, hw]
                exact kept_map_strip toRemove items
              · intro hn
                have hle : items.length ≤ kept.length :=
                  Nat.le_of_sub_eq_zero hn
                have hsub : kept.Sublist items := List.filter_sublist items
                have hlen : kept.length = items.length :=
                  Nat.le_antisymm (hsub.length_le) hle
                have hki : kept = items := hsub.eq_of_length hlen
                rw [hki, setField_self_id gfs "words" (.arr items) hw]
          | null => rw [wfCGroup, hw] at h; cases h
          | bool b => rw [wfCGroup, hw] at h; cases h
          | num n => rw [wfCGroup, hw] at h; cases h
          | str s => rw [wfCGroup, hw] at h; cases h
          | obj fs2 => rw [wfCGroup, hw] at h; cases h
  | null => simp [wfCGroup] at h
  | bool b => simp [wfCGroup] at h
  | num n => simp [wfCGroup] at h
  | str s => simp [wfCGroup] at h
  | arr xs => simp [wfCGroup] at h

theorem mapM_removeFromMeaning (toRemove : List String) :
    ∀ (gs : List Json), gs.all wfCGroup = true →
      ∃ rs : List (Json × Nat),
        gs.mapM (removeFromMeaning toRemove) = .ok rs ∧
        (rs.map Prod.fst).all wfCGroup = true ∧
        (rs.map Prod.fst).flatMap groupCWords =
          (gs.flatMap groupCWords).filter (fun s => !toRemove.contains s) ∧
        ((rs.map Prod.snd).sum = 0 → rs.map Prod.fst = gs) := by
  intro gs
  induction gs with
  | nil =>
      intro _
      exact ⟨[], rfl, rfl, rfl, fun _ => rfl⟩
  | cons g rest ih =>
      intro h
      rw [List.all_cons, Bool.and_eq_true] at h
      obtain ⟨g', n, heq, hwf', hwords, hzero⟩ :=
        removeFromMeaning_spec toRemove g h.1
      obtain ⟨rs, heqr, hall, hflat, hz⟩ := ih h.2
      refine ⟨(g', n) :: rs, ?_, ?_, ?_, ?_⟩
      · rw [List.mapM_cons, heq]
        show (Except.ok (g', n) >>= fun r =>
          rest.mapM (removeFromMeaning toRemove) >>= fun rs =>
          pure (r :: rs)) = _
        rw [except_bind_ok, heqr, except_bind_ok]
        rfl
      · rw [List.map_cons, List.all_cons, Bool.and_eq_true]
        exact ⟨hwf', hall⟩
      · rw [List.map_cons, List.flatMap_cons, List.flatMap_cons,
          List.filter_append, hwords, hflat]
      · intro hs
        rw [List.map_cons, List.sum_cons] at hs
        rcases Nat.add_eq_zero.mp hs with ⟨hn, hsum⟩
        rw [List.map_cons, hzero hn, hz hsum]

theorem remove_words_spec (toRemove : List String) (d : Json)
    (h : wfCDoc d = true) :
    ∃ d' n, remove_words_from_data d toRemove = .ok (d', n) ∧
      wfCDoc d' = true ∧
      docCWords d' = (docCWords d).filter (fun s => !toRemove.contains s) ∧
      (n = 0 → d' = d) := by
  cases d with
  | obj fs =>
      cases fs with
      | nil =>
          exact ⟨.obj [], 0, rfl, h, rfl, fun _ => rfl⟩
      | cons kv rest =>
          cases hm : alistFind (kv :: rest) "meanings" with
          | none =>
              refine ⟨.obj (kv :: rest), 0, ?_, h, ?_, fun _ => rfl⟩
              · simp [remove_words_from_data, pyContains, pyTruthy, hm]
                rfl
              · rw [docCWords, hm]
                rfl
          | some mv =>
              cases mv with
              | arr gs =>
                  rw [wfCDoc, hm] at h
                  obtain ⟨rs, heqr, hall, hflat, hz⟩ :=
                    mapM_removeFromMeaning toRemove gs h
                  refine ⟨.obj (setField (kv :: rest) "meanings"
                    (.arr (rs.map Prod.fst))), (rs.map Prod.snd).sum,
                    ?_, ?_, ?_, ?_⟩
                  · simp only [remove_words_from_data, pyContains, pyTruthy,
                      hm, except_bind_ok, Option.isSome_some, Bool.not_true,
                      Bool.false_eq_true, if_false, List.isEmpty_cons,
                      Bool.not_false, if_true, heqr]
                  · rw [wfCDoc, alistFind_setField_self (kv :: rest)
                      "meanings" (Json.arr (rs.map Prod.fst))
                      (by rw [hm]; rfl)]
                    exact hall
                  · rw [docCWords, alistFind_setField_self (kv :: rest)
                      "meanings" (Json.arr (rs.map Prod.fst))
                      (by rw [hm]; rfl), docCWords, hm]
                    exact hflat
                  · intro hs
                    rw [hz hs, setField_self_id _ "meanings" (.arr gs) hm]
              | null => rw [wfCDoc, hm] at h; cases h
              | bool b => rw [wfCDoc, hm] at h; cases h
              | num n => rw [wfCDoc, hm] at h; cases h
              | str s => rw [wfCDoc, hm] at h; cases h
              | obj fs2 => rw [wfCDoc, hm] at h; cases h
  | null => simp [wfCDoc] at h
  | bool b => simp [wfCDoc] at h
  | num n => simp [wfCDoc] at h
  | str s => simp [wfCDoc] at h
  | arr xs => simp [wfCDoc] at h

theorem mem_filter_not_single (l : List String) (w v : String) :
    (v ∈ l.filter (fun s => !List.contains [w] s)) ↔ (v ∈ l ∧ v ≠ w) := by
  rw [List.mem_filter]
  constructor
  · rintro ⟨hv, hc⟩
    refine ⟨hv, ?_⟩
    intro he
    subst he
    simp at hc
  · rintro ⟨hv, hne⟩
    refine ⟨hv, ?_⟩
    simp [hne]

theorem removeWordFromFiles_spec (w : String) :
    ∀ (files : List String) (disk : List (String × Json)),
      (disk.map Prod.fst).Nodup → (∀ pc ∈ disk, wfCDoc pc.2 = true) →
      ∃ disk', removeWordFromFiles w files disk = .ok disk' ∧
        disk'.map Prod.fst = disk.map Prod.fst ∧
        (∀ pc ∈ disk', wfCDoc pc.2 = true) ∧
        ∀ f d d', alistFind disk f = some d → alistFind disk' f = some d' →
          ∀ v, (v ∈ docCWords d' ↔ v ∈ docCWords d ∧ (f ∈ files → v ≠ w)) := by
  intro files
  induction files with
  | nil =>
      intro disk hnd hwf
      refine ⟨disk, rfl, rfl, hwf, ?_⟩
      intro f d d' hd hd' v
      rw [hd] at hd'
      injection hd' with hd'
      subst hd'
      constructor
      · exact fun h => ⟨h, fun hc => absurd hc (List.not_mem_nil f)⟩
      · exact fun h => h.1
  | cons f0 rest ih =>
      intro disk hnd hwf
      cases hf0 : alistFind disk f0 with
      | none =>
          have hstep : removeWordFromFiles w (f0 :: rest) disk =
              removeWordFromFiles w rest disk := by
            rw [removeWordFromFiles, hf0]
          obtain ⟨disk', heq, hkeys, hwf', hmem⟩ := ih disk hnd hwf
          refine ⟨disk', hstep ▸ heq, hkeys, hwf', ?_⟩
          intro f d d' hd hd' v
          have hne : f ≠ f0 := by
            intro he
            subst he
            rw [hd] at hf0
            cases hf0
          rw [hmem f d d' hd hd' v]
          constructor
          · rintro ⟨h1, h2⟩
            refine ⟨h1, fun hc => ?_⟩
            rcases List.mem_cons.mp hc with hc | hc
            · exact absurd hc hne
            · exact h2 hc
          · rintro ⟨h1, h2⟩
            exact ⟨h1, fun hc => h2 (List.mem_cons_of_mem _ hc)⟩
      | some data =>
          have hwfd : wfCDoc data = true :=
            hwf (f0, data) (alistFind_mem disk f0 data hf0)
          obtain ⟨d0, n, heq0, hwf0, hwords0, hzero0⟩ :=
            remove_words_spec [w] data hwfd
          have hmem0 : ∀ v, v ∈ docCWords d0 ↔ v ∈ docCWords data ∧ v ≠ w := by
            intro v
            rw [hwords0]
            exact mem_filter_not_single _ w v
          set disk2 : List (String × Json) :=
            if n > 0 then setField disk f0 d0 else disk with hd2def
          have hstep : removeWordFromFiles w (f0 :: rest) disk =
              removeWordFromFiles w rest disk2 := by
            rw [removeWordFromFiles, hf0]
            show (remove_words_from_data data [w] >>= fun rc =>
              removeWordFromFiles w rest
                (if rc.2 > 0 then setField disk f0 rc.1 else disk)) = _
            rw [heq0, except_bind_ok]
          have hkeys2 : disk2.map Prod.fst = disk.map Prod.fst := by
            rw [hd2def]
            by_cases hn : n > 0
            · rw [if_pos hn]
              exact setField_keys disk f0 d0 (by rw [hf0]; rfl)
            · rw [if_neg hn]
          have hnd2 : (disk2.map Prod.fst).Nodup := by
            rw [hkeys2]; exact hnd
          have hwf2 : ∀ pc ∈ disk2, wfCDoc pc.2 = true := by
            intro pc hpc
            rw [hd2def] at hpc
            by_cases hn : n > 0
            · rw [if_pos hn] at hpc
              rcases mem_setField disk f0 d0 pc hpc with h | h
              · rw [h]; exact hwf0
              · exact hwf pc h
            · rw [if_neg hn] at hpc
              exact hwf pc hpc
          have hfind2self : alistFind disk2 f0 = some d0 := by
            rw [hd2def]
            by_cases hn : n > 0
            · rw [if_pos hn]
              exact alistFind_setField_self disk f0 d0 (by rw [hf0]; rfl)
            · rw [if_neg hn, hf0]
              rw [hzero0 (Nat.eq_zero_of_not_pos hn)]
          have hfind2ne : ∀ f, f ≠ f0 → alistFind disk2 f = alistFind disk f := by
            intro f hne
            rw [hd2def]
            by_cases hn : n > 0
            · rw [if_pos hn]
              exact alistFind_setField_ne disk f0 f d0 hne
            · rw [if_neg hn]
          obtain ⟨disk', heq, hkeys, hwf', hmem⟩ := ih disk2 hnd2 hwf2
          refine ⟨disk', hstep ▸ heq, hkeys.trans hkeys2, hwf', ?_⟩
          intro f d d' hd hd' v
          by_cases hne : f = f0
          · subst hne
            rw [hd] at hf0
            injection hf0 with hf0
            subst hf0
            rw [hmem f d0 d' hfind2self hd' v, hmem0 v]
            constructor
            · rintro ⟨⟨h1, h2⟩, _⟩
              exact ⟨h1, fun _ => h2⟩
            · rintro ⟨h1, h2⟩
              have hvw : v ≠ w := h2 (List.mem_cons_self _ _)
              exact ⟨⟨h1, hvw⟩, fun _ => hvw⟩
          · rw [hmem f d d' ((hfind2ne f hne).trans hd) hd' v]
            constructor
            · rintro ⟨h1, h2⟩
              refine ⟨h1, fun hc => ?_⟩
              rcases List.mem_cons.mp hc with hc | hc
              · exact absurd hc hne
              · exact h2 hc
            · rintro ⟨h1, h2⟩
              exact ⟨h1, fun hc => h2 (List.mem_cons_of_mem _ hc)⟩

theorem processDuplicates_spec :
    ∀ (dups : List (String × List String)) (disk : List (String × Json)),
      (disk.map Prod.fst).Nodup → (∀ pc ∈ disk, wfCDoc pc.2 = true) →
      (dups.map Prod.fst).Nodup →
      ∃ disk', processDuplicates dups disk = .ok disk' ∧
        disk'.map Prod.fst = disk.map Prod.fst ∧
        (∀ pc ∈ disk', wfCDoc pc.2 = true) ∧
        (∀ v, v ∉ dups.map Prod.fst →
          ∀ f d d', alistFind disk f = some d → alistFind disk' f = some d' →
            (v ∈ docCWords d' ↔ v ∈ docCWords d)) ∧
        (∀ w files, (w, files) ∈ dups →
          (∀ bf, best_file files = some bf →
            ∀ f d d', alistFind disk f = some d →
              alistFind disk' f = some d' →
              (w ∈ docCWords d' ↔
                (w ∈ docCWords d ∧ (f ∈ files → f = bf)))) ∧
          (best_file files = none →
            ∀ f d d', alistFind disk f = some d →
              alistFind disk' f = some d' →
              (w ∈ docCWords d' ↔ w ∈ docCWords d))) := by
  intro dups
  induction dups with
  | nil =>
      intro disk hnd hwf _
      refine ⟨disk, rfl, rfl, hwf, ?_, ?_⟩
      · intro v _ f d d' hd hd'
        rw [hd] at hd'
        injection hd' with hd'
        subst hd'
        exact Iff.rfl
      · intro w files hmem
        cases hmem
  | cons hd0 rest ih =>
      obtain ⟨w0, files0⟩ := hd0
      intro disk hnd hwf hdnd
      rw [List.map_cons, List.nodup_cons] at hdnd
      cases hbf : best_file files0 with
      | none =>
          have hstep : processDuplicates ((w0, files0) :: rest) disk =
              processDuplicates rest disk := by
            rw [processDuplicates, hbf]
          obtain ⟨disk', heq, hkeys, hwf', hpres, hword⟩ :=
            ih disk hnd hwf hdnd.2
          refine ⟨disk', hstep ▸ heq, hkeys, hwf', ?_, ?_⟩
          · intro v hv
            exact hpres v (fun hc => hv (List.mem_cons_of_mem _ hc))
          · intro w files hmem
            rcases List.mem_cons.mp hmem with hmem | hmem
            · injection hmem with he1 he2
              subst he1
              subst he2
              constructor
              · intro bf hbf'
                rw [hbf] at hbf'
                cases hbf'
              · intro _
                exact hpres w hdnd.1
            · exact hword w files hmem
      | some bf =>
          obtain ⟨disk2, heq2, hkeys2, hwf2, hmem2⟩ :=
            removeWordFromFiles_spec w0 (files0.filter (fun f => f ≠ bf))
              disk hnd hwf
          have hstep : processDuplicates ((w0, files0) :: rest) disk =
              processDuplicates rest disk2 := by
            rw [processDuplicates, hbf]
            show (removeWordFromFiles w0 (files0.filter (fun f => f ≠ bf))
              disk >>= fun disk' => processDuplicates rest disk') = _
            rw [heq2, except_bind_ok]
          have hnd2 : (disk2.map Prod.fst).Nodup := by
            rw [hkeys2]; exact hnd
          obtain ⟨disk', heq, hkeys, hwf', hpres, hword⟩ :=
            ih disk2 hnd2 hwf2 hdnd.2
          have hget2 : ∀ f d, alistFind disk f = some d →
              ∃ d2, alistFind disk2 f = some d2 := by
            intro f d hd
            cases h2 : alistFind disk2 f with
            | none =>
                rw [alistFind_eq_none_iff, hkeys2] at h2
                have : alistFind disk f = none :=
                  (alistFind_eq_none_iff disk f).mpr h2
                rw [hd] at this
                cases this
            | some d2 => exact ⟨d2, rfl⟩
          have hfmem : ∀ f, (f ∈ files0.filter (fun f => f ≠ bf)) ↔
              (f ∈ files0 ∧ f ≠ bf) := by
            intro f
            rw [List.mem_filter, decide_eq_true_eq]
          refine ⟨disk', hstep ▸ heq, hkeys.trans hkeys2, hwf', ?_, ?_⟩
          · intro v hv f d d' hd hd'
            obtain ⟨d2, hd2⟩ := hget2 f d hd
            have hvw0 : v ≠ w0 := by
              intro he
              exact hv (he ▸ List.mem_cons_self _ _)
            have h1 := hmem2 f d d2 hd hd2 v
            have h2 := hpres v (fun hc => hv (List.mem_cons_of_mem _ hc))
              f d2 d' hd2 hd'
            rw [h2, h1]
            constructor
            · exact fun h => h.1
            · exact fun h => ⟨h, fun _ => hvw0⟩
          · intro w files hmem
            rcases List.mem_cons.mp hmem with hmemh | hmemt
            · injection hmemh with he1 he2
              subst he1
              subst he2
              constructor
              · intro bf' hbf'
                rw [hbf] at hbf'
                injection hbf' with hbf'
                subst hbf'
                intro f d d' hd hd'
                obtain ⟨d2, hd2⟩ := hget2 f d hd
                have h1 := hmem2 f d d2 hd hd2 w
                have h2 := hpres w hdnd.1 f d2 d' hd2 hd'
                rw [h2, h1]
                constructor
                · rintro ⟨hw, hcond⟩
                  refine ⟨hw, fun hf => ?_⟩
                  by_cases hfb : f = bf
                  · exact hfb
                  · exact absurd rfl (hcond ((hfmem f).mpr ⟨hf, hfb⟩))
                · rintro ⟨hw, hcond⟩
                  refine ⟨hw, fun hf => ?_⟩
                  rcases (hfmem f).mp hf with ⟨hf0, hfb⟩
                  exact absurd (hcond hf0) hfb
              · intro hbf'
                rw [hbf] at hbf'
                cases hbf'
            · have hw0 : w ≠ w0 := by
                intro he
                subst he
                exact hdnd.1 (List.mem_map.mpr ⟨(w, files), hmemt, rfl⟩)
              have hpass : ∀ f d d2, alistFind disk f = some d →
                  alistFind disk2 f = some d2 →
                  (w ∈ docCWords d2 ↔ w ∈ docCWords d) := by
                intro f d d2 hd hd2
                rw [hmem2 f d d2 hd hd2 w]
                constructor
                · exact fun h => h.1
                · exact fun h => ⟨h, fun _ => hw0⟩
              constructor
              · intro bf' hbf' f d d' hd hd'
                obtain ⟨d2, hd2⟩ := hget2 f d hd
                rw [(hword w files hmemt).1 bf' hbf' f d2 d' hd2 hd',
                  hpass f d d2 hd hd2]
              · intro hbf' f d d' hd hd'
                obtain ⟨d2, hd2⟩ := hget2 f d hd
                rw [(hword w files hmemt).2 hbf' f d2 d' hd2 hd',
                  hpass f d d2 hd hd2]

theorem rescanWords_ok :
    ∀ (disk : List (String × Json)) (acc : List String),
      (∀ pc ∈ disk, wfCDoc pc.2 = true) →
      ∃ out, rescanWords disk acc = .ok out := by
  intro disk
  induction disk with
  | nil => intro acc _; exact ⟨acc, rfl⟩
  | cons pc rest ih =>
      obtain ⟨p, data⟩ := pc
      intro acc hwf
      have hwfd : wfCDoc data = true := hwf (p, data) (List.mem_cons_self _ _)
      have hwfr : ∀ pc ∈ rest, wfCDoc pc.2 = true :=
        fun pc hpc => hwf pc (List.mem_cons_of_mem _ hpc)
      cases hpt : pyTruthy data with
      | false =>
          obtain ⟨out, hout⟩ := ih acc hwfr
          refine ⟨out, ?_⟩
          rw [rescanWords, hpt]
          exact hout
      | true =>
          obtain ⟨out, hout⟩ := ih
            (((docCWords data).foldl addNew []).foldl addNew acc) hwfr
          refine ⟨out, ?_⟩
          rw [rescanWords, hpt]
          show (get_words_from_data data >>= fun ws =>
            rescanWords rest (ws.foldl addNew acc)) = _
          rw [get_words_wf data hwfd, except_bind_ok]
          exact hout

theorem pickBest_go (l : List String) :
    ∀ (bf : String) (bp : Nat),
      List.Pairwise (fun a b : String => a ≤ b) l →
      (∀ g ∈ l, bf ≤ g) →
      affixPriority bf = some bp →
      ∃ rf rp, pickBest l (some (bf, bp)) = some (rf, rp) ∧
        affixPriority rf = some rp ∧
        (rf = bf ∨ rf ∈ l) ∧
        rp ≤ bp ∧ (rp = bp → rf = bf) ∧
        ∀ g ∈ l, ∀ rg, affixPriority g = some rg →
          rp < rg ∨ (rg = rp ∧ rf ≤ g) := by
  induction l with
  | nil =>
      intro bf bp _ _ hbf
      exact ⟨bf, bp, rfl, hbf, Or.inl rfl, Nat.le_refl bp, fun _ => rfl,
        fun g hg => absurd hg (List.not_mem_nil g)⟩
  | cons f rest ih =>
      intro bf bp hsort hle hbf
      rw [List.pairwise_cons] at hsort
      have hlef : bf ≤ f := hle f (List.mem_cons_self _ _)
      have hler : ∀ g ∈ rest, bf ≤ g :=
        fun g hg => hle g (List.mem_cons_of_mem _ hg)
      cases hpf : affixPriority f with
      | none =>
          have hstep : pickBest (f :: rest) (some (bf, bp)) =
              pickBest rest (some (bf, bp)) := by
            rw [pickBest, hpf]
          obtain ⟨rf, rp, heq, h1, h2, h3, h4, h5⟩ :=
            ih bf bp hsort.2 hler hbf
          refine ⟨rf, rp, hstep ▸ heq, h1, ?_, h3, h4, ?_⟩
          · rcases h2 with h | h
            · exact Or.inl h
            · exact Or.inr (List.mem_cons_of_mem _ h)
          · intro g hg rg hrg
            rcases List.mem_cons.mp hg with hg | hg
            · subst hg
              rw [hpf] at hrg
              cases hrg
            · exact h5 g hg rg hrg
      | some pr =>
          by_cases hlt : pr < bp
          · have hstep : pickBest (f :: rest) (some (bf, bp)) =
                pickBest rest (some (f, pr)) := by
              rw [pickBest, hpf]
              show (if pr < bp then pickBest rest (some (f, pr))
                else pickBest rest (some (bf, bp))) = _
              rw [if_pos hlt]
            obtain ⟨rf, rp, heq, h1, h2, h3, h4, h5⟩ :=
              ih f pr hsort.2 hsort.1 hpf
            refine ⟨rf, rp, hstep ▸ heq, h1, ?_, ?_, ?_, ?_⟩
            · rcases h2 with h | h
              · exact Or.inr (h ▸ List.mem_cons_self _ _)
              · exact Or.inr (List.mem_cons_of_mem _ h)
            · exact Nat.le_of_lt (Nat.lt_of_le_of_lt h3 hlt)
            · intro he
              rw [he] at h3
              exact absurd (Nat.lt_of_le_of_lt h3 hlt) (Nat.lt_irrefl bp)
            · intro g hg rg hrg
              rcases List.mem_cons.mp hg with hg | hg
              · subst hg
                rw [hpf] at hrg
                injection hrg with hrg
                subst hrg
                rcases Nat.lt_or_ge rp pr with h | h
                · exact Or.inl h
                · have he : pr = rp := Nat.le_antisymm h h3
                  exact Or.inr ⟨he, by rw [h4 he.symm]⟩
              · exact h5 g hg rg hrg
          · have hstep : pickBest (f :: rest) (some (bf, bp)) =
                pickBest rest (some (bf, bp)) := by
              rw [pickBest, hpf]
              show (if pr < bp then pickBest rest (some (f, pr))
                else pickBest rest (some (bf, bp))) = _
              rw [if_neg hlt]
            obtain ⟨rf, rp, heq, h1, h2, h3, h4, h5⟩ :=
              ih bf bp hsort.2 hler hbf
            refine ⟨rf, rp, hstep ▸ heq, h1, ?_, h3, h4, ?_⟩
            · rcases h2 with h | h
              · exact Or.inl h
              · exact Or.inr (List.mem_cons_of_mem _ h)
            · intro g hg rg hrg
              rcases List.mem_cons.mp hg with hg | hg
              · subst hg
                rw [hpf] at hrg
                injection hrg with hrg
                subst hrg
                have hbp : bp ≤ pr := Nat.le_of_not_lt hlt
                rcases Nat.lt_or_ge rp pr with h | h
                · exact Or.inl h
                · have he : pr = rp :=
                    Nat.le_antisymm h (Nat.le_trans h3 hbp)
                  refine Or.inr ⟨he, ?_⟩
                  rw [h4 (Nat.le_antisymm h3 (he ▸ hbp))]
                  exact hlef
              · exact h5 g hg rg hrg

theorem pickBest_from_none (l : List String)
    (hsort : List.Pairwise (fun a b : String => a ≤ b) l) :
    (pickBest l none = none ∧ ∀ g ∈ l, affixPriority g = none) ∨
    (∃ rf rp, pickBest l none = some (rf, rp) ∧
      affixPriority rf = some rp ∧ rf ∈ l ∧
      ∀ g ∈ l, ∀ rg, affixPriority g = some rg →
        rp < rg ∨ (rg = rp ∧ rf ≤ g)) := by
  induction l with
  | nil => exact Or.inl ⟨rfl, fun g hg => absurd hg (List.not_mem_nil g)⟩
  | cons f rest ih =>
      rw [List.pairwise_cons] at hsort
      cases hpf : affixPriority f with
      | none =>
          have hstep : pickBest (f :: rest) none = pickBest rest none := by
            rw [pickBest, hpf]
          rcases ih hsort.2 with ⟨h1, h2⟩ | ⟨rf, rp, heq, h1, h2, h3⟩
          · refine Or.inl ⟨hstep ▸ h1, ?_⟩
            intro g hg
            rcases List.mem_cons.mp hg with hg | hg
            · subst hg; exact hpf
            · exact h2 g hg
          · refine Or.inr ⟨rf, rp, hstep ▸ heq, h1,
              List.mem_cons_of_mem _ h2, ?_⟩
            intro g hg rg hrg
            rcases List.mem_cons.mp hg with hg | hg
            · subst hg
              rw [hpf] at hrg
              cases hrg
            · exact h3 g hg rg hrg
      | some pr =>
          have hstep : pickBest (f :: rest) none =
              pickBest rest (some (f, pr)) := by
            rw [pickBest, hpf]
          obtain ⟨rf, rp, heq, h1, h2, h3, h4, h5⟩ :=
            pickBest_go rest f pr hsort.2 hsort.1 hpf
          refine Or.inr ⟨rf, rp, hstep ▸ heq, h1, ?_, ?_⟩
          · rcases h2 with h | h
            · exact h ▸ List.mem_cons_self _ _
            · exact List.mem_cons_of_mem _ h
          · intro g hg rg hrg
            rcases List.mem_cons.mp hg with hg | hg
            · subst hg
              rw [hpf] at hrg
              injection hrg with hrg
              subst hrg
              rcases Nat.lt_or_ge rp pr with h | h
              · exact Or.inl h
              · have he : pr = rp := Nat.le_antisymm h h3
                exact Or.inr ⟨he, by rw [h4 he.symm]⟩
            · exact h5 g hg rg hrg

theorem best_file_spec (files : List String) :
    (best_file files = none ∧ ∀ g ∈ files, affixPriority g = none) ∨
    (∃ bf rb, best_file files = some bf ∧ affixPriority bf = some rb ∧
      bf ∈ files ∧
      ∀ g ∈ files, ∀ rg, affixPriority g = some rg →
        rb < rg ∨ (rg = rb ∧ bf ≤ g)) := by
  have hsort : List.Pairwise (fun a b : String => a ≤ b)
      (files.insertionSort (fun a b => a ≤ b)) :=
    List.sorted_insertionSort _ files
  rcases pickBest_from_none _ hsort with ⟨h1, h2⟩ | ⟨rf, rp, heq, h1, h2, h3⟩
  · refine Or.inl ⟨?_, ?_⟩
    · rw [best_file, h1]
      rfl
    · intro g hg
      exact h2 g ((List.mem_insertionSort _).mpr hg)
  · refine Or.inr ⟨rf, rp, ?_, h1, (List.mem_insertionSort _).mp h2, ?_⟩
    · rw [best_file, heq]
      rfl
    · intro g hg rg hrg
      exact h3 g ((List.mem_insertionSort _).mpr hg) rg hrg

/-- Fixture for the affix-deduplication claim: one entry tagged by `tag`
under the word `"w"`. -/
def c8doc (tag : Int) : Json :=
  .obj [("meanings", .arr [.obj [("words", .arr [wItem "w" tag])]])]

/-- Fixture disk: the word `"w"` appears in one file of each priority
directory. -/
def disk8 : List (String × Json) :=
  [("pre/a.json", c8doc 1), ("suf/b.json", c8doc 2), ("root/c.json", c8doc 3)]

/-- The word-to-files map built from `disk8`. -/
def wfm8 : List (String × List String) :=
  [("w", ["pre/a.json", "suf/b.json", "root/c.json"])]

/-- The files recorded for `"w"` in `wfm8`. -/
def files8 : List String := ["pre/a.json", "suf/b.json", "root/c.json"]

/-- C8: ranked affix priority.  For a word recorded in more than one affix
file, step 1 of `07clean_data.py` keeps the word in exactly one file — the
file whose immediate directory comes earliest in `PRIORITY_ORDER`
(`pre > suf > root`), with the alphabetically first file winning ties at
that best rank — and removes it from every other file of the word; files
whose directory is not in `PRIORITY_ORDER` have no rank and are never
selected as the best file, and when none of the word's files has a ranked
directory the word's occurrences are left untouched in every file. -/
theorem C8_ranked_affix_priority (disk : List (String × Json))
    (wfm : List (String × List String)) (w : String) (files : List String)
    (hnd : (disk.map Prod.fst).Nodup)
    (hwf : ∀ pc ∈ disk, wfCDoc pc.2 = true)
    (hwfm : buildWfm disk [] = .ok wfm)
    (hfind : alistFind wfm w = some files)
    (hlen : files.length > 1) :
    ∃ disk' finalWords,
      step_1_deduplicate_affixes disk = .ok (disk', finalWords) ∧
      disk'.map Prod.fst = disk.map Prod.fst ∧
      ((∃ bf rb, best_file files = some bf ∧ bf ∈ files ∧
          affixPriority bf = some rb ∧
          (∀ g ∈ files, ∀ rg, affixPriority g = some rg →
            rb < rg ∨ (rg = rb ∧ bf ≤ g)) ∧
          (∀ f d', alistFind disk' f = some d' →
            (w ∈ docCWords d' ↔ f = bf))) ∨
       ((∀ g ∈ files, affixPriority g = none) ∧
        (∀ f d d', alistFind disk f = some d → alistFind disk' f = some d' →
          (w ∈ docCWords d' ↔ w ∈ docCWords d)))) := by
  obtain ⟨wfm', hwfm', hndw, hmemw⟩ := buildWfm_spec disk [] hwf List.nodup_nil
  rw [hwfm] at hwfm'
  injection hwfm' with hwfm'
  subst hwfm'
  have hchar : ∀ f, f ∈ files ↔
      ∃ d, alistFind disk f = some d ∧ w ∈ docCWords d := by
    intro f
    constructor
    · intro hf
      rcases (hmemw w f).mp ⟨files, hfind, hf⟩ with ⟨fs, hfs, _⟩ | ⟨d, hd, hv⟩
      · cases hfs
      · exact ⟨d, alistFind_of_mem_nodup disk f d hd hnd, hv⟩
    · rintro ⟨d, hd, hv⟩
      rcases (hmemw w f).mpr (Or.inr ⟨d, alistFind_mem disk f d hd, hv⟩)
        with ⟨fs, hfs, hffs⟩
      rw [hfind] at hfs
      injection hfs with hfs
      subst hfs
      exact hffs
  have hdmem : (w, files) ∈ wfm.filter (fun kv => kv.2.length > 1) :=
    List.mem_filter.mpr ⟨alistFind_mem wfm w files hfind,
      decide_eq_true hlen⟩
  have hdnd : ((wfm.filter (fun kv => kv.2.length > 1)).map Prod.fst).Nodup :=
    hndw.sublist (List.Sublist.map Prod.fst (List.filter_sublist wfm))
  obtain ⟨disk', heqP, hkeysP, hwfP, hpres, hword⟩ :=
    processDuplicates_spec (wfm.filter (fun kv => kv.2.length > 1)) disk
      hnd hwf hdnd
  obtain ⟨finalWords, heqR⟩ := rescanWords_ok disk' [] hwfP
  have hie : (wfm.filter (fun kv => kv.2.length > 1)).isEmpty = false := by
    cases hie2 : (wfm.filter (fun kv => kv.2.length > 1)).isEmpty with
    | false => rfl
    | true =>
        rw [List.isEmpty_iff.mp hie2] at hdmem
        cases hdmem
  have hstep : step_1_deduplicate_affixes disk = .ok (disk', finalWords) := by
    rw [step_1_deduplicate_affixes]
    show (buildWfm disk [] >>= fun wfm =>
      if (wfm.filter (fun kv => kv.2.length > 1)).isEmpty then
        Except.ok (disk, wfm.map Prod.fst)
      else
        processDuplicates (wfm.filter (fun kv => kv.2.length > 1)) disk >>=
          fun disk' => rescanWords disk' [] >>= fun finalWords =>
            Except.ok (disk', finalWords)) = _
    rw [hwfm, except_bind_ok, hie]
    show (processDuplicates (wfm.filter (fun kv => kv.2.length > 1)) disk >>=
      fun disk' => rescanWords disk' [] >>= fun finalWords =>
        Except.ok (disk', finalWords)) = _
    rw [heqP, except_bind_ok, heqR, except_bind_ok]
  have hgetd : ∀ f d', alistFind disk' f = some d' →
      ∃ d, alistFind disk f = some d := by
    intro f d' hd'
    cases hd : alistFind disk f with
    | none =>
        rw [alistFind_eq_none_iff] at hd
        rw [← hkeysP] at hd
        have : alistFind disk' f = none := (alistFind_eq_none_iff _ _).mpr hd
        rw [hd'] at this
        cases this
    | some d => exact ⟨d, rfl⟩
  refine ⟨disk', finalWords, hstep, hkeysP, ?_⟩
  rcases best_file_spec files with ⟨hbfn, halln⟩ | ⟨bf, rb, hbf, hrb, hbfmem, htie⟩
  · exact Or.inr ⟨halln, fun f d d' hd hd' =>
      (hword w files hdmem).2 hbfn f d d' hd hd'⟩
  · refine Or.inl ⟨bf, rb, hbf, hbfmem, hrb, htie, ?_⟩
    intro f d' hd'
    obtain ⟨d, hd⟩ := hgetd f d' hd'
    have hiff := (hword w files hdmem).1 bf hbf f d d' hd hd'
    rw [hiff]
    constructor
    · rintro ⟨hwd, hcond⟩
      by_cases hfb : f = bf
      · exact hfb
      · exact absurd (hcond ((hchar f).mpr ⟨d, hd, hwd⟩)) hfb
    · intro hfb
      subst hfb
      rcases (hchar f).mp hbfmem with ⟨d0, hd0, hw0⟩
      rw [hd] at hd0
      injection hd0 with hd0
      subst hd0
      exact ⟨hw0, fun _ => rfl⟩

theorem C8_ranked_affix_priority_witness :
    ((disk8.map Prod.fst).Nodup ∧ (∀ pc ∈ disk8, wfCDoc pc.2 = true) ∧
      buildWfm disk8 [] = .ok wfm8 ∧ alistFind wfm8 "w" = some files8 ∧
      files8.length > 1) ∧
    (∃ disk' finalWords,
      step_1_deduplicate_affixes disk8 = .ok (disk', finalWords) ∧
      disk'.map Prod.fst = disk8.map Prod.fst ∧
      ((∃ bf rb, best_file files8 = some bf ∧ bf ∈ files8 ∧
          affixPriority bf = some rb ∧
          (∀ g ∈ files8, ∀ rg, affixPriority g = some rg →
            rb < rg ∨ (rg = rb ∧ bf ≤ g)) ∧
          (∀ f d', alistFind disk' f = some d' →
            ("w" ∈ docCWords d' ↔ f = bf))) ∨
       ((∀ g ∈ files8, affixPriority g = none) ∧
        (∀ f d d', alistFind disk8 f = some d →
          alistFind disk' f = some d' →
          ("w" ∈ docCWords d' ↔ "w" ∈ docCWords d))))) :=
  ⟨⟨by decide, by decide, rfl, rfl, by decide⟩,
    C8_ranked_affix_priority disk8 wfm8 "w" files8 (by decide) (by decide)
      rfl rfl (by decide)⟩
